import Mathlib

/-!
Verification of `string_searching_algorithms.py`: shallow embeddings of the
Knuth-Morris-Pratt matcher, the Z-algorithm matcher, the rolling-hash
generator, the Aho-Corasick automaton with its three scan consumers, the
`addBoldTag` interval-merge-and-tag consumer and Manacher's algorithm,
together with proofs and refutations of the specification's claims.

Strings are embedded as `List α` over an arbitrary alphabet with decidable
equality; the concrete examples use `α = Char`.  Python's arbitrary-precision
integers used as bitsets are embedded as `Nat`; the few places where the
source computes a subtraction that is provably nonnegative are embedded with
truncated `Nat` subtraction and carry a comment justifying the equivalence.
Loops whose termination is not structural are embedded with an explicit fuel
argument; in every case a sufficiency lemma shows that the fuel passed by the
wrapper never runs out, so the fueled function agrees with the source loop.
-/

namespace StringSearch

variable {α : Type} [DecidableEq α]

/-! ## Knuth-Morris-Pratt (`KnuthMorrisPratt`, lines 10-194)

`lpsChase` embeds the shared inner loop
`while l != p[j]: if not j: break; j = lps[j - 1]` followed by the
`else: j += 1` of the surrounding `while`/`else`: it returns `j + 1` for the
first `j` on the chain with `p[j] == l`, and `0` if the chain bottoms out.
The fuel is always called with at least `j + 1`, which suffices because the
chain `j, lps[j-1], ...` is strictly decreasing. -/

def lpsChase (p : List α) (lps : List Nat) : Nat → α → Nat → Nat
  | 0, _, j => j
  | fuel+1, l, j =>
    if p.get? j = some l then j + 1
    else if j = 0 then 0
    else lpsChase p lps fuel l (lps.getD (j-1) 0)

/-- The loop of `constructLPS` (lines 121-133): folds the remaining pattern
elements, appending the chased value each time.  `j` is the previously
appended value. -/
def constructLPSGo (p : List α) : List α → List Nat → Nat → List Nat
  | [], lps, _ => lps
  | l :: rest, lps, j =>
    let j' := lpsChase p lps p.length l j
    constructLPSGo p rest (lps ++ [j']) j'

/-- `KnuthMorrisPratt.constructLPS` (lines 87-133).  For an empty pattern the
source raises `StopIteration` at `next(p_iter)`; the matcher never reads the
LPS array of an empty pattern, so that branch is embedded as `[]`. -/
def constructLPS (p : List α) : List Nat :=
  match p with
  | [] => []
  | _ :: rest => constructLPSGo p rest [0] 0

/-- The scan loop of `KnuthMorrisPratt.matchStartGenerator` (lines 183-194).
`i` is the current text index, `j` the current automaton state, `acc` the
indices yielded so far.  The source yields `i - m + 1` over ℤ; at a yield
point `j' = m` and `j' ≤ i + 1`, so `i + 1 - m` over ℕ is the same value. -/
def kmpGo (p : List α) (lps : List Nat) (m : Nat) :
    List α → Nat → Nat → List Nat → List Nat
  | [], _, _, acc => acc
  | l :: rest, i, j, acc =>
    let j' := lpsChase p lps m l j
    if j' = m then kmpGo p lps m rest (i+1) (lps.getD (m-1) 0) (acc ++ [i + 1 - m])
    else kmpGo p lps m rest (i+1) j' acc

/-- `KnuthMorrisPratt.matchStartGenerator` run to completion (lines 135-194):
the list of all yielded start indices, in order. -/
def kmpMatches (p s : List α) : List Nat :=
  let m := p.length
  if m = 0 then List.range s.length
  else if s.length < m then []
  else kmpGo p (constructLPS p) m s 0 0 []

/-! ## Z algorithm (`ZAlgorithm`, lines 196-347) -/

/-- The inner loop `for rgt in range(start, n): if s[rgt] != s[rgt - lft]:
break / else: rgt = n` of `constructZArray`: first mismatch index in
`[start, n)`, else `n`.  Fuel `n` always suffices since `start` increases. -/
def zInner (s : List α) (lft n : Nat) : Nat → Nat → Nat
  | 0, start => start
  | fuel+1, start =>
    if start < n then
      if s.get? start ≠ s.get? (start - lft) then start
      else zInner s lft n fuel (start+1)
    else n

/-- The outer loop of `constructZArray` (lines 276-284) over `i ∈ [1, n)`,
carrying `lft`, `rgt` and the partially filled array.
The source compares `res[i - lft] < rgt - i` over ℤ; when `rgt ≤ i` the
right-hand side is `≤ 0` and the comparison is false, exactly as with
truncated subtraction (the left side is a natural number).  `lft ≤ i` always
holds (`lft` is only ever set to a previous value of `i`). -/
def zGo (s : List α) (n : Nat) : Nat → Nat → Nat → Nat → List Nat → List Nat
  | 0, _, _, _, res => res
  | fuel+1, i, lft, rgt, res =>
    if i < n then
      if res.getD (i - lft) 0 < rgt - i then
        zGo s n fuel (i+1) lft rgt (res.set i (res.getD (i - lft) 0))
      else
        let rgt' := zInner s i n n (max rgt i)
        zGo s n fuel (i+1) i rgt' (res.set i (rgt' - i))
    else res

/-- `ZAlgorithm.constructZArray` (lines 243-286).  For `n = 0` the source
raises `IndexError` at the final `res[0] = n`; the matcher always calls it
with a nonempty list (the wild separator is always present). -/
def constructZArray (s : List α) : List Nat :=
  let n := s.length
  if n = 0 then [] else (zGo s n n 1 0 1 (List.replicate n 0)).set 0 n

/-- `ZAlgorithm.matchStartGenerator` run to completion (lines 288-347).
Note the source iterates `for i in range(m + 1, n)` with `n = len(s)`
(line 341: `n = n2 - m - 1`), not up to `len(s2)`. -/
def zMatches (p s : List α) (wild : α) : List Nat :=
  let s2 := p ++ [wild] ++ s
  let m := p.length
  let n := s.length
  let z := constructZArray s2
  ((List.range' (m+1) (n - (m+1))).filter (fun i => z.getD i 0 = m)).map
    (fun i => i - (m+1))

/-! ## Rolling hash (`rollingHash`, lines 350-394)

The generator is embedded as a function producing either the full list of
yielded hash tuples or the Python exception that escapes it.  With the
default `func=None` the body executes `val = func(next(iter_obj))` (line 370)
before `iter_obj = iter(s)` (line 375) has run, so `iter_obj` is an unbound
local and the call raises `UnboundLocalError`, which the
`except StopIteration` handler does not catch. -/

inductive PyGen (β : Type) where
  | ok (vals : List β)
  | error (msg : String)
deriving DecidableEq

/-- One pass of `for j, p in enumerate(p_lst): hsh[j] = (hsh[j]*p + val) % md`. -/
def rhStep (p_lst : List Nat) (md : Nat) (hsh : List Nat) (val : Nat) : List Nat :=
  (hsh.zip p_lst).map (fun hp => (hp.1 * hp.2 + val) % md)

/-- The inner loop `for j, p in enumerate(p_lst):
hsh[j] = ((hsh[j] - mults[j] * val_qu.popleft()) * p + val) % md` of the
sliding phase (line 392): `val_qu.popleft()` sits inside the prime loop, so
each prime index `j` pops its own element from the front of the queue.  The
entries walk the zipped `(hsh[j], p_lst[j]), mults[j]` triples, threading the
queue; `none` embeds the `IndexError` Python raises when a `popleft` hits an
empty deque mid-loop.  The subtraction is over ℤ and Python's `%` with a
positive modulus is the Euclidean remainder, i.e. `Int.emod`. -/
def rhSlide (md val : Nat) :
    List ((Nat × Nat) × Nat) → List Nat → Option (List Nat × List Nat)
  | [], qu => some ([], qu)
  | _ :: _, [] => none
  | hpm :: rest, old :: qtail =>
    match rhSlide md val rest qtail with
    | none => none
    | some (hsh', qu') =>
      some (((((hpm.1.1 : Int) - hpm.2 * old) * hpm.1.2 + val).emod md).toNat
        :: hsh', qu')

/-- The sliding loop (`for i in itertools.count(length)`), carrying the
remaining input, the window queue `val_qu` and the current hash vector.
Each iteration appends the new value to the queue (line 390) before the
inner prime loop pops one element per prime (line 392), so the queue shrinks
by `len(p_lst) - 1` every slide and the generator raises `IndexError` once
it drains mid-loop. -/
def rhRun (p_lst mults : List Nat) (md : Nat) :
    List Nat → List Nat → List Nat → PyGen (List Nat) → PyGen (List Nat)
  | [], _, _, acc => acc
  | v :: rest, qu, hsh, acc =>
    match acc with
    | .error m => .error m
    | .ok vals =>
      match rhSlide md v ((hsh.zip p_lst).zip mults) (qu ++ [v]) with
      | none => .error "IndexError: pop from an empty deque"
      | some (hsh', qu') =>
        rhRun p_lst mults md rest qu' hsh' (.ok (vals ++ [hsh']))

/-- `rollingHash(s, length, p_lst, md, func)` run to completion.  `func` is
the optional transformation argument; `none` embeds the default `func=None`.
Elements are embedded as naturals (the source applies `func` to make them
integers). -/
def rollingHash (s : List Nat) (length : Nat) (p_lst : List Nat) (md : Nat)
    (func : Option (Nat → Nat)) : PyGen (List Nat) :=
  if s.length < length then .ok []
  else
    match func with
    | none => .error "UnboundLocalError: iter_obj referenced before assignment"
    | some f =>
      let vals := s.map f
      let w := vals.take length
      let hsh0 := w.foldl (fun hsh val => rhStep p_lst md hsh val)
        (List.replicate p_lst.length 0)
      let mults := p_lst.map (fun p => p ^ length % md)
      rhRun p_lst mults md (vals.drop length) w hsh0 (.ok [hsh0])

/-! ## Manacher's algorithm (`manacherAlgorithm`, lines 614-686) -/

/-- The expansion loop `while i - res[i] - 1 >= 0 and i + res[i] + 1 < len(s)
and s[i + res[i] + 1] == s[i - res[i] - 1]: res[i] += 1`.
`i - r - 1 >= 0` over ℤ is `r + 1 ≤ i` over ℕ.  Fuel `n` always suffices
since `i + r` is bounded by `n`. -/
def manExpand (s : List α) (n i : Nat) : Nat → Nat → Nat
  | 0, r => r
  | fuel+1, r =>
    if r + 1 ≤ i ∧ i + r + 1 < n ∧ s.get? (i + r + 1) = s.get? (i - (r+1)) then
      manExpand s n i fuel (r + 1)
    else r

/-- The main loop of `manacherAlgorithm` over `i ∈ [0, n)`, carrying
`curr_centre`, `curr_right` and the partially filled array.  The source's
`max_val`/`max_i` bookkeeping is dead code (never returned) and is omitted.
`mirror = (curr_centre << 1) - i` is computed over ℤ in the source; under the
loop invariant `2 * curr_centre ≥ i` whenever `i < curr_right`, so truncated
subtraction agrees. -/
def manGo (s : List α) (n : Nat) : Nat → Nat → Nat → Nat → List Nat → List Nat
  | 0, _, _, _, res => res
  | fuel+1, i, c, rt, res =>
    if i < n then
      let seed := if i < rt then min (res.getD (2*c - i) 0) (rt - i)
                  else res.getD i 0
      let r := manExpand s n i n seed
      let res' := res.set i r
      if rt < i + r then manGo s n fuel (i+1) i (i + r) res'
      else manGo s n fuel (i+1) c rt res'
    else res

/-- `manacherAlgorithm` (lines 614-686). -/
def manacherAlgorithm (s : List α) : List Nat :=
  let n := s.length
  manGo s n n 0 0 0 (List.replicate n 0)

/-- `s` restricted to `[i - r, i + r]` is a palindrome centred at `i`. -/
def palAt (s : List α) (i r : Nat) : Prop :=
  r ≤ i ∧ i + r < s.length ∧ ∀ k < r + 1, s.get? (i + k) = s.get? (i - k)

instance (s : List α) (i r : Nat) : Decidable (palAt s i r) := by
  unfold palAt; infer_instance

/-- The brute-force maximal odd-palindrome radius at centre `i`. -/
def maxRadius (s : List α) (i : Nat) : Nat :=
  Nat.findGreatest (palAt s i) s.length

/-! ## Brute-force reference matcher -/

/-- Brute-force substring scanning: all indices `i` with
`text[i : i + len(pattern)]` equal to the pattern. -/
def bruteMatches (p s : List α) : List Nat :=
  (List.range (s.length + 1)).filter (fun i => (s.drop i).take p.length = p)

/-- `p` occurs in `s` starting at index `t`. -/
def occursAt (s p : List α) (t : Nat) : Prop :=
  t + p.length ≤ s.length ∧ (s.drop t).take p.length = p

instance (s p : List α) (t : Nat) : Decidable (occursAt s p t) := by
  unfold occursAt; infer_instance

/-- The longest `k ≤ C` such that the length-`k` prefix of `p` is a suffix
of `t` (the border bookkeeping underlying the LPS array and the KMP scan
state). -/
def borderFG (p t : List α) (C : Nat) : Nat :=
  Nat.findGreatest (fun k => p.take k <:+ t) C

/-- The start indices of the matches of `p` whose end position lies in
`[0, i)`, in ascending order: the reference value of the KMP accumulator. -/
def kmpEnds (p s : List α) (i : Nat) : List Nat :=
  ((List.range i).filter (fun e => decide (p <:+ s.take (e+1)))).map
    (fun e => e + 1 - p.length)

/-! ## Aho-Corasick (`AhoCorasick`, lines 422-525)

Python `dict`s (insertion-ordered, keys inserted at most once here) are
embedded as association lists; node attribute arrays are lists indexed by
node id.  The root's failure entry is `-1` in the source but is never read
(both failure-chasing loops are guarded by `while j and ...`, and the BFS
only pops non-root nodes), so it is embedded as `0`. -/

/-- `dict` lookup on an association list. -/
def alookup : List (α × Nat) → α → Option Nat
  | [], _ => none
  | (k, v) :: rest, l => if k = l then some v else alookup rest l

structure AC (α : Type) where
  goto : List (List (α × Nat))
  failure : List Nat
  out : List Nat
  out_lens : List Nat
  words : List (List α)

/-- The per-word insertion walk of `buildAutomaton` (lines 444-452): follow
or create transitions, returning the updated arrays and the terminal node. -/
def acInsertFrom (st : AC α) : Nat → List α → AC α × Nat
  | j, [] => (st, j)
  | j, l :: rest =>
    match alookup (st.goto.getD j []) l with
    | some c => acInsertFrom st c rest
    | none =>
      let c := st.goto.length
      acInsertFrom { st with
        goto := (st.goto.set j ((st.goto.getD j []) ++ [(l, c)])) ++ [[]]
        failure := st.failure ++ [0]
        out := st.out ++ [0]
        out_lens := st.out_lens ++ [0] } c rest

/-- Insert word number `i` and set its bits (lines 443-454):
`out[j] |= 1 << i; out_lens[j] |= 1 << len(w)`. -/
def acAddWord (st : AC α) (i : Nat) (w : List α) : AC α :=
  let p := acInsertFrom st 0 w
  { p.1 with
    out := p.1.out.set p.2 (p.1.out.getD p.2 0 ||| 2^i)
    out_lens := p.1.out_lens.set p.2 (p.1.out_lens.getD p.2 0 ||| 2^w.length) }

/-- The state after `__init__`'s attribute initialisation (lines 435-439). -/
def acEmpty (words : List (List α)) : AC α := ⟨[[]], [0], [0], [0], words⟩

/-- The trie-construction phase of `buildAutomaton` (first loop,
lines 443-454), before failure links are computed. -/
def acTrie (words : List (List α)) : AC α :=
  words.enum.foldl (fun st iw => acAddWord st iw.1 iw.2) (acEmpty words)

/-- The failure chase `while j and l not in self.goto[j].keys():
j = self.failure[j]` shared by `buildAutomaton` and `_findNext`.  Fuel
`goto.length` always suffices: the chain strictly decreases node depth. -/
def acChase (goto : List (List (α × Nat))) (failure : List Nat) :
    Nat → α → Nat → Nat
  | 0, _, j => j
  | fuel+1, l, j =>
    if j = 0 then j
    else
      match alookup (goto.getD j []) l with
      | some _ => j
      | none => acChase goto failure fuel l (failure.getD j 0)

/-- `_findNext(j, l)` (lines 471-474), also the last two lines of the BFS
body: chase, then `self.goto[j].get(l, 0)`. -/
def acNext (goto : List (List (α × Nat))) (failure : List Nat)
    (j : Nat) (l : α) : Nat :=
  (alookup (goto.getD (acChase goto failure goto.length l j) []) l).getD 0

/-- The inner `for l, j2 in self.goto[j].items()` of the BFS (lines 460-468),
threading `(failure, out, out_lens, queue)`. -/
def acBfsEdges (goto : List (List (α × Nat))) (j : Nat) :
    List (α × Nat) → List Nat × List Nat × List Nat × List Nat →
    List Nat × List Nat × List Nat × List Nat
  | [], st => st
  | (l, j2) :: rest, (failure, out, out_lens, queue) =>
    let jf := acNext goto failure (failure.getD j 0) l
    acBfsEdges goto j rest
      (failure.set j2 jf,
       out.set j2 (out.getD j2 0 ||| out.getD jf 0),
       out_lens.set j2 (out_lens.getD j2 0 ||| out_lens.getD jf 0),
       queue ++ [j2])

/-- The BFS loop `while queue:` of `buildAutomaton` (lines 456-468).  Fuel
`goto.length` always suffices: every node is enqueued at most once. -/
def acBfsGo (goto : List (List (α × Nat))) :
    Nat → List Nat × List Nat × List Nat → List Nat →
    List Nat × List Nat × List Nat
  | 0, st, _ => st
  | _+1, st, [] => st
  | fuel+1, (failure, out, out_lens), j :: queue =>
    let st' := acBfsEdges goto j (goto.getD j []) (failure, out, out_lens, queue)
    acBfsGo goto fuel (st'.1, st'.2.1, st'.2.2.1) st'.2.2.2

/-- `AhoCorasick(words)`: the fully built automaton (`__init__` +
`buildAutomaton`). -/
def acBuild (words : List (List α)) : AC α :=
  let t := acTrie words
  let r := acBfsGo t.goto t.goto.length (t.failure, t.out, t.out_lens)
    ((t.goto.getD 0 []).map Prod.snd)
  { goto := t.goto, failure := r.1, out := r.2.1, out_lens := r.2.2, words := t.words }

/-- `res.setdefault(w, []); res[w].append(v)` on an association list. -/
def addHit : List (List α × List Nat) → List α → Nat → List (List α × List Nat)
  | [], w, v => [(w, [v])]
  | (w', ts) :: rest, w, v =>
    if w' = w then (w', ts ++ [v]) :: rest else (w', ts) :: addHit rest w v

/-- The inner `for idx, w in enumerate(self.words)` of `search`
(lines 486-491) with its `if not bm: break` and bit scan.  The source
records `i - len(w) + 1` over ℤ; a bit is only ever set for a word that is a
suffix of the scanned prefix `s[0..i]`, so `len(w) ≤ i + 1` and the ℕ value
`i + 1 - len(w)` agrees. -/
def searchWordLoop : List (List α) → Nat → Nat →
    List (List α × List Nat) → List (List α × List Nat)
  | [], _, _, res => res
  | w :: ws, bm, i, res =>
    if bm = 0 then res
    else
      searchWordLoop ws (bm / 2) i
        (if bm % 2 = 1 then addHit res w (i + 1 - w.length) else res)

/-- The text scan of `search` (lines 481-492). -/
def acSearchGo (ac : AC α) : List α → Nat → Nat →
    List (List α × List Nat) → List (List α × List Nat)
  | [], _, _, res => res
  | l :: rest, i, j, res =>
    let j' := acNext ac.goto ac.failure j l
    acSearchGo ac rest (i+1) j' (searchWordLoop ac.words (ac.out.getD j' 0) i res)

/-- `AhoCorasick(words).search(s)`: mapping from pattern to list of start
indices, as an insertion-ordered association list. -/
def acSearch (words : List (List α)) (s : List α) : List (List α × List Nat) :=
  acSearchGo (acBuild words) s 0 0 []

/-- The automaton state after each character of `s` (the successive values
of `j` in any of the three scan loops). -/
def acStatesGo (ac : AC α) : List α → Nat → List Nat
  | [], _ => []
  | l :: rest, j =>
    let j' := acNext ac.goto ac.failure j l
    j' :: acStatesGo ac rest j'

/-- The ascending list of set bit positions of `bm`, as produced by
`while bm: if bm & 1: res.append(idx); idx += 1; bm >>= 1`.  Fuel `bm`
suffices (`bm` at least halves each step). -/
def bitIndices : Nat → Nat → Nat → List Nat
  | 0, _, _ => []
  | fuel+1, bm, idx =>
    if bm = 0 then []
    else (if bm % 2 = 1 then [idx] else []) ++ bitIndices fuel (bm / 2) (idx+1)

/-- `AhoCorasick(words).searchEndIndices(s)` run to completion
(lines 494-511): per text index, the pattern ids whose match ends there. -/
def acSearchEndIndices (words : List (List α)) (s : List α) :
    List (Nat × List Nat) :=
  let ac := acBuild words
  (acStatesGo ac s 0).enum.map
    (fun ij => (ij.1, bitIndices (ac.out.getD ij.2 0) (ac.out.getD ij.2 0) 0))

/-- `AhoCorasick(words).searchLengths(s)` run to completion (lines 513-525):
per text index, the matched lengths ending there. -/
def acSearchLengths (words : List (List α)) (s : List α) : List (List Nat) :=
  let ac := acBuild words
  (acStatesGo ac s 0).map
    (fun j => bitIndices (ac.out_lens.getD j 0) (ac.out_lens.getD j 0) 0)

/-- The (pattern, start-index) pairs reported by `search`, with
multiplicity. -/
def acSearchPairs (words : List (List α)) (s : List α) : List (List α × Nat) :=
  (acSearch words s).flatMap (fun wt => wt.2.map (fun t => (wt.1, t)))

/-- The (pattern, start-index) pairs found by running KMP independently for
each pattern. -/
def kmpPairs (words : List (List α)) (s : List α) : List (List α × Nat) :=
  words.flatMap (fun w => (kmpMatches w s).map (fun t => (w, t)))

/-! ### Specification-side notions for the automaton

`walk` follows exact transitions from a node; `strOf` reconstructs the
unique root path of a node; the `is...Spec` predicates characterise failure
links, the step function and the scan state in terms of node paths. -/

/-- Follow exact `goto` transitions spelling `u` from node `j`. -/
def walk (goto : List (List (α × Nat))) : List α → Nat → Option Nat
  | [], j => some j
  | l :: rest, j =>
    match alookup (goto.getD j []) l with
    | some c => walk goto rest c
    | none => none

/-- The label of the edge into `c` in one adjacency list, if present. -/
def findInNode : List (α × Nat) → Nat → Option α
  | [], _ => none
  | (l, c') :: rest, c => if c' = c then some l else findInNode rest c

/-- Scan adjacency lists for the edge into `c`, returning (parent, label). -/
def findEdge : List (List (α × Nat)) → Nat → Nat → Option (Nat × α)
  | [], _, _ => none
  | g :: rest, c, j =>
    match findInNode g c with
    | some l => some (j, l)
    | none => findEdge rest c (j+1)

/-- The unique (parent, label) edge into node `c` of a trie. -/
def parentEdge (goto : List (List (α × Nat))) (c : Nat) : Option (Nat × α) :=
  findEdge goto c 0

/-- The root path of node `c`, rebuilt through parent edges.  Fuel `c`
suffices because parents have smaller ids. -/
def strOfGo (goto : List (List (α × Nat))) : Nat → Nat → List α
  | 0, _ => []
  | fuel+1, c =>
    if c = 0 then []
    else
      match parentEdge goto c with
      | some (j, l) => strOfGo goto fuel j ++ [l]
      | none => []

/-- The root path of node `c`. -/
def strOf (goto : List (List (α × Nat))) (c : Nat) : List α :=
  strOfGo goto c c

/-- Structural invariants of the built trie. -/
structure TrieInv (st : AC α) : Prop where
  len_fail : st.failure.length = st.goto.length
  len_out : st.out.length = st.goto.length
  len_olens : st.out_lens.length = st.goto.length
  root_lt : 0 < st.goto.length
  edges_lt : ∀ j l c, (l, c) ∈ st.goto.getD j [] → j < c ∧ c < st.goto.length
  keys_nodup : ∀ j, ((st.goto.getD j []).map Prod.fst).Nodup
  parent_uniq : ∀ c j1 l1 j2 l2, (l1, c) ∈ st.goto.getD j1 [] →
    (l2, c) ∈ st.goto.getD j2 [] → j1 = j2 ∧ l1 = l2
  parent_ex : ∀ c, 1 ≤ c → c < st.goto.length →
    ∃ j l, (l, c) ∈ st.goto.getD j []

/-- `st'` extends `st`: transitions are preserved and the other arrays have
unchanged entries. -/
def Extends (st st' : AC α) : Prop :=
  st.goto.length ≤ st'.goto.length ∧
  (∀ x (l : α) c, alookup (st.goto.getD x []) l = some c →
    alookup (st'.goto.getD x []) l = some c) ∧
  (∀ x, st'.out.getD x 0 = st.out.getD x 0) ∧
  (∀ x, st'.out_lens.getD x 0 = st.out_lens.getD x 0) ∧
  (∀ x, st'.failure.getD x 0 = st.failure.getD x 0) ∧
  st'.words = st.words

/-- The invariant carried through the word-insertion loop: after the first
`i` words have been inserted, the bitsets record exactly the terminal nodes
of those words. -/
structure BuildInv (W : List (List α)) (i : Nat) (st : AC α) : Prop where
  inv : TrieInv st
  words_eq : st.words = W
  inserted : ∀ k, k < i → ∃ t, walk st.goto (W.getD k []) 0 = some t
  out_bits : ∀ j k, (st.out.getD j 0).testBit k ↔
      (k < i ∧ walk st.goto (W.getD k []) 0 = some j)
  olens_bits : ∀ j ℓ, (st.out_lens.getD j 0).testBit ℓ ↔
      ∃ k, k < i ∧ (W.getD k []).length = ℓ ∧ walk st.goto (W.getD k []) 0 = some j
  fail_zero : ∀ j, st.failure.getD j 0 = 0

/-- `f` is the failure target of `j`: the node of the longest proper suffix
of `j`'s path that is itself a node path. -/
def isFailSpec (goto : List (List (α × Nat))) (j f : Nat) : Prop :=
  f < goto.length ∧ strOf goto f <:+ strOf goto j ∧
  (strOf goto f).length < (strOf goto j).length ∧
  ∀ c, c < goto.length → strOf goto c <:+ strOf goto j →
    (strOf goto c).length < (strOf goto j).length →
    (strOf goto c).length ≤ (strOf goto f).length

/-- `c` is the node of the longest suffix of `u` that is a node path. -/
def isDeltaSpec (goto : List (List (α × Nat))) (u : List α) (c : Nat) : Prop :=
  c < goto.length ∧ strOf goto c <:+ u ∧
  ∀ c', c' < goto.length → strOf goto c' <:+ u →
    (strOf goto c').length ≤ (strOf goto c).length

/-- A node is settled once its parent is the root or has been popped. -/
def isSettled (goto : List (List (α × Nat))) (popped : List Nat) (c : Nat) :
    Prop :=
  c = 0 ∨ ∃ j l, parentEdge goto c = some (j, l) ∧ (j = 0 ∨ j ∈ popped)

/-- The correct settled values of a non-root node during and after the BFS:
the failure link satisfies its specification, and the bitsets are the trie
bitsets, inherited through the failure link except for depth-one nodes
(whose inheritance the source skips). -/
def nodeVals (T : AC α) (fail out olens : List Nat) (c : Nat) : Prop :=
  isFailSpec T.goto c (fail.getD c 0) ∧
  ∀ pj pl, parentEdge T.goto c = some (pj, pl) →
    (pj = 0 → out.getD c 0 = T.out.getD c 0 ∧
      olens.getD c 0 = T.out_lens.getD c 0) ∧
    (pj ≠ 0 → out.getD c 0 = T.out.getD c 0 ||| out.getD (fail.getD c 0) 0 ∧
      olens.getD c 0 = T.out_lens.getD c 0 ||| olens.getD (fail.getD c 0) 0)

/-- The invariant of the breadth-first failure computation.  `T` is the
freshly built trie (whose arrays hold the initial values), `S` the list of
settled nodes, `popped` the processed queue entries. -/
structure BfsInv (T : AC α) (fail out olens : List Nat)
    (queue popped S : List Nat) : Prop where
  len_f : fail.length = T.goto.length
  len_o : out.length = T.goto.length
  len_ol : olens.length = T.goto.length
  s_zero : 0 ∈ S
  s_lt : ∀ c ∈ S, c < T.goto.length
  q_sub : ∀ c ∈ queue, c ∈ S ∧ c ≠ 0
  p_sub : ∀ c ∈ popped, c ∈ S ∧ c ≠ 0
  q_nodup : queue.Nodup
  p_nodup : popped.Nodup
  cover : ∀ c ∈ S, c ≠ 0 → (c ∈ queue ↔ c ∉ popped)
  s_root : ∀ (l : α) c, (l, c) ∈ T.goto.getD 0 [] → c ∈ S
  s_closed : ∀ p ∈ popped, ∀ (l : α) c, (l, c) ∈ T.goto.getD p [] → c ∈ S
  s_from : ∀ c ∈ S, c ≠ 0 → ∃ jj ll, parentEdge T.goto c = some (jj, ll) ∧
    (jj = 0 ∨ jj ∈ popped)
  unsettled : ∀ c, c < T.goto.length → c ∉ S →
    fail.getD c 0 = 0 ∧ out.getD c 0 = T.out.getD c 0 ∧
    olens.getD c 0 = T.out_lens.getD c 0
  root_vals : out.getD 0 0 = T.out.getD 0 0 ∧
    olens.getD 0 0 = T.out_lens.getD 0 0
  vals : ∀ c ∈ S, c ≠ 0 → nodeVals T fail out olens c ∧ fail.getD c 0 ∈ S
  q_sorted : queue.Pairwise
    (fun a b => (strOf T.goto a).length ≤ (strOf T.goto b).length)
  q_layer : ∀ c ∈ queue, ∀ y, y < T.goto.length →
    (strOf T.goto y).length < (strOf T.goto c).length → y ∈ S
  q_bound : ∀ h, queue.head? = some h → ∀ c ∈ queue,
    (strOf T.goto c).length ≤ (strOf T.goto h).length + 1

/-- The array-correctness core shared by the BFS invariant and the states
in the middle of one `acBfsEdges` fold: lengths, values of settled and
unsettled nodes, and the untouched root entries. -/
structure MidInv (T : AC α) (fail out olens : List Nat) (S : List Nat) : Prop where
  len_f : fail.length = T.goto.length
  len_o : out.length = T.goto.length
  len_ol : olens.length = T.goto.length
  s_lt : ∀ c ∈ S, c < T.goto.length
  root_vals : out.getD 0 0 = T.out.getD 0 0 ∧
    olens.getD 0 0 = T.out_lens.getD 0 0
  unsettled : ∀ c, c < T.goto.length → c ∉ S →
    fail.getD c 0 = 0 ∧ out.getD c 0 = T.out.getD c 0 ∧
    olens.getD c 0 = T.out_lens.getD c 0
  vals : ∀ c ∈ S, c ≠ 0 → nodeVals T fail out olens c ∧ fail.getD c 0 ∈ S

/-- The scan state after consuming `t`. -/
def acStateFold (ac : AC α) (t : List α) : Nat :=
  t.foldl (fun j l => acNext ac.goto ac.failure j l) 0

/-- How many pattern ids of `ws` carry the word `w` and have their bit set
in `bm` (the number of `addHit` calls `searchWordLoop` makes under key `w`). -/
def hitCount : Nat → List (List α) → List α → Nat
  | _, [], _ => 0
  | bm, x :: rest, w =>
    (if x = w ∧ bm % 2 = 1 then 1 else 0) + hitCount (bm / 2) rest w

/-- The start indices the text scan of `search` appends under key `w` while
consuming the remaining text, having already consumed `i` characters and
reached state `x`. -/
def acHitsGo (ac : AC α) (w : List α) : List α → Nat → Nat → List Nat
  | [], _, _ => []
  | l :: rest, i, x =>
    let y := acNext ac.goto ac.failure x l
    List.replicate (hitCount (ac.out.getD y 0) ac.words w) (i + 1 - w.length) ++
      acHitsGo ac w rest (i+1) y

/-- The list of start indices recorded under key `w` (first occurrence, as
Python `dict` lookup). -/
def lookupList (res : List (List α × List Nat)) (w : List α) : List Nat :=
  match res with
  | [] => []
  | (w', ts) :: rest => if w' = w then ts else lookupList rest w

/-! ## `addBoldTag` (lines 558-612)

The output is embedded as the list `res` of appended pieces before the final
`"".join`: literal slices of `s` and the two inserted markers.  This keeps
the inserted markers distinguishable from text of `s`, exactly as they are
in the source's `res` list. -/

inductive Seg (α : Type) where
  | str (xs : List α)
  | bOpen
  | bClose
deriving DecidableEq

/-- Python slice `s[a:b]` for nonnegative `a`, `b`. -/
def pySlice (s : List α) (a b : Nat) : List α := (s.take b).drop a

/-- The per-pattern range merge (lines 574-580), carrying the current last
range (the source mutates `rngs[i][-1][1]` in place). -/
def mergeStartsGo (length : Nat) : List Nat → Nat × Nat → List (Nat × Nat) →
    List (Nat × Nat)
  | [], cur, acc => acc ++ [cur]
  | j :: rest, cur, acc =>
    if cur.2 < j then mergeStartsGo length rest (j, j + length) (acc ++ [cur])
    else mergeStartsGo length rest (cur.1, j + length) acc

/-- Merged, disjoint occurrence ranges `[j, j + length]` for one pattern. -/
def mergeStarts (length : Nat) : List Nat → List (Nat × Nat)
  | [] => []
  | j :: rest => mergeStartsGo length rest (j, j + length) []

/-- A heap entry `[i1, neg_i2, j, idx]`, stored as `(i1, i2, j, idx)`. -/
abbrev Ent := Nat × Nat × Nat × Nat

/-- Python's lexicographic order on `[i1, -i2, j, idx]` (the second
component is negated in the source, so it compares reversed). -/
def entLt (a b : Ent) : Bool :=
  a.1 < b.1 ∨ (a.1 = b.1 ∧ (b.2.1 < a.2.1 ∨ (a.2.1 = b.2.1 ∧
    (a.2.2.1 < b.2.2.1 ∨ (a.2.2.1 = b.2.2.1 ∧ a.2.2.2 < b.2.2.2)))))

/-- The minimum heap entry (`heapq.heappop` returns the minimum; entries are
pairwise distinct since each carries its pattern index). -/
def minEnt : Ent → List Ent → Ent
  | e, [] => e
  | e, x :: rest => if entLt x e then minEnt x rest else minEnt e rest

/-- `if j + 1 < len(rngs[idx]): heapq.heappush(heap, ...)` (lines 591-592
and 607-608). -/
def pushNext (rngs : List (List (Nat × Nat))) (heap : List Ent) (j idx : Nat) :
    List Ent :=
  if j + 1 < (rngs.getD idx []).length then
    heap ++ [(((rngs.getD idx []).getD (j+1) (0,0)).1,
              ((rngs.getD idx []).getD (j+1) (0,0)).2, j+1, idx)]
  else heap

/-- The `while heap:` loop (lines 593-608), returning the accumulated pieces
and the final `bs_i`, `be_i`.  Fuel equal to the total number of ranges
always suffices: each iteration consumes one range cursor position. -/
def boldLoop (s : List α) (n : Nat) (rngs : List (List (Nat × Nat))) :
    Nat → List Ent → Nat → Nat → List (Seg α) → List (Seg α) × Nat × Nat
  | 0, _, bs, be, acc => (acc, bs, be)
  | _+1, [], bs, be, acc => (acc, bs, be)
  | fuel+1, h :: hs, bs, be, acc =>
    let e := minEnt h hs
    let heap := (h :: hs).erase e
    if e.1 ≤ be then
      let be' := max be e.2.1
      if be' = n then (acc, bs, be')
      else boldLoop s n rngs fuel (pushNext rngs heap e.2.2.1 e.2.2.2) bs be' acc
    else
      let acc' := acc ++ [.str (pySlice s bs be), .bClose, .str (pySlice s be e.1), .bOpen]
      if e.2.1 = n then (acc', e.1, e.2.1)
      else boldLoop s n rngs fuel (pushNext rngs heap e.2.2.1 e.2.2.2) e.1 e.2.1 acc'

/-- `addBoldTag(s, words)` (lines 558-612), as the list of pieces whose
join is the returned string. -/
def addBoldTag (s : List α) (words : List (List α)) : List (Seg α) :=
  let n := s.length
  if n = 0 then [.str s]
  else
    let sd := acSearch words s
    match sd with
    | [] => [.str s]
    | _ =>
      let rngs := sd.map (fun wt => mergeStarts wt.1.length wt.2)
      let heap0 : List Ent := rngs.enum.map
        (fun ir => ((ir.2.getD 0 (0,0)).1, (ir.2.getD 0 (0,0)).2, 0, ir.1))
      match heap0 with
      | [] => [.str s]
      | h :: hs =>
        let e := minEnt h hs
        let heap1 := (h :: hs).erase e
        let acc0 := (if e.1 ≠ 0 then [Seg.str (s.take e.1)] else []) ++ [Seg.bOpen]
        let heap2 := pushNext rngs heap1 e.2.2.1 e.2.2.2
        let r := boldLoop s n rngs ((rngs.map List.length).sum) heap2 e.1 e.2.1 acc0
        r.1 ++ [.str (pySlice s r.2.1 r.2.2), .bClose] ++
          (if r.2.2 < n then [Seg.str (s.drop r.2.2)] else [])

/-- The markers rendered for strings: the `"".join(res)` of the source. -/
def renderSeg : Seg Char → List Char
  | .str xs => xs
  | .bOpen => "<b>".toList
  | .bClose => "</b>".toList

/-- `addBoldTag` as the actual returned string. -/
def addBoldTagString (s : String) (words : List String) : String :=
  ⟨(addBoldTag s.toList (words.map String.toList)).flatMap renderSeg⟩

/-- Deleting the inserted markers: the concatenation of the literal and
tagged text pieces. -/
def stripTags : List (Seg α) → List α
  | [] => []
  | .str xs :: rest => xs ++ stripTags rest
  | .bOpen :: rest => stripTags rest
  | .bClose :: rest => stripTags rest

/-- The tagged spans `[start, end)` of a piece list, by cumulative position
of the text pieces. -/
def spansGo : List (Seg α) → Nat → Option Nat → List (Nat × Nat)
  | [], _, _ => []
  | .str xs :: rest, pos, pending => spansGo rest (pos + xs.length) pending
  | .bOpen :: rest, pos, _ => spansGo rest pos (some pos)
  | .bClose :: rest, pos, pending =>
    match pending with
    | some a => (a, pos) :: spansGo rest pos none
    | none => spansGo rest pos none

/-- The tagged spans of a piece list. -/
def spansOf (segs : List (Seg α)) : List (Nat × Nat) := spansGo segs 0 none

/-- The text position after rendering a piece list (markers have width zero
for span bookkeeping). -/
def segPos : List (Seg α) → Nat → Nat
  | [], pos => pos
  | .str xs :: rest, pos => segPos rest (pos + xs.length)
  | .bOpen :: rest, pos => segPos rest pos
  | .bClose :: rest, pos => segPos rest pos

/-- The pending open-marker position after a piece list. -/
def segPend : List (Seg α) → Nat → Option Nat → Option Nat
  | [], _, pd => pd
  | .str xs :: rest, pos, pd => segPend rest (pos + xs.length) pd
  | .bOpen :: rest, pos, _ => segPend rest pos (some pos)
  | .bClose :: rest, pos, _ => segPend rest pos none

/-- The invariant of the `while heap:` loop of `addBoldTag`: the
accumulated pieces spell the text up to `bs` and end in an open marker at
`bs`; the spans already closed are chained with at least one plain
character between consecutive spans, also before the pending span
`[bs, be)`. -/
structure BoldInv (s : List α) (n : Nat) (acc : List (Seg α))
    (bs be : Nat) : Prop where
  strip : stripTags acc = s.take bs
  bs_le : bs ≤ be
  be_le : be ≤ n
  pend : segPend acc 0 none = some bs
  pos : segPos acc 0 = bs
  chain : List.Chain' (fun p q : Nat × Nat => p.2 < q.1)
    (spansGo acc 0 none ++ [(bs, be)])
  bounds : ∀ p ∈ spansGo acc 0 none ++ [(bs, be)], p.1 ≤ p.2 ∧ p.2 ≤ n

/-! ## Manacher correctness -/

theorem palAt_mono {s : List α} {i r k : Nat} (h : palAt s i r) (hk : k ≤ r) :
    palAt s i k :=
  ⟨hk.trans h.1, by have := h.2.1; omega, fun k' hk' => h.2.2 k' (by omega)⟩

theorem palAt_zero {s : List α} {i : Nat} (h : i < s.length) : palAt s i 0 :=
  ⟨Nat.zero_le _, by omega, fun k hk => by
    have : k = 0 := by omega
    subst this; rfl⟩

theorem palAt_succ_iff {s : List α} {i r : Nat} (h : palAt s i r) :
    palAt s i (r+1) ↔
      (r + 1 ≤ i ∧ i + r + 1 < s.length ∧ s.get? (i + r + 1) = s.get? (i - (r+1))) := by
  constructor
  · intro h1
    refine ⟨h1.1, by have := h1.2.1; omega, ?_⟩
    have := h1.2.2 (r+1) (by omega)
    simpa [Nat.add_assoc] using this
  · rintro ⟨h1, h2, h3⟩
    refine ⟨h1, by omega, fun k hk => ?_⟩
    rcases Nat.lt_or_ge k (r+1) with hk' | hk'
    · exact h.2.2 k hk'
    · have : k = r + 1 := by omega
      subst this
      simpa [Nat.add_assoc] using h3

theorem maxRadius_pal {s : List α} {i : Nat} (h : i < s.length) :
    palAt s i (maxRadius s i) := by
  rcases Nat.eq_zero_or_pos (maxRadius s i) with h0 | h0
  · rw [h0]; exact palAt_zero h
  · exact Nat.findGreatest_of_ne_zero rfl (by omega)

theorem maxRadius_le {s : List α} {i : Nat} : maxRadius s i ≤ i := by
  rcases Nat.eq_zero_or_pos (maxRadius s i) with h0 | h0
  · omega
  · exact (Nat.findGreatest_of_ne_zero (P := palAt s i) rfl
      (Nat.pos_iff_ne_zero.mp h0)).1

theorem maxRadius_add_lt {s : List α} {i : Nat} (h : i < s.length) :
    i + maxRadius s i < s.length :=
  (maxRadius_pal h).2.1

theorem maxRadius_of_le {s : List α} {i : Nat} (h : s.length ≤ i) :
    maxRadius s i = 0 := by
  rcases Nat.eq_zero_or_pos (maxRadius s i) with h0 | h0
  · exact h0
  · have := (Nat.findGreatest_of_ne_zero (P := palAt s i) rfl
      (Nat.pos_iff_ne_zero.mp h0)).2.1
    omega

theorem le_maxRadius {s : List α} {i r : Nat} (h : palAt s i r) :
    r ≤ maxRadius s i :=
  Nat.le_findGreatest (by have := h.2.1; omega) h

/-- Symmetry of a palindrome about its centre, stated for a pair of mirror
positions. -/
theorem palAt_eq {s : List α} {c R : Nat} (h : palAt s c R) {x y : Nat}
    (hxy : x + y = 2*c) (hcx : c ≤ x) (hx : x ≤ c + R) :
    s.get? x = s.get? y := by
  have hd : x - c < R + 1 := by omega
  have heq := h.2.2 (x - c) hd
  have hx' : c + (x - c) = x := by omega
  have hy' : c - (x - c) = y := by omega
  rw [hx', hy'] at heq
  exact heq

/-- The expansion loop computes the brute-force maximal radius from any
palindromic start value, given enough fuel. -/
theorem manExpand_eq {s : List α} {i : Nat} :
    ∀ (fuel r : Nat), palAt s i r → s.length ≤ fuel + i + r + 1 →
      manExpand s s.length i fuel r = maxRadius s i := by
  intro fuel
  induction fuel with
  | zero =>
    intro r hr hf
    have h1 : r ≤ maxRadius s i := le_maxRadius hr
    have h2 : i + maxRadius s i < s.length := maxRadius_add_lt (by have := hr.2.1; omega)
    simp only [manExpand]
    omega
  | succ fuel ih =>
    intro r hr hf
    rw [manExpand]
    split
    · next hc =>
      have hsucc : palAt s i (r+1) := (palAt_succ_iff hr).mpr hc
      exact ih (r+1) hsucc (by omega)
    · next hc =>
      have hnot : ¬ palAt s i (r+1) := fun hp => hc ((palAt_succ_iff hr).mp hp)
      have h1 : r ≤ maxRadius s i := le_maxRadius hr
      rcases Nat.lt_or_ge r (maxRadius s i) with hlt | hge
      · exact absurd (palAt_mono (maxRadius_pal (by have := hr.2.1; omega)) (by omega)) hnot
      · omega

/-- The mirror seeding step produces a valid palindrome radius. -/
theorem palAt_seed {s : List α} {c i rt : Nat} (hci : c < i) (hirt : i < rt)
    (hrt : rt = c + maxRadius s c) :
    palAt s i (min (maxRadius s (2*c - i)) (rt - i)) := by
  have hmrc : maxRadius s c ≠ 0 := by omega
  have pal_c : palAt s c (maxRadius s c) :=
    Nat.findGreatest_of_ne_zero rfl hmrc
  have hrtn : rt < s.length := by have := pal_c.2.1; omega
  have hi2c : i ≤ 2*c := by have := maxRadius_le (s := s) (i := c); omega
  set m := 2*c - i with hm
  have hmi : m < i := by omega
  have hmn : m < s.length := by omega
  have pal_m : palAt s m (maxRadius s m) := maxRadius_pal hmn
  have hmm : maxRadius s m ≤ m := maxRadius_le
  set v := min (maxRadius s m) (rt - i) with hv
  have hv1 : v ≤ maxRadius s m := Nat.min_le_left _ _
  have hv2 : v ≤ rt - i := Nat.min_le_right _ _
  refine ⟨by omega, by omega, fun k hk => ?_⟩
  have hkv : k ≤ v := by omega
  have hk1 : k ≤ maxRadius s m := hkv.trans hv1
  have hkm : k ≤ m := hk1.trans hmm
  have e1 : s.get? (i+k) = s.get? (m-k) :=
    palAt_eq pal_c (by omega) (by omega) (by omega)
  have e2 : s.get? (m+k) = s.get? (m-k) :=
    palAt_eq pal_m (by omega) (by omega) (by omega)
  have e3 : s.get? (i-k) = s.get? (m+k) := by
    rcases le_or_lt c (i - k) with hcase | hcase
    · exact palAt_eq pal_c (by omega) hcase (by omega)
    · exact (palAt_eq pal_c (x := m + k) (y := i - k) (by omega) (by omega) (by omega)).symm
  rw [e1, ← e2, ← e3]

/-- The main Manacher loop fills every processed cell with the brute-force
maximal radius. -/
theorem manGo_spec {s : List α} :
    ∀ (fuel i c rt : Nat) (res : List Nat),
      res.length = s.length →
      (∀ j, res.getD j 0 = if j < i then maxRadius s j else 0) →
      c ≤ i →
      (i = 0 → c = 0 ∧ rt = 0) →
      (0 < i → c < i ∧ rt = c + maxRadius s c) →
      s.length ≤ fuel + i →
      ∀ j, (manGo s s.length fuel i c rt res).getD j 0 = maxRadius s j := by
  intro fuel
  induction fuel with
  | zero =>
    intro i c rt res hlen hres _ _ _ hf j
    rw [manGo]
    rcases Nat.lt_or_ge j i with hj | hj
    · rw [hres j, if_pos hj]
    · rw [hres j, if_neg (by omega), maxRadius_of_le (by omega)]
  | succ fuel ih =>
    intro i c rt res hlen hres hci h0 hpos hf j
    simp only [manGo]
    split
    · next hin =>
      have hseed : palAt s i (if i < rt then
          min (res.getD (2*c - i) 0) (rt - i) else res.getD i 0) := by
        split
        · next hirt =>
          have hipos : 0 < i := by
            rcases Nat.eq_zero_or_pos i with h | h
            · have := h0 h; omega
            · exact h
          obtain ⟨hci', hrt⟩ := hpos hipos
          have hmir : res.getD (2*c - i) 0 = maxRadius s (2*c - i) := by
            rw [hres, if_pos (by omega)]
          rw [hmir]
          exact palAt_seed hci' hirt hrt
        · next hirt =>
          have : res.getD i 0 = 0 := by rw [hres, if_neg (by omega)]
          rw [this]
          exact palAt_zero hin
      have hr : manExpand s s.length i s.length
          (if i < rt then min (res.getD (2*c - i) 0) (rt - i) else res.getD i 0) =
          maxRadius s i :=
        manExpand_eq _ _ hseed (by omega)
      rw [hr]
      have hlen' : (res.set i (maxRadius s i)).length = s.length := by
        rw [List.length_set]; exact hlen
      have hres' : ∀ j', (res.set i (maxRadius s i)).getD j' 0 =
          if j' < i + 1 then maxRadius s j' else 0 := by
        intro j'
        rcases Decidable.em (j' = i) with rfl | hne
        · have : (res.set j' (maxRadius s j')).get? j' = some (maxRadius s j') := by
            rw [List.get?_set_eq_of_lt]; omega
          simp only [List.getD, this, Option.getD_some, if_pos (Nat.lt_succ_self _)]
        · have : (res.set i (maxRadius s i)).get? j' = res.get? j' :=
            List.get?_set_ne _ _ (fun h => hne h.symm)
          simp only [List.getD, this]
          have := hres j'
          simp only [List.getD] at this
          rw [this]
          rcases Nat.lt_or_ge j' i with hj | hj
          · rw [if_pos hj, if_pos (by omega)]
          · rw [if_neg (by omega), if_neg (by omega)]
      split
      · next hup =>
        exact ih (i+1) i (i + maxRadius s i) _ hlen' hres' (by omega)
          (by omega) (fun _ => ⟨Nat.lt_succ_self _, rfl⟩) (by omega) j
      · next hup =>
        refine ih (i+1) c rt _ hlen' hres' (by omega) (by omega) (fun _ => ?_) (by omega) j
        constructor
        · omega
        · rcases Nat.eq_zero_or_pos i with hz | hz
          · obtain ⟨hc0, hrt0⟩ := h0 hz
            subst hz; subst hc0; subst hrt0
            have h00 : maxRadius s 0 = 0 := by omega
            omega
          · exact (hpos hz).2
    · next hin =>
      rcases Nat.lt_or_ge j i with hj | hj
      · rw [hres j, if_pos hj]
      · rw [hres j, if_neg (by omega), maxRadius_of_le (by omega)]

/-- `manacherAlgorithm` computes the brute-force maximal odd-palindrome
radius at every centre. -/
theorem manacherAlgorithm_spec (s : List α) (i : Nat) :
    (manacherAlgorithm s).getD i 0 = maxRadius s i := by
  unfold manacherAlgorithm
  exact manGo_spec s.length 0 0 0 _ (by simp) (fun j => by simp [List.getD])
    (Nat.le_refl 0) (fun _ => ⟨rfl, rfl⟩) (by omega) (by omega) i

/-! ## Suffix and border toolkit -/

theorem suffix_snoc_iff {u v : List α} {a b : α} :
    u ++ [a] <:+ v ++ [b] ↔ a = b ∧ u <:+ v := by
  constructor
  · intro h
    have h' : (u ++ [a]).reverse <+: (v ++ [b]).reverse := List.reverse_prefix.mpr h
    rw [List.reverse_append, List.reverse_append] at h'
    simp only [List.reverse_singleton, List.singleton_append] at h'
    rw [List.cons_prefix_cons] at h'
    exact ⟨h'.1, List.reverse_prefix.mp h'.2⟩
  · rintro ⟨rfl, h⟩
    obtain ⟨w, rfl⟩ := h
    exact ⟨w, by simp⟩

/-- Two suffixes of the same list are comparable: the shorter is a suffix of
the longer. -/
theorem suffix_of_suffix_length_le {u v t : List α} (h1 : u <:+ t)
    (h2 : v <:+ t) (hl : u.length ≤ v.length) : u <:+ v := by
  rcases List.suffix_or_suffix_of_suffix h1 h2 with h | h
  · exact h
  · have : v = u := h.eq_of_length (le_antisymm h.length_le hl)
    subst this
    exact List.suffix_refl v

theorem take_succ_get {p : List α} {n : Nat} {a : α} (h : p.get? n = some a) :
    p.take (n+1) = p.take n ++ [a] := by
  rw [List.take_succ, List.get?_eq_getElem?] at *
  rw [h]
  rfl

theorem getD_append_left {l1 l2 : List α} {n : Nat} {d : α}
    (h : n < l1.length) : (l1 ++ l2).getD n d = l1.getD n d := by
  simp [List.getD, List.get?_eq_getElem?, List.getElem?_append_left h]

theorem getD_append_last (l1 : List α) (d a : α) :
    (l1 ++ [a]).getD l1.length d = a := by
  simp [List.getD, List.get?_eq_getElem?]

theorem get?_is_some_of_lt {p : List α} {n : Nat} (h : n < p.length) :
    ∃ a, p.get? n = some a := by
  rw [List.get?_eq_getElem?]
  exact ⟨p[n], List.getElem?_eq_getElem h⟩

theorem borderFG_suffix (p t : List α) (C : Nat) :
    p.take (borderFG p t C) <:+ t :=
  Nat.findGreatest_spec (P := fun k => p.take k <:+ t) (m := 0) (Nat.zero_le C)
    (by show List.take 0 p <:+ t
        rw [List.take_zero]
        exact List.nil_suffix)

theorem borderFG_le (p t : List α) (C : Nat) : borderFG p t C ≤ C :=
  Nat.findGreatest_le C

theorem le_borderFG {p t : List α} {C k : Nat} (hk : k ≤ C)
    (h : p.take k <:+ t) : k ≤ borderFG p t C :=
  Nat.le_findGreatest hk h

theorem findGreatest_congr {P Q : Nat → Prop} [DecidablePred P]
    [DecidablePred Q] :
    ∀ {C : Nat}, (∀ k, k ≤ C → (P k ↔ Q k)) →
      Nat.findGreatest P C = Nat.findGreatest Q C := by
  intro C
  induction C with
  | zero => intro _; rfl
  | succ C ih =>
    intro h
    rw [Nat.findGreatest_succ, Nat.findGreatest_succ]
    by_cases hp : P (C+1)
    · rw [if_pos hp, if_pos ((h (C+1) (Nat.le_refl _)).mp hp)]
    · rw [if_neg hp, if_neg (fun hq => hp ((h (C+1) (Nat.le_refl _)).mpr hq)),
        ih (fun k hk => h k (by omega))]

/-! ## KMP correctness -/

/-- The shared chase loop computes the border of `t ++ [l]`: starting from
the longest prefix-suffix `j` of `t` (with all match candidates bounded by
`j`), it returns the longest `k ≤ C + 1` with `p.take k <:+ t ++ [l]`. -/
theorem lpsChase_spec {p : List α} {lps : List Nat} {t : List α} {l : α}
    {C : Nat} (hC : C + 1 ≤ p.length)
    (hlps : ∀ r, r + 1 ≤ C → lps.getD r 0 = borderFG p (p.take (r+1)) r) :
    ∀ fuel j, j ≤ C → p.take j <:+ t →
      (∀ k, k ≤ C → p.take k <:+ t → p.get? k = some l → k ≤ j) →
      j < fuel →
      lpsChase p lps fuel l j = borderFG p (t ++ [l]) (C+1) := by
  intro fuel
  induction fuel with
  | zero => intro j _ _ _ h; omega
  | succ fuel ih =>
    intro j hjC ha hb hfuel
    rw [lpsChase]
    by_cases hmatch : p.get? j = some l
    · rw [if_pos hmatch]
      have hP : p.take (j+1) <:+ t ++ [l] := by
        rw [take_succ_get hmatch]
        exact suffix_snoc_iff.mpr ⟨rfl, ha⟩
      have h1 : j + 1 ≤ borderFG p (t ++ [l]) (C+1) :=
        Nat.le_findGreatest (by omega) hP
      have h2 : borderFG p (t ++ [l]) (C+1) ≤ j + 1 := by
        set T := borderFG p (t ++ [l]) (C+1) with hT
        rcases Nat.eq_zero_or_pos T with h0 | h0
        · omega
        · have hPT : p.take T <:+ t ++ [l] :=
            Nat.findGreatest_of_ne_zero hT.symm (by omega)
          have hTC : T ≤ C + 1 := Nat.findGreatest_le _
          obtain ⟨a, hga⟩ := get?_is_some_of_lt (p := p) (n := T - 1) (by omega)
          have htk : p.take T = p.take (T-1) ++ [a] := by
            have hT1 : T - 1 + 1 = T := by omega
            rw [← hT1]
            exact take_succ_get hga
          rw [htk] at hPT
          obtain ⟨hab, hsuf⟩ := suffix_snoc_iff.mp hPT
          subst hab
          have := hb (T-1) (by omega) hsuf hga
          omega
      omega
    · rw [if_neg hmatch]
      by_cases hj0 : j = 0
      · rw [if_pos hj0]
        symm
        set T := borderFG p (t ++ [l]) (C+1) with hT
        rcases Nat.eq_zero_or_pos T with h0 | h0
        · exact h0
        · exfalso
          have hPT : p.take T <:+ t ++ [l] :=
            Nat.findGreatest_of_ne_zero hT.symm (by omega)
          have hTC : T ≤ C + 1 := Nat.findGreatest_le _
          obtain ⟨a, hga⟩ := get?_is_some_of_lt (p := p) (n := T - 1) (by omega)
          have htk : p.take T = p.take (T-1) ++ [a] := by
            have hT1 : T - 1 + 1 = T := by omega
            rw [← hT1]
            exact take_succ_get hga
          rw [htk] at hPT
          obtain ⟨hab, hsuf⟩ := suffix_snoc_iff.mp hPT
          subst hab
          have hTj := hb (T-1) (by omega) hsuf hga
          have hT0 : T - 1 = 0 := by omega
          rw [hT0] at hga
          rw [hj0] at hmatch
          exact hmatch hga
      · rw [if_neg hj0]
        have hlpsj : lps.getD (j-1) 0 = borderFG p (p.take j) (j-1) := by
          have h := hlps (j-1) (by omega)
          rwa [show j - 1 + 1 = j by omega] at h
        have hj'le : lps.getD (j-1) 0 ≤ j - 1 := by
          rw [hlpsj]; exact borderFG_le _ _ _
        apply ih
        · omega
        · rw [hlpsj]
          exact (borderFG_suffix p (p.take j) (j-1)).trans ha
        · intro k hkC hk hkl
          have hkj : k ≤ j := hb k hkC hk hkl
          have hkne : k ≠ j := fun h => hmatch (h ▸ hkl)
          have hksub : p.take k <:+ p.take j :=
            suffix_of_suffix_length_le hk ha
              (by rw [List.length_take, List.length_take]; omega)
          rw [hlpsj]
          exact Nat.le_findGreatest (by omega) hksub
        · omega

/-- The LPS construction loop fills the array with the longest proper
prefix-suffix lengths. -/
theorem constructLPSGo_spec {p : List α} :
    ∀ (rest : List α) (lps : List Nat) (j i : Nat),
      p.drop (i+1) = rest →
      lps.length = i + 1 →
      (∀ r, r ≤ i → lps.getD r 0 = borderFG p (p.take (r+1)) r) →
      j = borderFG p (p.take (i+1)) i →
      i < p.length →
      (constructLPSGo p rest lps j).length = p.length ∧
      ∀ r, r < p.length →
        (constructLPSGo p rest lps j).getD r 0 = borderFG p (p.take (r+1)) r := by
  intro rest
  induction rest with
  | nil =>
    intro lps j i hdrop hlen hinv _ hi
    rw [constructLPSGo]
    have hlen' : i + 1 = p.length := by
      have h := congrArg List.length hdrop
      simp [List.length_drop] at h
      omega
    exact ⟨by omega, fun r hr => hinv r (by omega)⟩
  | cons l rest ih =>
    intro lps j i hdrop hlen hinv hj hi
    simp only [constructLPSGo]
    have hget : p.get? (i+1) = some l := by
      have h : (p.drop (i+1)).get? 0 = some l := by rw [hdrop]; rfl
      rw [List.get?_drop] at h
      simpa using h
    have hi1 : i + 1 < p.length := by
      have h := congrArg List.length hdrop
      simp [List.length_drop] at h
      omega
    have hchase : lpsChase p lps p.length l j =
        borderFG p (p.take (i+1) ++ [l]) (i+1) := by
      apply lpsChase_spec (C := i) (by omega) (fun r hr => hinv r (by omega))
      · rw [hj]; exact borderFG_le _ _ _
      · rw [hj]; exact borderFG_suffix _ _ _
      · intro k hk hks _
        rw [hj]; exact Nat.le_findGreatest hk hks
      · have : j ≤ i := hj ▸ borderFG_le p (p.take (i+1)) i
        omega
    have hsnoc : p.take (i+1) ++ [l] = p.take (i+2) := (take_succ_get hget).symm
    rw [hchase, hsnoc]
    apply ih (lps ++ [borderFG p (p.take (i+2)) (i+1)])
      (borderFG p (p.take (i+2)) (i+1)) (i+1)
    · have h : p.drop (i+2) = (p.drop (i+1)).drop 1 := by
        rw [List.drop_drop]
      rw [h, hdrop]
      rfl
    · simp [hlen]
    · intro r hr
      rcases Nat.lt_or_ge r (i+1) with hr' | hr'
      · rw [getD_append_left (by omega)]
        exact hinv r (by omega)
      · have hre : r = i + 1 := by omega
        subst hre
        have hlast := getD_append_last lps 0 (borderFG p (p.take (i+2)) (i+1))
        rw [hlen] at hlast
        rw [hlast]
    · rfl
    · exact hi1

/-- `constructLPS` computes, at each index `i`, the length of the longest
proper prefix of `p.take (i+1)` that is also a suffix of it. -/
theorem constructLPS_spec {p : List α} (hp : p ≠ []) :
    (constructLPS p).length = p.length ∧
    ∀ r, r < p.length →
      (constructLPS p).getD r 0 = borderFG p (p.take (r+1)) r := by
  match p, hp with
  | x :: rest, _ =>
    rw [constructLPS]
    apply constructLPSGo_spec (p := x :: rest) rest [0] 0 0 rfl rfl
    · intro r hr
      have : r = 0 := by omega
      subst this
      rfl
    · rfl
    · simp

/-- `occursAt` in terms of the pattern being a suffix of the prefix ending
at the match. -/
theorem occursAt_iff_suffix {s p : List α} {t : Nat} :
    occursAt s p t ↔ t + p.length ≤ s.length ∧ p <:+ s.take (t + p.length) := by
  unfold occursAt
  constructor
  · rintro ⟨hle, heq⟩
    refine ⟨hle, ?_⟩
    rw [List.take_add, heq]
    exact List.suffix_append _ _
  · rintro ⟨hle, hsuf⟩
    refine ⟨hle, ?_⟩
    rw [List.take_add] at hsuf
    have hQ : (s.drop t).take p.length <:+ s.take t ++ (s.drop t).take p.length :=
      List.suffix_append _ _
    have hlQ : ((s.drop t).take p.length).length = p.length := by
      rw [List.length_take, List.length_drop]
      omega
    have := suffix_of_suffix_length_le hsuf hQ (by omega)
    exact (this.eq_of_length (by omega)).symm

/-- The KMP scan loop turns the border invariant into the full match list. -/
theorem kmpGo_spec {p s : List α} (hp : p ≠ [])
    (hlps : ∀ r, r < p.length →
      (constructLPS p).getD r 0 = borderFG p (p.take (r+1)) r) :
    ∀ (rem : List α) (i j : Nat) (acc : List Nat),
      s.drop i = rem → i ≤ s.length →
      j = borderFG p (s.take i) (p.length - 1) →
      acc = kmpEnds p s i →
      kmpGo p (constructLPS p) p.length rem i j acc = kmpEnds p s s.length := by
  have hm : 1 ≤ p.length := List.length_pos.mpr hp
  intro rem
  induction rem with
  | nil =>
    intro i j acc hdrop hile hj hacc
    have : s.length ≤ i := List.drop_eq_nil_iff.mp hdrop
    have : i = s.length := by omega
    subst this
    rw [kmpGo, hacc]
  | cons l rest ih =>
    intro i j acc hdrop hile hj hacc
    have hget : s.get? i = some l := by
      have h : (s.drop i).get? 0 = some l := by rw [hdrop]; rfl
      rw [List.get?_drop] at h
      simpa using h
    have hi : i < s.length := by
      have h := congrArg List.length hdrop
      simp [List.length_drop] at h
      omega
    have hsnoc : s.take i ++ [l] = s.take (i+1) := (take_succ_get hget).symm
    have hchase : lpsChase p (constructLPS p) p.length l j =
        borderFG p (s.take (i+1)) p.length := by
      have h := lpsChase_spec (C := p.length - 1) (t := s.take i) (l := l)
        (by omega) (fun r hr => hlps r (by omega)) p.length j
        (by rw [hj]; exact borderFG_le _ _ _)
        (by rw [hj]; exact borderFG_suffix _ _ _)
        (by intro k hk hks _; rw [hj]; exact Nat.le_findGreatest hk hks)
        (by have : j ≤ p.length - 1 := hj ▸ borderFG_le _ _ _; omega)
      rw [h, hsnoc, show p.length - 1 + 1 = p.length by omega]
    simp only [kmpGo, hchase]
    by_cases hfull : borderFG p (s.take (i+1)) p.length = p.length
    · rw [if_pos hfull]
      have hmatch : p <:+ s.take (i+1) := by
        have h := Nat.findGreatest_of_ne_zero (P := fun k => p.take k <:+ s.take (i+1))
          hfull (by omega)
        have h2 : p.take p.length <:+ s.take (i+1) := h
        rwa [List.take_length] at h2
      have hacc' : acc ++ [i + 1 - p.length] = kmpEnds p s (i+1) := by
        rw [hacc]
        unfold kmpEnds
        rw [List.range_succ, List.filter_append, List.map_append]
        congr 1
        simp [hmatch]
      have hj' : (constructLPS p).getD (p.length - 1) 0 =
          borderFG p (s.take (i+1)) (p.length - 1) := by
        rw [hlps (p.length - 1) (by omega),
          show p.length - 1 + 1 = p.length by omega, List.take_length]
        apply findGreatest_congr
        intro k hk
        constructor
        · intro h; exact h.trans hmatch
        · intro h
          exact suffix_of_suffix_length_le h hmatch
            (by rw [List.length_take]; omega)
      exact ih (i+1) _ _ (by rw [← List.drop_drop, hdrop]; rfl) (by omega)
        hj' hacc'
    · rw [if_neg hfull]
      have hnomatch : ¬ p <:+ s.take (i+1) := by
        intro h
        have h1 : p.length ≤ borderFG p (s.take (i+1)) p.length :=
          Nat.le_findGreatest (Nat.le_refl _) (by rwa [List.take_length])
        have h2 := borderFG_le p (s.take (i+1)) p.length
        omega
      have hacc' : acc = kmpEnds p s (i+1) := by
        rw [hacc]
        unfold kmpEnds
        rw [List.range_succ, List.filter_append, List.map_append]
        have : List.filter (fun e => decide (p <:+ s.take (e+1))) [i] = [] := by
          simp [hnomatch]
        rw [this]
        simp
      have hj' : borderFG p (s.take (i+1)) p.length =
          borderFG p (s.take (i+1)) (p.length - 1) := by
        have h := Nat.findGreatest_succ (P := fun k => p.take k <:+ s.take (i+1))
          (p.length - 1)
        rw [show p.length - 1 + 1 = p.length by omega] at h
        unfold borderFG
        rw [h, if_neg (by rwa [List.take_length])]
      exact ih (i+1) _ _ (by rw [← List.drop_drop, hdrop]; rfl) (by omega)
        hj' hacc'

/-- `kmpMatches` for a nonempty pattern is exactly the ascending list of
match start indices. -/
theorem kmpMatches_spec {p s : List α} (hp : p ≠ []) :
    kmpMatches p s = kmpEnds p s s.length := by
  have hm : 1 ≤ p.length := List.length_pos.mpr hp
  unfold kmpMatches
  rw [if_neg (by omega)]
  by_cases hs : s.length < p.length
  · rw [if_pos hs]
    symm
    unfold kmpEnds
    have : List.filter (fun e => decide (p <:+ s.take (e+1))) (List.range s.length) = [] := by
      rw [List.filter_eq_nil]
      intro e he
      simp only [decide_eq_true_eq]
      intro hsuf
      have := hsuf.length_le
      rw [List.length_take] at this
      rw [List.mem_range] at he
      omega
    rw [this]
    rfl
  · rw [if_neg hs]
    refine kmpGo_spec hp (constructLPS_spec hp).2 s 0 0 [] rfl (by omega) ?_ ?_
    · symm
      rw [List.take_zero]
      unfold borderFG
      rw [Nat.findGreatest_eq_zero_iff]
      intro k hk _ hsuf
      have h0 : p.take k = [] := List.suffix_nil.mp hsuf
      have hlen0 : (p.take k).length = 0 := by rw [h0]; rfl
      rw [List.length_take] at hlen0
      omega
    · rfl

/-- Membership in the KMP output characterises occurrences. -/
theorem kmpMatches_mem {p s : List α} (hp : p ≠ []) (t : Nat) :
    t ∈ kmpMatches p s ↔ occursAt s p t := by
  have hm : 1 ≤ p.length := List.length_pos.mpr hp
  rw [kmpMatches_spec hp]
  unfold kmpEnds
  rw [List.mem_map]
  constructor
  · rintro ⟨e, hmem, rfl⟩
    rw [List.mem_filter, List.mem_range] at hmem
    obtain ⟨he, hsuf⟩ := hmem
    simp only [decide_eq_true_eq] at hsuf
    have hlen : p.length ≤ e + 1 := by
      have := hsuf.length_le
      rw [List.length_take] at this
      omega
    rw [occursAt_iff_suffix]
    constructor
    · omega
    · rw [show e + 1 - p.length + p.length = e + 1 by omega]
      exact hsuf
  · intro hocc
    rw [occursAt_iff_suffix] at hocc
    obtain ⟨hle, hsuf⟩ := hocc
    refine ⟨t + p.length - 1, ?_, by omega⟩
    rw [List.mem_filter, List.mem_range]
    refine ⟨by omega, ?_⟩
    simp only [decide_eq_true_eq]
    rw [show t + p.length - 1 + 1 = t + p.length by omega]
    exact hsuf

/-! ## Association list and walk toolkit -/

theorem alookup_some_mem {g : List (α × Nat)} {l : α} {c : Nat}
    (h : alookup g l = some c) : (l, c) ∈ g := by
  induction g with
  | nil => simp [alookup] at h
  | cons e rest ih =>
    obtain ⟨k, v⟩ := e
    rw [alookup] at h
    by_cases hk : k = l
    · rw [if_pos hk] at h
      subst hk
      cases h
      exact List.mem_cons_self _ _
    · rw [if_neg hk] at h
      exact List.mem_cons_of_mem _ (ih h)

theorem mem_alookup {g : List (α × Nat)} {l : α} {c : Nat}
    (hnd : (g.map Prod.fst).Nodup) (h : (l, c) ∈ g) : alookup g l = some c := by
  induction g with
  | nil => cases h
  | cons e rest ih =>
    obtain ⟨k, v⟩ := e
    rw [List.map_cons, List.nodup_cons] at hnd
    rw [List.mem_cons] at h
    rw [alookup]
    rcases h with h | h
    · obtain ⟨h1, h2⟩ := Prod.mk.injEq .. ▸ h
      rw [if_pos h1.symm, h2]
    · by_cases hk : k = l
      · exfalso
        subst hk
        have hmm : (k, c).1 ∈ rest.map Prod.fst := List.mem_map_of_mem Prod.fst h
        exact hnd.1 hmm
      · rw [if_neg hk]
        exact ih hnd.2 h

theorem alookup_none_not_mem {g : List (α × Nat)} {l : α} {c : Nat}
    (h : alookup g l = none) : (l, c) ∉ g := by
  induction g with
  | nil => simp
  | cons e rest ih =>
    obtain ⟨k, v⟩ := e
    rw [alookup] at h
    by_cases hk : k = l
    · rw [if_pos hk] at h; cases h
    · rw [if_neg hk] at h
      intro hmem
      rcases List.mem_cons.mp hmem with heq | hmem'
      · exact hk (congrArg Prod.fst heq).symm
      · exact ih h hmem'

theorem walk_append (goto : List (List (α × Nat))) (u v : List α) (j : Nat) :
    walk goto (u ++ v) j =
      match walk goto u j with
      | some m => walk goto v m
      | none => none := by
  induction u generalizing j with
  | nil => rfl
  | cons l rest ih =>
    rw [List.cons_append, walk, walk]
    cases alookup (goto.getD j []) l with
    | some c => exact ih c
    | none => rfl

theorem walk_snoc (goto : List (List (α × Nat))) (u : List α) (l : α) (j : Nat) :
    walk goto (u ++ [l]) j =
      match walk goto u j with
      | some m => alookup (goto.getD m []) l
      | none => none := by
  rw [walk_append]
  cases hm : walk goto u j with
  | some m =>
    show walk goto [l] m = alookup (goto.getD m []) l
    rw [walk]
    cases hx : alookup (goto.getD m []) l
    · rfl
    · rfl
  | none => rfl

theorem walk_lt {st : AC α} (hinv : TrieInv st) :
    ∀ (u : List α) (j c : Nat), j < st.goto.length →
      walk st.goto u j = some c → c < st.goto.length := by
  intro u
  induction u with
  | nil => intro j c hj h; cases h; exact hj
  | cons l rest ih =>
    intro j c hj h
    rw [walk] at h
    cases hx : alookup (st.goto.getD j []) l with
    | some m =>
      rw [hx] at h
      exact ih m c (hinv.edges_lt _ _ _ (alookup_some_mem hx)).2 h
    | none => rw [hx] at h; cases h

/-! ## Parent edges and node paths -/

theorem findInNode_some_mem {g : List (α × Nat)} {c : Nat} {l : α}
    (h : findInNode g c = some l) : (l, c) ∈ g := by
  induction g with
  | nil => cases h
  | cons e rest ih =>
    obtain ⟨k, v⟩ := e
    rw [findInNode] at h
    by_cases hv : v = c
    · rw [if_pos hv] at h
      cases h
      rw [hv]
      exact List.mem_cons_self _ _
    · rw [if_neg hv] at h
      exact List.mem_cons_of_mem _ (ih h)

theorem findInNode_none_not_mem {g : List (α × Nat)} {c : Nat} {l : α}
    (h : findInNode g c = none) : (l, c) ∉ g := by
  induction g with
  | nil => simp
  | cons e rest ih =>
    obtain ⟨k, v⟩ := e
    rw [findInNode] at h
    by_cases hv : v = c
    · rw [if_pos hv] at h; cases h
    · rw [if_neg hv] at h
      intro hmem
      rcases List.mem_cons.mp hmem with heq | hmem'
      · exact hv (congrArg Prod.snd heq).symm
      · exact ih h hmem'

theorem findEdge_sound :
    ∀ (gs : List (List (α × Nat))) (c base j : Nat) (l : α),
      findEdge gs c base = some (j, l) →
      base ≤ j ∧ j - base < gs.length ∧ (l, c) ∈ gs.getD (j - base) [] := by
  intro gs
  induction gs with
  | nil => intro c base j l h; cases h
  | cons g rest ih =>
    intro c base j l h
    rw [findEdge] at h
    cases hx : findInNode g c with
    | some l' =>
      rw [hx] at h
      cases h
      refine ⟨Nat.le_refl _, ?_, ?_⟩
      · simp
      · rw [Nat.sub_self]
        exact findInNode_some_mem hx
    | none =>
      rw [hx] at h
      obtain ⟨h1, h2, h3⟩ := ih c (base+1) j l h
      refine ⟨by omega, by simp; omega, ?_⟩
      have : j - base = (j - (base + 1)) + 1 := by omega
      rw [this]
      exact h3

theorem findEdge_complete :
    ∀ (gs : List (List (α × Nat))) (c base k : Nat) (l : α),
      k < gs.length → (l, c) ∈ gs.getD k [] →
      ∃ j l', findEdge gs c base = some (j, l') := by
  intro gs
  induction gs with
  | nil => intro c base k l h; simp at h
  | cons g rest ih =>
    intro c base k l hk hmem
    rw [findEdge]
    cases hx : findInNode g c with
    | some l' => exact ⟨base, l', rfl⟩
    | none =>
      cases k with
      | zero => exact absurd hmem (findInNode_none_not_mem hx)
      | succ k' =>
        exact ih c (base+1) k' l (by simpa using hk) hmem

theorem mem_parentEdge {st : AC α} (hinv : TrieInv st) {c j : Nat} {l : α}
    (h : (l, c) ∈ st.goto.getD j []) : parentEdge st.goto c = some (j, l) := by
  have hjlt : j < st.goto.length := by
    by_contra hge
    rw [List.getD_eq_default] at h
    · cases h
    · omega
  obtain ⟨j', l', hfe⟩ := findEdge_complete st.goto c 0 j l hjlt h
  obtain ⟨_, _, hmem'⟩ := findEdge_sound st.goto c 0 j' l' hfe
  rw [Nat.sub_zero] at hmem'
  obtain ⟨hj, hl⟩ := hinv.parent_uniq c j' l' j l hmem' h
  rw [parentEdge, hfe, hj, hl]

theorem parentEdge_mem {st : AC α} (hinv : TrieInv st) {c j : Nat} {l : α}
    (h : parentEdge st.goto c = some (j, l)) : (l, c) ∈ st.goto.getD j [] := by
  obtain ⟨_, _, hmem⟩ := findEdge_sound st.goto c 0 j l h
  rwa [Nat.sub_zero] at hmem

theorem strOfGo_zero (goto : List (List (α × Nat))) (fuel : Nat) :
    strOfGo goto fuel 0 = [] := by
  cases fuel <;> rfl

theorem strOfGo_stable {st : AC α} (hinv : TrieInv st) :
    ∀ (c f1 f2 : Nat), c ≤ f1 → c ≤ f2 →
      strOfGo st.goto f1 c = strOfGo st.goto f2 c := by
  intro c
  induction c using Nat.strong_induction_on with
  | _ c ih =>
    intro f1 f2 h1 h2
    cases c with
    | zero => rw [strOfGo_zero, strOfGo_zero]
    | succ c' =>
      match f1, f2, h1, h2 with
      | f1'+1, f2'+1, h1, h2 =>
        rw [strOfGo, strOfGo]
        cases hx : parentEdge st.goto (c'+1) with
        | none => rfl
        | some pl =>
          obtain ⟨j, l⟩ := pl
          have hmem := parentEdge_mem hinv hx
          have hjc := (hinv.edges_lt _ _ _ hmem).1
          simp only []
          rw [ih j (by omega) f1' f2' (by omega) (by omega)]

theorem strOf_parent {st : AC α} (hinv : TrieInv st) {c j : Nat} {l : α}
    (h : (l, c) ∈ st.goto.getD j []) :
    strOf st.goto c = strOf st.goto j ++ [l] := by
  have hpe := mem_parentEdge hinv h
  have hjc := (hinv.edges_lt _ _ _ h).1
  match c, hjc with
  | c'+1, hjc =>
    show strOfGo st.goto (c'+1) (c'+1) = strOf st.goto j ++ [l]
    rw [strOfGo, if_neg (Nat.succ_ne_zero c'), hpe]
    show strOfGo st.goto c' j ++ [l] = strOf st.goto j ++ [l]
    rw [strOfGo_stable hinv j c' j (by omega) (Nat.le_refl _)]
    rfl

theorem walk_strOf {st : AC α} (hinv : TrieInv st) :
    ∀ c, c < st.goto.length → walk st.goto (strOf st.goto c) 0 = some c := by
  intro c
  induction c using Nat.strong_induction_on with
  | _ c ih =>
    intro hc
    cases c with
    | zero => rfl
    | succ c' =>
      obtain ⟨j, l, hmem⟩ := hinv.parent_ex (c'+1) (by omega) hc
      have hjc := (hinv.edges_lt _ _ _ hmem).1
      rw [strOf_parent hinv hmem, walk_snoc, ih j (by omega) (by omega)]
      exact mem_alookup (hinv.keys_nodup j) hmem

theorem walk_eq_strOf {st : AC α} (hinv : TrieInv st) :
    ∀ (u : List α) (c : Nat), walk st.goto u 0 = some c →
      u = strOf st.goto c ∧ c < st.goto.length := by
  intro u
  induction u using List.reverseRecOn with
  | nil =>
    intro c h
    cases h
    exact ⟨rfl, hinv.root_lt⟩
  | append_singleton u l ih =>
    intro c h
    rw [walk_snoc] at h
    cases hm : walk st.goto u 0 with
    | none => rw [hm] at h; cases h
    | some m =>
      rw [hm] at h
      have hmem := alookup_some_mem h
      obtain ⟨hu, hmlt⟩ := ih m hm
      refine ⟨?_, (hinv.edges_lt _ _ _ hmem).2⟩
      rw [strOf_parent hinv hmem, hu]

theorem strOf_inj {st : AC α} (hinv : TrieInv st) {c1 c2 : Nat}
    (h1 : c1 < st.goto.length) (h2 : c2 < st.goto.length)
    (h : strOf st.goto c1 = strOf st.goto c2) : c1 = c2 := by
  have w1 := walk_strOf hinv c1 h1
  have w2 := walk_strOf hinv c2 h2
  rw [h, w2] at w1
  cases w1
  rfl

theorem strOf_eq_nil_iff {st : AC α} (hinv : TrieInv st) {c : Nat}
    (hc : c < st.goto.length) : strOf st.goto c = [] ↔ c = 0 := by
  constructor
  · intro h
    cases c with
    | zero => rfl
    | succ c' =>
      obtain ⟨j, l, hmem⟩ := hinv.parent_ex (c'+1) (by omega) hc
      rw [strOf_parent hinv hmem] at h
      simp at h
  · intro h; subst h; rfl

/-! ## Trie construction invariants -/

theorem getD_snoc {β : Type} (xs : List β) (y d : β) (x : Nat) :
    (xs ++ [y]).getD x d = if x = xs.length then y else xs.getD x d := by
  rcases Nat.lt_trichotomy x xs.length with h | h | h
  · rw [if_neg (by omega)]
    show ((xs ++ [y]).get? x).getD d = (xs.get? x).getD d
    rw [List.get?_eq_getElem?, List.get?_eq_getElem?, List.getElem?_append_left h]
  · subst h
    rw [if_pos rfl]
    show ((xs ++ [y]).get? xs.length).getD d = y
    rw [List.get?_eq_getElem?, List.getElem?_append_right (Nat.le_refl _)]
    simp
  · rw [if_neg (by omega)]
    show ((xs ++ [y]).get? x).getD d = (xs.get? x).getD d
    rw [List.get?_eq_none.mpr (by simp; omega), List.get?_eq_none.mpr (by omega)]

theorem getD_set' {β : Type} (xs : List β) (j : Nat) (v d : β) (x : Nat) :
    (xs.set j v).getD x d = if x = j ∧ j < xs.length then v else xs.getD x d := by
  by_cases hx : x = j ∧ j < xs.length
  · obtain ⟨rfl, hj⟩ := hx
    rw [if_pos ⟨rfl, hj⟩]
    show ((xs.set x v).get? x).getD d = v
    rw [List.get?_set_eq_of_lt _ hj]
    rfl
  · rw [if_neg hx]
    rcases Decidable.em (x = j) with rfl | hne
    · have hj : xs.length ≤ x := by
        rcases Nat.lt_or_ge x xs.length with h | h
        · exact absurd ⟨rfl, h⟩ hx
        · exact h
      have h2 : xs.get? x = none := List.get?_eq_none.mpr hj
      show ((xs.set x v).get? x).getD d = (xs.get? x).getD d
      rw [List.get?_set_eq, h2]
      rfl
    · show ((xs.set j v).get? x).getD d = (xs.get? x).getD d
      rw [List.get?_set_ne _ _ (fun h => hne h.symm)]

theorem alookup_append_of_some {g1 g2 : List (α × Nat)} {l : α} {c : Nat}
    (h : alookup g1 l = some c) : alookup (g1 ++ g2) l = some c := by
  induction g1 with
  | nil => cases h
  | cons e rest ih =>
    obtain ⟨k, v⟩ := e
    rw [List.cons_append, alookup] at *
    by_cases hk : k = l
    · rwa [if_pos hk] at h ⊢
    · rw [if_neg hk] at h ⊢
      exact ih h

theorem alookup_append_of_none {g1 g2 : List (α × Nat)} {l : α}
    (h : alookup g1 l = none) : alookup (g1 ++ g2) l = alookup g2 l := by
  induction g1 with
  | nil => rfl
  | cons e rest ih =>
    obtain ⟨k, v⟩ := e
    rw [List.cons_append, alookup] at *
    by_cases hk : k = l
    · rw [if_pos hk] at h; cases h
    · rw [if_neg hk] at h ⊢
      exact ih h

theorem walk_mono {st st' : AC α} (hext : Extends st st') :
    ∀ (u : List α) (j c : Nat), walk st.goto u j = some c →
      walk st'.goto u j = some c := by
  intro u
  induction u with
  | nil => intro j c h; exact h
  | cons l rest ih =>
    intro j c h
    rw [walk] at h ⊢
    cases hx : alookup (st.goto.getD j []) l with
    | some m =>
      rw [hx] at h
      rw [hext.2.1 j l m hx]
      exact ih m c h
    | none => rw [hx] at h; cases h

theorem Extends_trans {a b c : AC α} (h1 : Extends a b) (h2 : Extends b c) :
    Extends a c :=
  ⟨h1.1.trans h2.1,
   fun x l v h => h2.2.1 x l v (h1.2.1 x l v h),
   fun x => (h2.2.2.1 x).trans (h1.2.2.1 x),
   fun x => (h2.2.2.2.1 x).trans (h1.2.2.2.1 x),
   fun x => (h2.2.2.2.2.1 x).trans (h1.2.2.2.2.1 x),
   h2.2.2.2.2.2.trans h1.2.2.2.2.2⟩

theorem Extends_refl (st : AC α) : Extends st st :=
  ⟨Nat.le_refl _, fun _ _ _ h => h, fun _ => rfl, fun _ => rfl, fun _ => rfl, rfl⟩

/-- Adding one fresh edge plus node preserves the trie invariants. -/
theorem extend_step {st : AC α} (hinv : TrieInv st) {j : Nat} {l : α}
    (hj : j < st.goto.length) (hx : alookup (st.goto.getD j []) l = none) :
    let st1 : AC α := { st with
      goto := (st.goto.set j ((st.goto.getD j []) ++ [(l, st.goto.length)])) ++ [[]]
      failure := st.failure ++ [0]
      out := st.out ++ [0]
      out_lens := st.out_lens ++ [0] }
    TrieInv st1 ∧ Extends st st1 ∧ st1.goto.length = st.goto.length + 1 ∧
      alookup (st1.goto.getD j []) l = some st.goto.length := by
  intro st1
  have hglen : st1.goto.length = st.goto.length + 1 := by
    show ((st.goto.set j _) ++ [[]]).length = _
    rw [List.length_append, List.length_set]
    rfl
  have hgetD : ∀ x, st1.goto.getD x [] =
      if x = j then st.goto.getD j [] ++ [(l, st.goto.length)]
      else st.goto.getD x [] := by
    intro x
    show ((st.goto.set j _) ++ [[]]).getD x [] = _
    rw [getD_snoc, getD_set']
    rw [List.length_set]
    by_cases hxj : x = j
    · subst hxj
      rw [if_neg (by omega), if_pos ⟨rfl, hj⟩, if_pos rfl]
    · rw [if_neg (show ¬(x = j ∧ j < st.goto.length) from fun h => hxj h.1),
        if_neg hxj]
      by_cases hxl : x = st.goto.length
      · subst hxl
        rw [if_pos rfl]
        show ([] : List (α × Nat)) = (st.goto.get? st.goto.length).getD []
        rw [List.get?_eq_none.mpr (Nat.le_refl _)]
        rfl
      · rw [if_neg hxl]
  have hzero : ∀ (xs : List Nat) (x : Nat), (xs ++ [0]).getD x 0 = xs.getD x 0 := by
    intro xs x
    rw [getD_snoc]
    by_cases hxl : x = xs.length
    · subst hxl
      rw [if_pos rfl]
      show (0:Nat) = (xs.get? xs.length).getD 0
      rw [List.get?_eq_none.mpr (Nat.le_refl _)]
      rfl
    · rw [if_neg hxl]
  have hnotmem : ∀ c, (l, c) ∉ st.goto.getD j [] := fun c => alookup_none_not_mem hx
  refine ⟨⟨?_, ?_, ?_, ?_, ?_, ?_, ?_, ?_⟩, ⟨?_, ?_, ?_, ?_, ?_, ?_⟩, hglen, ?_⟩
  · show (st.failure ++ [0]).length = st1.goto.length
    rw [List.length_append, hglen, hinv.len_fail]
    rfl
  · show (st.out ++ [0]).length = st1.goto.length
    rw [List.length_append, hglen, hinv.len_out]
    rfl
  · show (st.out_lens ++ [0]).length = st1.goto.length
    rw [List.length_append, hglen, hinv.len_olens]
    rfl
  · rw [hglen]; omega
  · intro x l' c hmem
    rw [hgetD] at hmem
    by_cases hxj : x = j
    · rw [if_pos hxj] at hmem
      rcases List.mem_append.mp hmem with hm | hm
      · have := hinv.edges_lt x l' c (hxj ▸ hm)
        omega
      · rcases List.mem_singleton.mp hm with heq
        have h1 : l' = l := (congrArg Prod.fst heq)
        have h2 : c = st.goto.length := (congrArg Prod.snd heq)
        omega
    · rw [if_neg hxj] at hmem
      have := hinv.edges_lt x l' c hmem
      omega
  · intro x
    rw [hgetD]
    by_cases hxj : x = j
    · rw [if_pos hxj, List.map_append]
      rw [List.nodup_append]
      refine ⟨hinv.keys_nodup j, List.nodup_singleton l, ?_⟩
      intro a ha hb
      rcases List.mem_singleton.mp hb with rfl
      obtain ⟨⟨l'', c''⟩, hmem, heq⟩ := List.mem_map.mp ha
      cases heq
      exact hnotmem c'' hmem
    · rw [if_neg hxj]
      exact hinv.keys_nodup x
  · intro c x1 l1 x2 l2 h1 h2
    rw [hgetD] at h1 h2
    have hsplit : ∀ x l', (l', c) ∈ (if x = j then st.goto.getD j [] ++
        [(l, st.goto.length)] else st.goto.getD x []) →
        (l', c) ∈ st.goto.getD x [] ∨ (x = j ∧ l' = l ∧ c = st.goto.length) := by
      intro x l' hm
      by_cases hxj : x = j
      · rw [if_pos hxj] at hm
        rcases List.mem_append.mp hm with hm | hm
        · exact Or.inl (hxj ▸ hm)
        · rcases List.mem_singleton.mp hm with heq
          exact Or.inr ⟨hxj, congrArg Prod.fst heq, congrArg Prod.snd heq⟩
      · rw [if_neg hxj] at hm
        exact Or.inl hm
    rcases hsplit x1 l1 h1 with hm1 | hm1 <;> rcases hsplit x2 l2 h2 with hm2 | hm2
    · exact hinv.parent_uniq c x1 l1 x2 l2 hm1 hm2
    · exfalso
      have h' := (hinv.edges_lt x1 l1 c hm1).2
      have hcc := hm2.2.2
      omega
    · exfalso
      have h' := (hinv.edges_lt x2 l2 c hm2).2
      have hcc := hm1.2.2
      omega
    · exact ⟨hm1.1.trans hm2.1.symm, hm1.2.1.trans hm2.2.1.symm⟩
  · intro c hc1 hc2
    rw [hglen] at hc2
    by_cases hcl : c = st.goto.length
    · refine ⟨j, l, ?_⟩
      rw [hgetD, if_pos rfl, hcl]
      exact List.mem_append_right _ (List.mem_singleton.mpr rfl)
    · obtain ⟨x, l', hm⟩ := hinv.parent_ex c hc1 (by omega)
      refine ⟨x, l', ?_⟩
      rw [hgetD]
      by_cases hxj : x = j
      · rw [if_pos hxj]
        exact List.mem_append_left _ (hxj ▸ hm)
      · rw [if_neg hxj]
        exact hm
  · rw [hglen]; omega
  · intro x l' c h
    rw [hgetD]
    by_cases hxj : x = j
    · rw [if_pos hxj]
      exact alookup_append_of_some (hxj ▸ h)
    · rw [if_neg hxj]
      exact h
  · intro x
    exact hzero st.out x
  · intro x
    exact hzero st.out_lens x
  · intro x
    exact hzero st.failure x
  · rfl
  · rw [hgetD, if_pos rfl, alookup_append_of_none hx]
    rw [alookup, if_pos rfl]

/-- The insertion walk preserves the invariants and lands on a node whose
path from `j` spells the inserted word. -/
theorem acInsertFrom_spec {st : AC α} (hinv : TrieInv st) :
    ∀ (w : List α) (j : Nat), j < st.goto.length →
      TrieInv (acInsertFrom st j w).1 ∧
      Extends st (acInsertFrom st j w).1 ∧
      (acInsertFrom st j w).2 < (acInsertFrom st j w).1.goto.length ∧
      walk (acInsertFrom st j w).1.goto w j = some (acInsertFrom st j w).2 := by
  intro w
  induction w generalizing st with
  | nil =>
    intro j hj
    exact ⟨hinv, Extends_refl st, hj, rfl⟩
  | cons l rest ih =>
    intro j hj
    rw [acInsertFrom]
    cases hx : alookup (st.goto.getD j []) l with
    | some c =>
      have hc : c < st.goto.length := (hinv.edges_lt _ _ _ (alookup_some_mem hx)).2
      obtain ⟨h1, h2, h3, h4⟩ := ih hinv c hc
      refine ⟨h1, h2, h3, ?_⟩
      rw [walk, h2.2.1 j l c hx]
      exact h4
    | none =>
      obtain ⟨hinv1, hext1, hlen1, hnew⟩ := extend_step hinv hj hx
      have hclt : st.goto.length < ({ st with
          goto := (st.goto.set j ((st.goto.getD j []) ++ [(l, st.goto.length)])) ++ [[]]
          failure := st.failure ++ [0]
          out := st.out ++ [0]
          out_lens := st.out_lens ++ [0] } : AC α).goto.length := by
        rw [hlen1]; omega
      obtain ⟨h1, h2, h3, h4⟩ := ih hinv1 st.goto.length hclt
      refine ⟨h1, Extends_trans hext1 h2, h3, ?_⟩
      rw [walk, h2.2.1 j l st.goto.length hnew]
      exact h4

theorem TrieInv_set_bits {st : AC α} (hinv : TrieInv st) (t v v' : Nat) :
    TrieInv { st with out := st.out.set t v, out_lens := st.out_lens.set t v' } := by
  refine ⟨hinv.len_fail, ?_, ?_, hinv.root_lt, hinv.edges_lt, hinv.keys_nodup,
    hinv.parent_uniq, hinv.parent_ex⟩
  · show (st.out.set t v).length = st.goto.length
    rw [List.length_set]
    exact hinv.len_out
  · show (st.out_lens.set t v').length = st.goto.length
    rw [List.length_set]
    exact hinv.len_olens

/-- Inserting word `i` preserves the construction invariant. -/
theorem buildInv_addWord {W : List (List α)} {i : Nat} {st : AC α}
    (h : BuildInv W i st) (hi : i < W.length) :
    BuildInv W (i+1) (acAddWord st i (W.getD i [])) := by
  obtain ⟨hinv1, hext, htlt, hwalk⟩ :=
    acInsertFrom_spec h.inv (W.getD i []) 0 h.inv.root_lt
  set r := acInsertFrom st 0 (W.getD i []) with hr
  have hout_len : r.2 < r.1.out.length := by rw [hinv1.len_out]; exact htlt
  have holens_len : r.2 < r.1.out_lens.length := by rw [hinv1.len_olens]; exact htlt
  have hout : ∀ j, (acAddWord st i (W.getD i [])).out.getD j 0 =
      if j = r.2 then st.out.getD r.2 0 ||| 2^i else st.out.getD j 0 := by
    intro j
    show (r.1.out.set r.2 (r.1.out.getD r.2 0 ||| 2^i)).getD j 0 = _
    rw [getD_set']
    by_cases hj : j = r.2
    · rw [if_pos ⟨hj, hout_len⟩, if_pos hj, hext.2.2.1]
    · rw [if_neg (fun hh => hj hh.1), if_neg hj, hext.2.2.1]
  have holens : ∀ j, (acAddWord st i (W.getD i [])).out_lens.getD j 0 =
      if j = r.2 then st.out_lens.getD r.2 0 ||| 2^(W.getD i []).length
      else st.out_lens.getD j 0 := by
    intro j
    show (r.1.out_lens.set r.2
      (r.1.out_lens.getD r.2 0 ||| 2^(W.getD i []).length)).getD j 0 = _
    rw [getD_set']
    by_cases hj : j = r.2
    · rw [if_pos ⟨hj, holens_len⟩, if_pos hj, hext.2.2.2.1]
    · rw [if_neg (fun hh => hj hh.1), if_neg hj, hext.2.2.2.1]
  have hgoto : (acAddWord st i (W.getD i [])).goto = r.1.goto := rfl
  have hfail : (acAddWord st i (W.getD i [])).failure = r.1.failure := rfl
  refine ⟨TrieInv_set_bits hinv1 r.2 _ _, ?_, ?_, ?_, ?_, ?_⟩
  · show r.1.words = W
    rw [hext.2.2.2.2.2]
    exact h.words_eq
  · intro k hk
    rcases Nat.lt_or_ge k i with hk' | hk'
    · obtain ⟨t, hwt⟩ := h.inserted k hk'
      exact ⟨t, walk_mono hext _ _ _ hwt⟩
    · have : k = i := by omega
      subst this
      exact ⟨r.2, hwalk⟩
  · intro j k
    rw [hgoto, hout]
    by_cases hj : j = r.2
    · subst hj
      rw [if_pos rfl, Nat.testBit_or, Nat.testBit_two_pow]
      constructor
      · intro hbit
        rcases Bool.or_eq_true_iff.mp hbit with hb | hb
        · obtain ⟨hk, hw⟩ := (h.out_bits r.2 k).mp hb
          exact ⟨by omega, walk_mono hext _ _ _ hw⟩
        · have : i = k := of_decide_eq_true hb
          subst this
          exact ⟨Nat.lt_succ_self _, hwalk⟩
      · rintro ⟨hk, hw⟩
        rcases Nat.lt_or_ge k i with hk' | hk'
        · apply Bool.or_eq_true_iff.mpr
          left
          obtain ⟨t, hwt⟩ := h.inserted k hk'
          have hwt' := walk_mono hext _ _ _ hwt
          rw [hw] at hwt'
          cases hwt'
          exact (h.out_bits r.2 k).mpr ⟨hk', hwt⟩
        · have : k = i := by omega
          subst this
          apply Bool.or_eq_true_iff.mpr
          right
          exact decide_eq_true rfl
    · rw [if_neg hj]
      constructor
      · intro hbit
        obtain ⟨hk, hw⟩ := (h.out_bits j k).mp hbit
        exact ⟨by omega, walk_mono hext _ _ _ hw⟩
      · rintro ⟨hk, hw⟩
        rcases Nat.lt_or_ge k i with hk' | hk'
        · obtain ⟨t, hwt⟩ := h.inserted k hk'
          have hwt' := walk_mono hext _ _ _ hwt
          rw [hw] at hwt'
          cases hwt'
          exact (h.out_bits j k).mpr ⟨hk', hwt⟩
        · have : k = i := by omega
          subst this
          rw [hw] at hwalk
          cases hwalk
          exact absurd rfl hj
  · intro j ℓ
    rw [hgoto, holens]
    by_cases hj : j = r.2
    · subst hj
      rw [if_pos rfl, Nat.testBit_or, Nat.testBit_two_pow]
      constructor
      · intro hbit
        rcases Bool.or_eq_true_iff.mp hbit with hb | hb
        · obtain ⟨k, hk, hlen, hw⟩ := (h.olens_bits r.2 ℓ).mp hb
          exact ⟨k, by omega, hlen, walk_mono hext _ _ _ hw⟩
        · have : (W.getD i []).length = ℓ := of_decide_eq_true hb
          exact ⟨i, Nat.lt_succ_self _, this, hwalk⟩
      · rintro ⟨k, hk, hlen, hw⟩
        apply Bool.or_eq_true_iff.mpr
        rcases Nat.lt_or_ge k i with hk' | hk'
        · left
          obtain ⟨t, hwt⟩ := h.inserted k hk'
          have hwt' := walk_mono hext _ _ _ hwt
          rw [hw] at hwt'
          cases hwt'
          exact (h.olens_bits r.2 ℓ).mpr ⟨k, hk', hlen, hwt⟩
        · have : k = i := by omega
          subst this
          right
          exact decide_eq_true hlen
    · rw [if_neg hj]
      constructor
      · intro hbit
        obtain ⟨k, hk, hlen, hw⟩ := (h.olens_bits j ℓ).mp hbit
        exact ⟨k, by omega, hlen, walk_mono hext _ _ _ hw⟩
      · rintro ⟨k, hk, hlen, hw⟩
        rcases Nat.lt_or_ge k i with hk' | hk'
        · obtain ⟨t, hwt⟩ := h.inserted k hk'
          have hwt' := walk_mono hext _ _ _ hwt
          rw [hw] at hwt'
          cases hwt'
          exact (h.olens_bits j ℓ).mpr ⟨k, hk', hlen, hwt⟩
        · have : k = i := by omega
          subst this
          rw [hw] at hwalk
          cases hwalk
          exact absurd rfl hj
  · intro j
    show r.1.failure.getD j 0 = 0
    rw [hext.2.2.2.2.1]
    exact h.fail_zero j

theorem acEmpty_buildInv (W : List (List α)) : BuildInv W 0 (acEmpty W) := by
  have hget : ∀ j, (([[]] : List (List (α × Nat)))).getD j [] = [] := by
    intro j
    cases j <;> rfl
  have hget0 : ∀ j, (([0] : List Nat)).getD j 0 = 0 := by
    intro j
    cases j <;> rfl
  refine ⟨⟨rfl, rfl, rfl, Nat.zero_lt_one, ?_, ?_, ?_, ?_⟩, rfl, ?_, ?_, ?_, ?_⟩
  · intro j l c hmem
    have hmem' : (l, c) ∈ ([[]] : List (List (α × Nat))).getD j [] := hmem
    rw [hget] at hmem'
    cases hmem'
  · intro j
    show (List.map Prod.fst (([[]] : List (List (α × Nat))).getD j [])).Nodup
    rw [hget]
    exact List.nodup_nil
  · intro c j1 l1 j2 l2 h1 h2
    have h1' : (l1, c) ∈ ([[]] : List (List (α × Nat))).getD j1 [] := h1
    rw [hget] at h1'
    cases h1'
  · intro c hc1 hc2
    have hl1 : ([[]] : List (List (α × Nat))).length = 1 := rfl
    have hc2' : c < ([[]] : List (List (α × Nat))).length := hc2
    omega
  · intro k hk
    omega
  · intro j k
    show (([0] : List Nat).getD j 0).testBit k ↔ _
    rw [hget0]
    simp [Nat.zero_testBit]
  · intro j ℓ
    show (([0] : List Nat).getD j 0).testBit ℓ ↔ _
    rw [hget0]
    simp [Nat.zero_testBit]
  · intro j
    exact hget0 j

theorem buildInv_foldl {W : List (List α)} :
    ∀ (ws : List (List α)) (i0 : Nat) (st : AC α), i0 ≤ W.length →
      W.drop i0 = ws → BuildInv W i0 st →
      BuildInv W W.length
        (List.foldl (fun st iw => acAddWord st iw.1 iw.2) st
          (List.enumFrom i0 ws)) := by
  intro ws
  induction ws with
  | nil =>
    intro i0 st hle hdrop h
    have hge : W.length ≤ i0 := List.drop_eq_nil_iff.mp hdrop
    have : i0 = W.length := by omega
    subst this
    exact h
  | cons w ws' ih =>
    intro i0 st hle hdrop h
    have hi0 : i0 < W.length := by
      have hc := congrArg List.length hdrop
      simp [List.length_drop] at hc
      omega
    have hw : W.getD i0 [] = w := by
      have hh : (W.drop i0).get? 0 = some w := by rw [hdrop]; rfl
      rw [List.get?_drop] at hh
      simp only [Nat.add_zero] at hh
      show (W.get? i0).getD [] = w
      rw [hh]
      rfl
    show BuildInv W W.length
      (List.foldl _ (acAddWord st i0 w) (List.enumFrom (i0+1) ws'))
    have hstep := buildInv_addWord h hi0
    rw [hw] at hstep
    exact ih (i0+1) _ (by omega) (by rw [← List.drop_drop, hdrop]; rfl) hstep

theorem acTrie_buildInv (W : List (List α)) : BuildInv W W.length (acTrie W) := by
  rw [acTrie]
  exact buildInv_foldl W 0 (acEmpty W) (Nat.zero_le _) rfl (acEmpty_buildInv W)

/-! ## Failure chase correctness -/

theorem strOf_length_le_self {st : AC α} (hinv : TrieInv st) :
    ∀ c, (strOf st.goto c).length ≤ c := by
  intro c
  induction c using Nat.strong_induction_on with
  | _ c ih =>
    cases c with
    | zero => exact Nat.le_refl 0
    | succ c' =>
      cases hpe : parentEdge st.goto (c'+1) with
      | none =>
        show (strOfGo st.goto (c'+1) (c'+1)).length ≤ c'+1
        rw [strOfGo, if_neg (Nat.succ_ne_zero c'), hpe]
        simp
      | some pl =>
        obtain ⟨j, l⟩ := pl
        have hmem := parentEdge_mem hinv hpe
        have hjc := (hinv.edges_lt _ _ _ hmem).1
        rw [strOf_parent hinv hmem, List.length_append]
        have := ih j (by omega)
        simp
        omega

theorem targets_nodup {st : AC α} (hinv : TrieInv st) (j : Nat) :
    ((st.goto.getD j []).map Prod.snd).Nodup := by
  apply List.Nodup.map_on
  · intro x hx y hy hxy
    obtain ⟨lx, cx⟩ := x
    obtain ⟨ly, cy⟩ := y
    simp only [] at hxy
    subst hxy
    obtain ⟨_, hl⟩ := hinv.parent_uniq cx j lx j ly hx hy
    rw [hl]
  · exact (hinv.keys_nodup j).of_map

/-- The chase loop together with the final `get(l, 0)` computes the
longest node-path suffix of `u ++ [l]`, provided all nodes at least as
shallow as the start carry correct failure links. -/
theorem acChase_spec {T : AC α} (hinv : TrieInv T) (fail : List Nat) (D : Nat)
    (H : ∀ x, x ≠ 0 → x < T.goto.length → (strOf T.goto x).length ≤ D →
      isFailSpec T.goto x (fail.getD x 0)) :
    ∀ (fuel x : Nat) (u : List α) (l : α), x < T.goto.length →
      (strOf T.goto x).length < fuel → (strOf T.goto x).length ≤ D →
      strOf T.goto x <:+ u →
      (∀ c', c' < T.goto.length → strOf T.goto c' <:+ u →
        alookup (T.goto.getD c' []) l ≠ none →
        (strOf T.goto c').length ≤ (strOf T.goto x).length) →
      isDeltaSpec T.goto (u ++ [l])
        ((alookup (T.goto.getD (acChase T.goto fail fuel l x) []) l).getD 0) := by
  intro fuel
  induction fuel with
  | zero => intro x u l _ h _ _ _; omega
  | succ fuel ih =>
    intro x u l hxL hfuel hxD hsuf hcand
    rw [acChase]
    by_cases hx0 : x = 0
    · subst hx0
      rw [if_pos rfl]
      cases hl0 : alookup (T.goto.getD 0 []) l with
      | some c =>
        simp only [Option.getD_some]
        have hmem := alookup_some_mem hl0
        have hstr : strOf T.goto c = [l] := by
          rw [strOf_parent hinv hmem]
          rfl
        refine ⟨(hinv.edges_lt _ _ _ hmem).2, ?_, ?_⟩
        · rw [hstr]
          exact List.suffix_append u [l]
        · intro c' hc' hsufc'
          show (strOf T.goto c').length ≤ (strOf T.goto c).length
          by_cases hc'0 : c' = 0
          · subst hc'0
            have h00 : strOf T.goto (0:Nat) = [] := rfl
            rw [h00, hstr]
            simp
          · obtain ⟨pj, pl, hpmem⟩ := hinv.parent_ex c' (by omega) hc'
            have hstr' := strOf_parent hinv hpmem
            rw [hstr'] at hsufc'
            obtain ⟨heq, hvsuf⟩ := suffix_snoc_iff.mp hsufc'
            subst heq
            have halk : alookup (T.goto.getD pj []) pl = some c' :=
              mem_alookup (hinv.keys_nodup pj) hpmem
            have hplt : pj < T.goto.length := by
              have := (hinv.edges_lt _ _ _ hpmem)
              omega
            have hle := hcand pj hplt hvsuf (by rw [halk]; simp)
            have h00 : (strOf T.goto (0:Nat)).length = 0 := rfl
            have h1 : (strOf T.goto c).length = 1 := by rw [hstr]; rfl
            have h2 : (strOf T.goto c').length = (strOf T.goto pj).length + 1 := by
              rw [hstr', List.length_append]
              rfl
            omega
      | none =>
        simp only [Option.getD_none]
        refine ⟨hinv.root_lt, List.nil_suffix, ?_⟩
        intro c' hc' hsufc'
        by_cases hc'0 : c' = 0
        · subst hc'0; exact Nat.le_refl _
        · exfalso
          obtain ⟨pj, pl, hpmem⟩ := hinv.parent_ex c' (by omega) hc'
          have hstr' := strOf_parent hinv hpmem
          rw [hstr'] at hsufc'
          obtain ⟨heq, hvsuf⟩ := suffix_snoc_iff.mp hsufc'
          subst heq
          have halk : alookup (T.goto.getD pj []) pl = some c' :=
            mem_alookup (hinv.keys_nodup pj) hpmem
          have hplt : pj < T.goto.length := by
            have := (hinv.edges_lt _ _ _ hpmem)
            omega
          have hle := hcand pj hplt hvsuf (by rw [halk]; simp)
          have hpj0 : pj = 0 := by
            have h0 : (strOf T.goto pj).length = 0 := by
              have : (strOf T.goto (0:Nat)).length = 0 := rfl
              omega
            exact (strOf_eq_nil_iff hinv hplt).mp (List.length_eq_zero.mp h0)
          subst hpj0
          rw [halk] at hl0
          cases hl0
    · rw [if_neg hx0]
      cases hlx : alookup (T.goto.getD x []) l with
      | some c =>
        show isDeltaSpec T.goto (u ++ [l]) ((alookup (T.goto.getD x []) l).getD 0)
        rw [hlx]
        simp only [Option.getD_some]
        have hmem := alookup_some_mem hlx
        have hstr : strOf T.goto c = strOf T.goto x ++ [l] :=
          strOf_parent hinv hmem
        refine ⟨(hinv.edges_lt _ _ _ hmem).2, ?_, ?_⟩
        · rw [hstr]
          exact suffix_snoc_iff.mpr ⟨rfl, hsuf⟩
        · intro c' hc' hsufc'
          show (strOf T.goto c').length ≤ (strOf T.goto c).length
          by_cases hc'0 : c' = 0
          · subst hc'0
            have h00 : (strOf T.goto (0:Nat)).length = 0 := rfl
            omega
          · obtain ⟨pj, pl, hpmem⟩ := hinv.parent_ex c' (by omega) hc'
            have hstr' := strOf_parent hinv hpmem
            rw [hstr'] at hsufc'
            obtain ⟨heq, hvsuf⟩ := suffix_snoc_iff.mp hsufc'
            subst heq
            have halk : alookup (T.goto.getD pj []) pl = some c' :=
              mem_alookup (hinv.keys_nodup pj) hpmem
            have hplt : pj < T.goto.length := by
              have := (hinv.edges_lt _ _ _ hpmem)
              omega
            have hle := hcand pj hplt hvsuf (by rw [halk]; simp)
            have h1 : (strOf T.goto c).length = (strOf T.goto x).length + 1 := by
              rw [hstr, List.length_append]
              rfl
            have h2 : (strOf T.goto c').length = (strOf T.goto pj).length + 1 := by
              rw [hstr', List.length_append]
              rfl
            omega
      | none =>
        have hfs := H x hx0 hxL hxD
        obtain ⟨hfL, hfsuf, hflt, hfmax⟩ := hfs
        apply ih (fail.getD x 0) u l hfL (by omega) (by omega) (hfsuf.trans hsuf)
        intro c' hc' hsufc' hlk
        have hle := hcand c' hc' hsufc' hlk
        rcases Nat.lt_or_ge (strOf T.goto c').length (strOf T.goto x).length
          with hlt | hge
        · exact hfmax c' hc'
            (suffix_of_suffix_length_le hsufc' hsuf (by omega)) hlt
        · exfalso
          have hceq : c' = x := by
            apply strOf_inj hinv hc' hxL
            exact (suffix_of_suffix_length_le hsufc' hsuf (by omega)).eq_of_length
              (by omega)
          subst hceq
          rw [hlx] at hlk
          exact hlk rfl

/-- `_findNext` computes the longest node-path suffix after appending one
letter, given correct failure links at all depths up to the start node. -/
theorem acNext_spec {T : AC α} (hinv : TrieInv T) (fail : List Nat) (D : Nat)
    (H : ∀ x, x ≠ 0 → x < T.goto.length → (strOf T.goto x).length ≤ D →
      isFailSpec T.goto x (fail.getD x 0))
    (x0 : Nat) (l : α) (hx0 : x0 < T.goto.length)
    (hD : (strOf T.goto x0).length ≤ D) :
    isDeltaSpec T.goto (strOf T.goto x0 ++ [l]) (acNext T.goto fail x0 l) :=
  acChase_spec hinv fail D H T.goto.length x0 (strOf T.goto x0) l hx0
    (by have := strOf_length_le_self hinv x0; omega) hD (List.suffix_refl _)
    (fun c' _ hs _ => hs.length_le)

theorem isFailSpec_root_child {T : AC α} (hinv : TrieInv T) {c : Nat} {l : α}
    (hmem : (l, c) ∈ T.goto.getD 0 []) : isFailSpec T.goto c 0 := by
  have hstr : strOf T.goto c = [l] := by
    rw [strOf_parent hinv hmem]
    rfl
  have h00 : strOf T.goto (0:Nat) = [] := rfl
  have h00l : (strOf T.goto (0:Nat)).length = 0 := rfl
  have h1 : (strOf T.goto c).length = 1 := by rw [hstr]; rfl
  refine ⟨hinv.root_lt, ?_, by omega, ?_⟩
  · rw [h00]
    exact List.nil_suffix
  · intro c2 hc2 hsuf hlt
    omega

theorem isFailSpec_of_delta {T : AC α} (hinv : TrieInv T) {j j2 f y : Nat}
    {l : α} (hmem : (l, j2) ∈ T.goto.getD j [])
    (hfs : isFailSpec T.goto j f)
    (hds : isDeltaSpec T.goto (strOf T.goto f ++ [l]) y) :
    isFailSpec T.goto j2 y := by
  obtain ⟨hfL, hfsuf, hflt, hfmax⟩ := hfs
  obtain ⟨hyL, hysuf, hymax⟩ := hds
  have hstr2 : strOf T.goto j2 = strOf T.goto j ++ [l] := strOf_parent hinv hmem
  have hlen2 : (strOf T.goto j2).length = (strOf T.goto j).length + 1 := by
    rw [hstr2, List.length_append]
    rfl
  have hlenf : (strOf T.goto f ++ [l]).length = (strOf T.goto f).length + 1 := by
    rw [List.length_append]
    rfl
  refine ⟨hyL, ?_, ?_, ?_⟩
  · rw [hstr2]
    exact hysuf.trans (suffix_snoc_iff.mpr ⟨rfl, hfsuf⟩)
  · have h1 := hysuf.length_le
    omega
  · intro c hc hsufc hltc
    by_cases hc0 : c = 0
    · subst hc0
      have h00l : (strOf T.goto (0:Nat)).length = 0 := rfl
      omega
    · obtain ⟨pj, pl, hpmem⟩ := hinv.parent_ex c (by omega) hc
      have hstrc := strOf_parent hinv hpmem
      rw [hstrc, hstr2] at hsufc
      obtain ⟨heq, hvsuf⟩ := suffix_snoc_iff.mp hsufc
      rw [heq] at hstrc
      have hlenc : (strOf T.goto c).length = (strOf T.goto pj).length + 1 := by
        rw [hstrc, List.length_append]
        rfl
      have hpjL : pj < T.goto.length := by
        have := (hinv.edges_lt _ _ _ hpmem)
        omega
      have hpmax : (strOf T.goto pj).length ≤ (strOf T.goto f).length :=
        hfmax pj hpjL hvsuf (by omega)
      have hpsub : strOf T.goto pj <:+ strOf T.goto f :=
        suffix_of_suffix_length_le hvsuf hfsuf hpmax
      have hcc : strOf T.goto c <:+ strOf T.goto f ++ [l] := by
        rw [hstrc]
        exact suffix_snoc_iff.mpr ⟨rfl, hpsub⟩
      exact hymax c hc hcc

/-! ## Breadth-first failure computation -/

theorem nodeVals_congr {T : AC α} {fail out olens fail' out' olens' : List Nat}
    {c : Nat} (h : nodeVals T fail out olens c)
    (hf : fail'.getD c 0 = fail.getD c 0)
    (ho : out'.getD c 0 = out.getD c 0)
    (hol : olens'.getD c 0 = olens.getD c 0)
    (hof : out'.getD (fail.getD c 0) 0 = out.getD (fail.getD c 0) 0)
    (holf : olens'.getD (fail.getD c 0) 0 = olens.getD (fail.getD c 0) 0) :
    nodeVals T fail' out' olens' c := by
  obtain ⟨h1, h2⟩ := h
  refine ⟨by rw [hf]; exact h1, ?_⟩
  intro pj pl hpe
  obtain ⟨h3, h4⟩ := h2 pj pl hpe
  constructor
  · intro h0
    rw [ho, hol]
    exact h3 h0
  · intro h0
    rw [ho, hol, hf, hof, holf]
    exact h4 h0

theorem mem_targets {g : List (α × Nat)} {c : Nat} :
    c ∈ g.map Prod.snd ↔ ∃ l, (l, c) ∈ g := by
  rw [List.mem_map]
  constructor
  · rintro ⟨⟨l, c'⟩, hm, rfl⟩
    exact ⟨l, hm⟩
  · rintro ⟨l, hm⟩
    exact ⟨(l, c), hm, rfl⟩

theorem acBfsEdges_queue (goto : List (List (α × Nat))) (j : Nat) :
    ∀ (todo : List (α × Nat)) (fail out olens queue : List Nat),
      (acBfsEdges goto j todo (fail, out, olens, queue)).2.2.2 =
        queue ++ todo.map Prod.snd := by
  intro todo
  induction todo with
  | nil =>
    intro fail out olens queue
    simp [acBfsEdges]
  | cons e rest ih =>
    intro fail out olens queue
    obtain ⟨l, j2⟩ := e
    simp only [acBfsEdges]
    rw [ih]
    simp

theorem acBfsEdges_mid {T : AC α} (hinv : TrieInv T) {j : Nat} (S0 : List Nat)
    (hjL : j < T.goto.length) (hj0 : j ≠ 0)
    (hlayer : ∀ y, y < T.goto.length →
      (strOf T.goto y).length ≤ (strOf T.goto j).length → y ∈ S0)
    (hchild : ∀ (l : α) (c : Nat), (l, c) ∈ T.goto.getD j [] → c ∉ S0) :
    ∀ (todo dpre : List (α × Nat)) (fail out olens queue : List Nat),
      T.goto.getD j [] = dpre ++ todo →
      MidInv T fail out olens (S0 ++ dpre.map Prod.snd) →
      MidInv T (acBfsEdges T.goto j todo (fail, out, olens, queue)).1
        (acBfsEdges T.goto j todo (fail, out, olens, queue)).2.1
        (acBfsEdges T.goto j todo (fail, out, olens, queue)).2.2.1
        (S0 ++ (T.goto.getD j []).map Prod.snd) := by
  intro todo
  induction todo with
  | nil =>
    intro dpre fail out olens queue hsplit mid
    rw [List.append_nil] at hsplit
    rw [hsplit]
    exact mid
  | cons e rest ih =>
    intro dpre fail out olens queue hsplit mid
    obtain ⟨l, j2⟩ := e
    have hmem : (l, j2) ∈ T.goto.getD j [] := by
      rw [hsplit]
      exact List.mem_append.mpr (Or.inr (List.mem_cons_self _ _))
    have hedge := hinv.edges_lt j l j2 hmem
    have hj20 : j2 ≠ 0 := by omega
    have hj2L : j2 < T.goto.length := hedge.2
    have hj2dpre : j2 ∉ dpre.map Prod.snd := by
      have hnd := targets_nodup hinv j
      rw [hsplit, List.map_append] at hnd
      have hdisj := List.disjoint_of_nodup_append hnd
      intro hmem2
      exact hdisj hmem2 (by simp)
    have hj2S : j2 ∉ S0 ++ dpre.map Prod.snd := by
      intro hm
      rcases List.mem_append.mp hm with hm | hm
      · exact hchild l j2 hmem hm
      · exact hj2dpre hm
    have hjS : j ∈ S0 ++ dpre.map Prod.snd :=
      List.mem_append.mpr (Or.inl (hlayer j hjL (Nat.le_refl _)))
    obtain ⟨hnvj, hfjS⟩ := mid.vals j hjS hj0
    have hfsj := hnvj.1
    have H : ∀ x, x ≠ 0 → x < T.goto.length →
        (strOf T.goto x).length ≤ (strOf T.goto (fail.getD j 0)).length →
        isFailSpec T.goto x (fail.getD x 0) := by
      intro x hx0 hxL hxD
      have hxS : x ∈ S0 := hlayer x hxL (by have := hfsj.2.2.1; omega)
      exact (mid.vals x (List.mem_append.mpr (Or.inl hxS)) hx0).1.1
    have hds := acNext_spec hinv fail (strOf T.goto (fail.getD j 0)).length H
      (fail.getD j 0) l hfsj.1 (Nat.le_refl _)
    have hfs2 := isFailSpec_of_delta hinv hmem hfsj hds
    have hjfL : acNext T.goto fail (fail.getD j 0) l < T.goto.length := hds.1
    have hjfdep : (strOf T.goto (acNext T.goto fail (fail.getD j 0) l)).length ≤
        (strOf T.goto j).length := by
      have h1 := hds.2.1.length_le
      rw [List.length_append, List.length_singleton] at h1
      have := hfsj.2.2.1
      omega
    have hjfS : acNext T.goto fail (fail.getD j 0) l ∈ S0 ++ dpre.map Prod.snd :=
      List.mem_append.mpr (Or.inl (hlayer _ hjfL hjfdep))
    have hjfne : acNext T.goto fail (fail.getD j 0) l ≠ j2 :=
      fun he => hj2S (he ▸ hjfS)
    obtain ⟨hfj2, hoj2, holj2⟩ := mid.unsettled j2 hj2L hj2S
    have mid' : MidInv T (fail.set j2 (acNext T.goto fail (fail.getD j 0) l))
        (out.set j2 (out.getD j2 0 |||
          out.getD (acNext T.goto fail (fail.getD j 0) l) 0))
        (olens.set j2 (olens.getD j2 0 |||
          olens.getD (acNext T.goto fail (fail.getD j 0) l) 0))
        ((S0 ++ dpre.map Prod.snd) ++ [j2]) := by
      refine ⟨?_, ?_, ?_, ?_, ?_, ?_, ?_⟩
      · rw [List.length_set]; exact mid.len_f
      · rw [List.length_set]; exact mid.len_o
      · rw [List.length_set]; exact mid.len_ol
      · intro c hc
        rcases List.mem_append.mp hc with hc | hc
        · exact mid.s_lt c hc
        · rw [List.mem_singleton] at hc
          rw [hc]
          exact hj2L
      · constructor
        · rw [getD_set', if_neg (fun h => hj20 h.1.symm)]
          exact mid.root_vals.1
        · rw [getD_set', if_neg (fun h => hj20 h.1.symm)]
          exact mid.root_vals.2
      · intro c hcL hcS
        have hc1 : c ∉ S0 ++ dpre.map Prod.snd :=
          fun h => hcS (List.mem_append.mpr (Or.inl h))
        have hc2 : c ≠ j2 := by
          intro h
          exact hcS (List.mem_append.mpr (Or.inr (by rw [h]; exact List.mem_singleton.mpr rfl)))
        obtain ⟨u1, u2, u3⟩ := mid.unsettled c hcL hc1
        refine ⟨?_, ?_, ?_⟩
        · rw [getD_set', if_neg (fun h => hc2 h.1)]; exact u1
        · rw [getD_set', if_neg (fun h => hc2 h.1)]; exact u2
        · rw [getD_set', if_neg (fun h => hc2 h.1)]; exact u3
      · intro c hc hc0
        rcases List.mem_append.mp hc with hcS | hcj2
        · obtain ⟨hnv, hfcS⟩ := mid.vals c hcS hc0
          have hcne : c ≠ j2 := fun h => hj2S (h ▸ hcS)
          have hfcne : fail.getD c 0 ≠ j2 := fun h => hj2S (h ▸ hfcS)
          refine ⟨nodeVals_congr hnv ?_ ?_ ?_ ?_ ?_, ?_⟩
          · rw [getD_set', if_neg (fun h => hcne h.1)]
          · rw [getD_set', if_neg (fun h => hcne h.1)]
          · rw [getD_set', if_neg (fun h => hcne h.1)]
          · rw [getD_set', if_neg (fun h => hfcne h.1)]
          · rw [getD_set', if_neg (fun h => hfcne h.1)]
          · rw [getD_set', if_neg (fun h => hcne h.1)]
            exact List.mem_append.mpr (Or.inl hfcS)
        · rw [List.mem_singleton] at hcj2
          subst hcj2
          have hfj2' : (fail.set c (acNext T.goto fail (fail.getD j 0) l)).getD c 0 =
              acNext T.goto fail (fail.getD j 0) l := by
            rw [getD_set', if_pos ⟨rfl, by rw [mid.len_f]; exact hj2L⟩]
          have hpe := mem_parentEdge hinv hmem
          refine ⟨⟨by rw [hfj2']; exact hfs2, ?_⟩, ?_⟩
          · intro pj pl hpe'
            rw [hpe] at hpe'
            have hinj := Option.some.inj hpe'
            have hpj : j = pj := congrArg Prod.fst hinj
            constructor
            · intro h0
              exact absurd (hpj.trans h0) hj0
            · intro _
              constructor
              · rw [getD_set', if_pos ⟨rfl, by rw [mid.len_o]; exact hj2L⟩, hoj2,
                  hfj2', getD_set', if_neg (fun h => hjfne h.1)]
              · rw [getD_set', if_pos ⟨rfl, by rw [mid.len_ol]; exact hj2L⟩, holj2,
                  hfj2', getD_set', if_neg (fun h => hjfne h.1)]
          · rw [hfj2']
            exact List.mem_append.mpr (Or.inl (List.mem_append.mpr
              (Or.inl (hlayer _ hjfL hjfdep))))
    have hsplit' : T.goto.getD j [] = (dpre ++ [(l, j2)]) ++ rest := by
      rw [hsplit, List.append_assoc]
      rfl
    have heq : S0 ++ ((dpre ++ [(l, j2)]).map Prod.snd) =
        (S0 ++ dpre.map Prod.snd) ++ [j2] := by
      rw [List.map_append, List.append_assoc]
      rfl
    have midNew : MidInv T (fail.set j2 (acNext T.goto fail (fail.getD j 0) l))
        (out.set j2 (out.getD j2 0 |||
          out.getD (acNext T.goto fail (fail.getD j 0) l) 0))
        (olens.set j2 (olens.getD j2 0 |||
          olens.getD (acNext T.goto fail (fail.getD j 0) l) 0))
        (S0 ++ ((dpre ++ [(l, j2)]).map Prod.snd)) := by
      rw [heq]
      exact mid'
    have hres := ih (dpre ++ [(l, j2)])
      (fail.set j2 (acNext T.goto fail (fail.getD j 0) l))
      (out.set j2 (out.getD j2 0 |||
        out.getD (acNext T.goto fail (fail.getD j 0) l) 0))
      (olens.set j2 (olens.getD j2 0 |||
        olens.getD (acNext T.goto fail (fail.getD j 0) l) 0))
      (queue ++ [j2]) hsplit' midNew
    simp only [acBfsEdges]
    exact hres

/-- When `j` is at the head of the queue, every node at most as deep as `j`
is already settled. -/
theorem bfs_layer {T : AC α} {fail out olens : List Nat}
    {j : Nat} {qrest popped S : List Nat} (hinv : TrieInv T)
    (inv : BfsInv T fail out olens (j :: qrest) popped S) :
    ∀ y, y < T.goto.length →
      (strOf T.goto y).length ≤ (strOf T.goto j).length → y ∈ S := by
  intro y hyL hylen
  by_cases hy0 : y = 0
  · rw [hy0]
    exact inv.s_zero
  · obtain ⟨p, l, hpmem⟩ := hinv.parent_ex y (by omega) hyL
    have hstr := strOf_parent hinv hpmem
    have hpL : p < T.goto.length := by
      have := hinv.edges_lt _ _ _ hpmem
      omega
    have hplen : (strOf T.goto p).length + 1 = (strOf T.goto y).length := by
      rw [hstr, List.length_append, List.length_singleton]
    have hpS : p ∈ S := inv.q_layer j (List.mem_cons_self _ _) p hpL (by omega)
    by_cases hp0 : p = 0
    · rw [hp0] at hpmem
      exact inv.s_root l y hpmem
    · have hnq : p ∉ j :: qrest := by
        intro hpq
        have hge : (strOf T.goto j).length ≤ (strOf T.goto p).length := by
          rcases List.mem_cons.mp hpq with rfl | hpq'
          · exact Nat.le_refl _
          · exact (List.pairwise_cons.mp inv.q_sorted).1 p hpq'
        omega
      have hppop : p ∈ popped := by
        by_contra hnp
        exact hnq ((inv.cover p hpS hp0).mpr hnp)
      exact inv.s_closed p hppop l y hpmem

/-- No child of the queue head is settled yet. -/
theorem bfs_child {T : AC α} {fail out olens : List Nat}
    {j : Nat} {qrest popped S : List Nat} (hinv : TrieInv T)
    (inv : BfsInv T fail out olens (j :: qrest) popped S) :
    ∀ (l : α) (c : Nat), (l, c) ∈ T.goto.getD j [] → c ∉ S := by
  intro l c hmem hcS
  obtain ⟨hjS, hj0⟩ := inv.q_sub j (List.mem_cons_self _ _)
  have hjnp : j ∉ popped := (inv.cover j hjS hj0).mp (List.mem_cons_self _ _)
  have hc0 : c ≠ 0 := by
    have := hinv.edges_lt _ _ _ hmem
    omega
  obtain ⟨jj, ll, hpe, hor⟩ := inv.s_from c hcS hc0
  have hpe2 := mem_parentEdge hinv hmem
  rw [hpe2] at hpe
  have hinj := Option.some.inj hpe
  have hjj : j = jj := congrArg Prod.fst hinj
  rcases hor with h0 | hp
  · exact hj0 (hjj.trans h0)
  · exact hjnp (hjj ▸ hp)

/-- Popping the queue head and processing its adjacency list preserves the
BFS invariant, enlarging the settled set by the head's children. -/
theorem bfs_step {T : AC α} (hinv : TrieInv T) {fail out olens : List Nat}
    {j : Nat} {qrest popped S : List Nat}
    (inv : BfsInv T fail out olens (j :: qrest) popped S) :
    BfsInv T
      (acBfsEdges T.goto j (T.goto.getD j []) (fail, out, olens, qrest)).1
      (acBfsEdges T.goto j (T.goto.getD j []) (fail, out, olens, qrest)).2.1
      (acBfsEdges T.goto j (T.goto.getD j []) (fail, out, olens, qrest)).2.2.1
      (qrest ++ (T.goto.getD j []).map Prod.snd)
      (popped ++ [j]) (S ++ (T.goto.getD j []).map Prod.snd) := by
  obtain ⟨hjS, hj0⟩ := inv.q_sub j (List.mem_cons_self _ _)
  have hjL : j < T.goto.length := inv.s_lt j hjS
  have hjnp : j ∉ popped := (inv.cover j hjS hj0).mp (List.mem_cons_self _ _)
  have hlayer := bfs_layer hinv inv
  have hchild := bfs_child hinv inv
  have mid0 : MidInv T fail out olens
      (S ++ (([] : List (α × Nat)).map Prod.snd)) := by
    rw [List.map_nil, List.append_nil]
    exact ⟨inv.len_f, inv.len_o, inv.len_ol, inv.s_lt, inv.root_vals,
      inv.unsettled, inv.vals⟩
  have mid := acBfsEdges_mid hinv S hjL hj0 hlayer hchild (T.goto.getD j [])
    [] fail out olens qrest (by rw [List.nil_append]) mid0
  have hdepth : ∀ c ∈ (T.goto.getD j []).map Prod.snd,
      (strOf T.goto c).length = (strOf T.goto j).length + 1 := by
    intro c hc
    obtain ⟨l, hm⟩ := mem_targets.mp hc
    rw [strOf_parent hinv hm, List.length_append, List.length_singleton]
  have htgS : ∀ c ∈ (T.goto.getD j []).map Prod.snd, c ∉ S := by
    intro c hc
    obtain ⟨l, hm⟩ := mem_targets.mp hc
    exact hchild l c hm
  have htg0 : ∀ c ∈ (T.goto.getD j []).map Prod.snd, c ≠ 0 := by
    intro c hc
    obtain ⟨l, hm⟩ := mem_targets.mp hc
    have := hinv.edges_lt _ _ _ hm
    omega
  have hqbound : ∀ c ∈ j :: qrest,
      (strOf T.goto c).length ≤ (strOf T.goto j).length + 1 :=
    inv.q_bound j rfl
  have hjge : ∀ c ∈ qrest, (strOf T.goto j).length ≤ (strOf T.goto c).length :=
    (List.pairwise_cons.mp inv.q_sorted).1
  refine ⟨mid.len_f, mid.len_o, mid.len_ol,
    List.mem_append.mpr (Or.inl inv.s_zero), mid.s_lt, ?_, ?_, ?_, ?_, ?_,
    ?_, ?_, ?_, mid.unsettled, mid.root_vals, mid.vals, ?_, ?_, ?_⟩
  · intro c hc
    rcases List.mem_append.mp hc with hc | hc
    · obtain ⟨h1, h2⟩ := inv.q_sub c (List.mem_cons_of_mem _ hc)
      exact ⟨List.mem_append.mpr (Or.inl h1), h2⟩
    · exact ⟨List.mem_append.mpr (Or.inr hc), htg0 c hc⟩
  · intro c hc
    rcases List.mem_append.mp hc with hc | hc
    · obtain ⟨h1, h2⟩ := inv.p_sub c hc
      exact ⟨List.mem_append.mpr (Or.inl h1), h2⟩
    · rw [List.mem_singleton] at hc
      rw [hc]
      exact ⟨List.mem_append.mpr (Or.inl hjS), hj0⟩
  · refine List.Nodup.append ((List.nodup_cons.mp inv.q_nodup).2)
      (targets_nodup hinv j) ?_
    intro a ha hb
    exact htgS a hb (inv.q_sub a (List.mem_cons_of_mem _ ha)).1
  · refine List.Nodup.append inv.p_nodup (List.nodup_singleton j) ?_
    intro a ha hb
    rw [List.mem_singleton] at hb
    rw [hb] at ha
    exact hjnp ha
  · intro c hc hc0
    rcases List.mem_append.mp hc with hcS | hctg
    · have hcnotg : c ∉ (T.goto.getD j []).map Prod.snd :=
        fun h => htgS c h hcS
      by_cases hcj : c = j
      · constructor
        · intro hcq
          rcases List.mem_append.mp hcq with h | h
          · exact absurd (hcj ▸ h) ((List.nodup_cons.mp inv.q_nodup).1)
          · exact absurd h hcnotg
        · intro hcp
          exact absurd (List.mem_append.mpr (Or.inr
            (List.mem_singleton.mpr hcj))) hcp
      · have hiff := inv.cover c hcS hc0
        constructor
        · intro hcq
          rcases List.mem_append.mp hcq with h | h
          · have := hiff.mp (List.mem_cons_of_mem _ h)
            intro hcp
            rcases List.mem_append.mp hcp with h2 | h2
            · exact this h2
            · exact hcj (List.mem_singleton.mp h2)
          · exact absurd h hcnotg
        · intro hcp
          have hnp : c ∉ popped := fun h =>
            hcp (List.mem_append.mpr (Or.inl h))
          have := hiff.mpr hnp
          rcases List.mem_cons.mp this with h | h
          · exact absurd h hcj
          · exact List.mem_append.mpr (Or.inl h)
    · constructor
      · intro _
        intro hcp
        rcases List.mem_append.mp hcp with h | h
        · exact htgS c hctg (inv.p_sub c h).1
        · rw [List.mem_singleton] at h
          exact htgS c hctg (h ▸ hjS)
      · intro _
        exact List.mem_append.mpr (Or.inr hctg)
  · intro l c hm
    exact List.mem_append.mpr (Or.inl (inv.s_root l c hm))
  · intro p hp l c hm
    rcases List.mem_append.mp hp with hp | hp
    · exact List.mem_append.mpr (Or.inl (inv.s_closed p hp l c hm))
    · rw [List.mem_singleton] at hp
      rw [hp] at hm
      exact List.mem_append.mpr (Or.inr (mem_targets.mpr ⟨l, hm⟩))
  · intro c hc hc0
    rcases List.mem_append.mp hc with hc | hc
    · obtain ⟨jj, ll, hpe, hor⟩ := inv.s_from c hc hc0
      exact ⟨jj, ll, hpe, hor.imp id (fun h => List.mem_append.mpr (Or.inl h))⟩
    · obtain ⟨l, hm⟩ := mem_targets.mp hc
      exact ⟨j, l, mem_parentEdge hinv hm,
        Or.inr (List.mem_append.mpr (Or.inr (List.mem_singleton.mpr rfl)))⟩
  · refine List.pairwise_append.mpr ⟨(List.pairwise_cons.mp inv.q_sorted).2, ?_, ?_⟩
    · apply List.pairwise_of_forall_mem_list
      intro a ha b hb
      rw [hdepth a ha, hdepth b hb]
    · intro a ha b hb
      have h1 := hqbound a (List.mem_cons_of_mem _ ha)
      rw [hdepth b hb]
      omega
  · intro c hc y hyL hylt
    rcases List.mem_append.mp hc with hc | hc
    · exact List.mem_append.mpr (Or.inl
        (inv.q_layer c (List.mem_cons_of_mem _ hc) y hyL hylt))
    · rw [hdepth c hc] at hylt
      exact List.mem_append.mpr (Or.inl (hlayer y hyL (by omega)))
  · intro h hh c hc
    cases hq : qrest with
    | nil =>
      rw [hq, List.nil_append] at hh hc
      have hhm : h ∈ (T.goto.getD j []).map Prod.snd := by
        cases hm : (T.goto.getD j []).map Prod.snd with
        | nil => rw [hm] at hh; cases hh
        | cons x xs =>
          rw [hm] at hh
          have : x = h := Option.some.inj hh
          rw [← this]
          exact List.mem_cons_self _ _
      rw [hdepth c hc, hdepth h hhm]
      omega
    | cons h' rest' =>
      rw [hq] at hh hc
      have hhh : h' = h := Option.some.inj hh
      have hh'ge : (strOf T.goto j).length ≤ (strOf T.goto h').length := by
        apply hjge
        rw [hq]
        exact List.mem_cons_self _ _
      rcases List.mem_append.mp hc with hc2 | hc2
      · have := hqbound c (by rw [hq]; exact List.mem_cons_of_mem _ hc2)
        rw [← hhh]
        omega
      · rw [hdepth c hc2, ← hhh]
        omega

/-- Running the BFS loop from any invariant state with enough fuel empties
the queue while preserving the invariant. -/
theorem acBfsGo_run {T : AC α} (hinv : TrieInv T) :
    ∀ (fuel : Nat) (fail out olens queue popped S : List Nat),
      BfsInv T fail out olens queue popped S →
      T.goto.length ≤ fuel + popped.length →
      ∃ popped' S',
        BfsInv T (acBfsGo T.goto fuel (fail, out, olens) queue).1
          (acBfsGo T.goto fuel (fail, out, olens) queue).2.1
          (acBfsGo T.goto fuel (fail, out, olens) queue).2.2
          [] popped' S' := by
  intro fuel
  induction fuel with
  | zero =>
    intro fail out olens queue popped S inv hfuel
    exfalso
    have h0p : (0 :: popped).Nodup := by
      refine List.nodup_cons.mpr ⟨?_, inv.p_nodup⟩
      intro h0
      exact (inv.p_sub 0 h0).2 rfl
    have hsub : (0 :: popped) ⊆ List.range T.goto.length := by
      intro c hc
      rcases List.mem_cons.mp hc with rfl | hc'
      · exact List.mem_range.mpr hinv.root_lt
      · exact List.mem_range.mpr (inv.s_lt c (inv.p_sub c hc').1)
    have hle := (List.subperm_of_subset h0p hsub).length_le
    rw [List.length_cons, List.length_range] at hle
    omega
  | succ fuel ih =>
    intro fail out olens queue popped S inv hfuel
    cases queue with
    | nil => exact ⟨popped, S, inv⟩
    | cons j qrest =>
      have step := bfs_step hinv inv
      have hq := acBfsEdges_queue T.goto j (T.goto.getD j []) fail out olens qrest
      simp only [acBfsGo]
      rw [hq]
      exact ih _ _ _ _ (popped ++ [j]) (S ++ (T.goto.getD j []).map Prod.snd)
        step (by rw [List.length_append, List.length_singleton]; omega)

/-- Once the queue is empty every node is settled. -/
theorem bfs_all_settled {T : AC α} (hinv : TrieInv T)
    {fail out olens : List Nat} {popped S : List Nat}
    (inv : BfsInv T fail out olens [] popped S) :
    ∀ c, c < T.goto.length → c ∈ S := by
  intro c
  induction c using Nat.strong_induction_on with
  | _ c ihc =>
    intro hcL
    cases c with
    | zero => exact inv.s_zero
    | succ c' =>
      obtain ⟨p, l, hpmem⟩ := hinv.parent_ex (c'+1) (by omega) hcL
      have hedge := hinv.edges_lt _ _ _ hpmem
      have hpS : p ∈ S := ihc p (by omega) (by omega)
      by_cases hp0 : p = 0
      · rw [hp0] at hpmem
        exact inv.s_root l (c'+1) hpmem
      · have hppop : p ∈ popped := by
          by_contra hnp
          exact List.not_mem_nil p ((inv.cover p hpS hp0).mpr hnp)
        exact inv.s_closed p hppop l (c'+1) hpmem

/-- The BFS invariant holds immediately after the trie is built, with the
root children enqueued. -/
theorem bfsInv_init (W : List (List α)) :
    BfsInv (acTrie W) (acTrie W).failure (acTrie W).out (acTrie W).out_lens
      (((acTrie W).goto.getD 0 []).map Prod.snd) []
      (0 :: ((acTrie W).goto.getD 0 []).map Prod.snd) := by
  have hb := acTrie_buildInv W
  have hinv := hb.inv
  have hfz := hb.fail_zero
  refine ⟨hinv.len_fail, hinv.len_out, hinv.len_olens,
    List.mem_cons_self _ _, ?_, ?_, ?_, targets_nodup hinv 0,
    List.nodup_nil, ?_, ?_, ?_, ?_, ?_, ⟨rfl, rfl⟩, ?_, ?_, ?_, ?_⟩
  · intro c hc
    rcases List.mem_cons.mp hc with rfl | hc'
    · exact hinv.root_lt
    · obtain ⟨l, hm⟩ := mem_targets.mp hc'
      exact (hinv.edges_lt _ _ _ hm).2
  · intro c hc
    obtain ⟨l, hm⟩ := mem_targets.mp hc
    have := hinv.edges_lt _ _ _ hm
    exact ⟨List.mem_cons_of_mem _ hc, by omega⟩
  · intro c hc
    cases hc
  · intro c hc hc0
    rcases List.mem_cons.mp hc with rfl | hc'
    · exact absurd rfl hc0
    · constructor
      · intro _
        exact List.not_mem_nil c
      · intro _
        exact hc'
  · intro l c hm
    exact List.mem_cons_of_mem _ (mem_targets.mpr ⟨l, hm⟩)
  · intro p hp
    cases hp
  · intro c hc hc0
    rcases List.mem_cons.mp hc with rfl | hc'
    · exact absurd rfl hc0
    · obtain ⟨l, hm⟩ := mem_targets.mp hc'
      exact ⟨0, l, mem_parentEdge hinv hm, Or.inl rfl⟩
  · intro c hcL hcS
    refine ⟨hfz c, rfl, rfl⟩
  · intro c hc hc0
    rcases List.mem_cons.mp hc with rfl | hc'
    · exact absurd rfl hc0
    · obtain ⟨l, hm⟩ := mem_targets.mp hc'
      refine ⟨⟨?_, ?_⟩, ?_⟩
      · rw [hfz c]
        exact isFailSpec_root_child hinv hm
      · intro pj pl hpe
        have hpe2 := mem_parentEdge hinv hm
        rw [hpe2] at hpe
        have hinj := Option.some.inj hpe
        have hpj : (0 : Nat) = pj := congrArg Prod.fst hinj
        constructor
        · intro _
          exact ⟨rfl, rfl⟩
        · intro h0
          exact absurd hpj.symm h0
      · rw [hfz c]
        exact List.mem_cons_self _ _
  · apply List.pairwise_of_forall_mem_list
    intro a ha b hb
    obtain ⟨la, hma⟩ := mem_targets.mp ha
    obtain ⟨lb, hmb⟩ := mem_targets.mp hb
    rw [strOf_parent hinv hma, strOf_parent hinv hmb]
    exact Nat.le_refl _
  · intro c hc y hyL hylt
    obtain ⟨l, hm⟩ := mem_targets.mp hc
    rw [strOf_parent hinv hm] at hylt
    have h00 : strOf (acTrie W).goto (0 : Nat) = [] := rfl
    rw [h00, List.nil_append, List.length_singleton] at hylt
    have hy0 : strOf (acTrie W).goto y = [] :=
      List.length_eq_zero.mp (by omega)
    have := (strOf_eq_nil_iff hinv hyL).mp hy0
    rw [this]
    exact List.mem_cons_self _ _
  · intro h hh c hc
    obtain ⟨l, hm⟩ := mem_targets.mp hc
    rw [strOf_parent hinv hm]
    have h00 : strOf (acTrie W).goto (0 : Nat) = [] := rfl
    rw [h00, List.nil_append, List.length_singleton]
    omega

/-- The fully built automaton keeps the trie transitions and words, and
every non-root node carries the settled values. -/
theorem acBuild_vals (W : List (List α)) :
    (acBuild W).goto = (acTrie W).goto ∧
    (acBuild W).words = (acTrie W).words ∧
    (acBuild W).failure.length = (acTrie W).goto.length ∧
    (acBuild W).out.length = (acTrie W).goto.length ∧
    (acBuild W).out_lens.length = (acTrie W).goto.length ∧
    ((acBuild W).out.getD 0 0 = (acTrie W).out.getD 0 0 ∧
     (acBuild W).out_lens.getD 0 0 = (acTrie W).out_lens.getD 0 0) ∧
    ∀ c, c < (acTrie W).goto.length → c ≠ 0 →
      nodeVals (acTrie W) (acBuild W).failure (acBuild W).out
        (acBuild W).out_lens c := by
  have hb := acTrie_buildInv W
  have hinv := hb.inv
  obtain ⟨popped', S', invF⟩ := acBfsGo_run hinv (acTrie W).goto.length
    (acTrie W).failure (acTrie W).out (acTrie W).out_lens
    (((acTrie W).goto.getD 0 []).map Prod.snd) [] _
    (bfsInv_init W) (by rw [List.length_nil]; omega)
  have hset := bfs_all_settled hinv invF
  refine ⟨rfl, rfl, invF.len_f, invF.len_o, invF.len_ol, invF.root_vals, ?_⟩
  intro c hcL hc0
  exact (invF.vals c (hset c hcL) hc0).1

/-! ## Bitset characterisation of the built automaton -/

theorem acBuild_fail_spec (W : List (List α)) :
    ∀ c, c < (acTrie W).goto.length → c ≠ 0 →
      isFailSpec (acTrie W).goto c ((acBuild W).failure.getD c 0) :=
  fun c hc h0 => ((acBuild_vals W).2.2.2.2.2.2 c hc h0).1

theorem suffix_singleton {u : List α} {a : α} (h : u <:+ [a]) (hne : u ≠ []) :
    u = [a] := by
  obtain ⟨w, hw⟩ := h
  cases w with
  | nil => exact hw
  | cons x xs =>
    have hlen := congrArg List.length hw
    rw [List.length_append, List.length_cons, List.length_singleton] at hlen
    have hu0 : u.length = 0 := by omega
    exact absurd (List.length_eq_zero.mp hu0) hne

theorem mem_iff_getD {W : List (List α)} {w : List α} :
    w ∈ W ↔ ∃ k, k < W.length ∧ W.getD k [] = w := by
  rw [List.mem_iff_getElem]
  constructor
  · rintro ⟨i, h, he⟩
    exact ⟨i, h, by rw [List.getD_eq_getElem W [] h, he]⟩
  · rintro ⟨k, hk, he⟩
    exact ⟨k, hk, by rw [List.getD_eq_getElem W [] hk] at he; exact he⟩

/-- Direct match bits of the trie: bit `k` is set at node `c` exactly when
word `k` spells the path of `c`. -/
theorem trie_out_bit {W : List (List α)} {c : Nat}
    (hc : c < (acTrie W).goto.length) (k : Nat) :
    (((acTrie W).out.getD c 0).testBit k = true) ↔
      (k < W.length ∧ W.getD k [] = strOf (acTrie W).goto c) := by
  have hb := acTrie_buildInv W
  rw [hb.out_bits c k]
  constructor
  · rintro ⟨hk, hw⟩
    exact ⟨hk, (walk_eq_strOf hb.inv _ _ hw).1⟩
  · rintro ⟨hk, hw⟩
    refine ⟨hk, ?_⟩
    rw [hw]
    exact walk_strOf hb.inv c hc

/-- Direct length bits of the trie. -/
theorem trie_olens_bit {W : List (List α)} {c : Nat}
    (hc : c < (acTrie W).goto.length) (ℓ : Nat) :
    (((acTrie W).out_lens.getD c 0).testBit ℓ = true) ↔
      ∃ k, k < W.length ∧ (W.getD k []).length = ℓ ∧
        W.getD k [] = strOf (acTrie W).goto c := by
  have hb := acTrie_buildInv W
  rw [hb.olens_bits c ℓ]
  constructor
  · rintro ⟨k, hk, hl, hw⟩
    exact ⟨k, hk, hl, (walk_eq_strOf hb.inv _ _ hw).1⟩
  · rintro ⟨k, hk, hl, hw⟩
    refine ⟨k, hk, hl, ?_⟩
    rw [hw]
    exact walk_strOf hb.inv c hc

/-- Bit `k` of the settled `out` bitset of node `c` is set exactly when the
(nonempty) word `k` is a suffix of the path of `c`. -/
theorem acBuild_out_bit (W : List (List α)) {k : Nat}
    (hk : k < W.length) (hne : W.getD k [] ≠ []) :
    ∀ c, c < (acTrie W).goto.length →
      (((acBuild W).out.getD c 0).testBit k = true ↔
        W.getD k [] <:+ strOf (acTrie W).goto c) := by
  have hb := acTrie_buildInv W
  have hinv := hb.inv
  obtain ⟨hgoto, hwords, hlf, hlo, hlol, hroot, hvals⟩ := acBuild_vals W
  have main : ∀ d c, c < (acTrie W).goto.length →
      (strOf (acTrie W).goto c).length = d →
      (((acBuild W).out.getD c 0).testBit k = true ↔
        W.getD k [] <:+ strOf (acTrie W).goto c) := by
    intro d
    induction d using Nat.strong_induction_on with
    | _ d ihd =>
      intro c hcL hdep
      by_cases hc0 : c = 0
      · subst hc0
        rw [hroot.1, trie_out_bit hinv.root_lt k]
        have h00 : strOf (acTrie W).goto (0 : Nat) = [] := rfl
        rw [h00]
        constructor
        · rintro ⟨_, hw⟩
          exact absurd hw hne
        · intro h
          exact absurd (List.suffix_nil.mp h) hne
      · obtain ⟨pj, pl, hpmem⟩ := hinv.parent_ex c (by omega) hcL
        have hpe := mem_parentEdge hinv hpmem
        have hstrc := strOf_parent hinv hpmem
        have hnv := hvals c hcL hc0
        have hfs := hnv.1
        obtain ⟨hcase0, hcase1⟩ := hnv.2 pj pl hpe
        by_cases hpj0 : pj = 0
        · obtain ⟨ho, _⟩ := hcase0 hpj0
          rw [ho, trie_out_bit hcL k]
          have hstr1 : strOf (acTrie W).goto c = [pl] := by
            rw [hstrc, hpj0]
            rfl
          rw [hstr1]
          constructor
          · rintro ⟨_, he⟩
            rw [he]
          · intro hsuf
            exact ⟨hk, suffix_singleton hsuf hne⟩
        · obtain ⟨ho, _⟩ := hcase1 hpj0
          rw [ho, Nat.testBit_or, Bool.or_eq_true, trie_out_bit hcL k]
          have hffL : (acBuild W).failure.getD c 0 < (acTrie W).goto.length :=
            hfs.1
          have hfdep :
              (strOf (acTrie W).goto ((acBuild W).failure.getD c 0)).length < d := by
            have := hfs.2.2.1
            omega
          rw [ihd _ hfdep _ hffL rfl]
          constructor
          · rintro (⟨_, he⟩ | hsuff)
            · rw [he]
            · exact hsuff.trans hfs.2.1
          · intro hsuf
            by_cases heq : W.getD k [] = strOf (acTrie W).goto c
            · exact Or.inl ⟨hk, heq⟩
            · right
              obtain ⟨t, hwt⟩ := hb.inserted k hk
              obtain ⟨hwt1, htL⟩ := walk_eq_strOf hinv _ _ hwt
              have hlenlt : (W.getD k []).length <
                  (strOf (acTrie W).goto c).length := by
                have h1 := hsuf.length_le
                rcases Nat.lt_or_ge (W.getD k []).length
                  (strOf (acTrie W).goto c).length with h | h
                · exact h
                · exact absurd (hsuf.eq_of_length (by omega)) heq
              have hmax := hfs.2.2.2 t htL (by rw [← hwt1]; exact hsuf)
                (by rw [← hwt1]; omega)
              have hres := suffix_of_suffix_length_le
                (t := strOf (acTrie W).goto c) (by rw [← hwt1]; exact hsuf)
                hfs.2.1 hmax
              rw [← hwt1] at hres
              exact hres
  intro c hcL
  exact main _ c hcL rfl

/-- A set bit `k` in a settled `out` bitset always names a real pattern no
longer than the node path. -/
theorem acBuild_out_bound (W : List (List α)) :
    ∀ c, c < (acTrie W).goto.length → ∀ k,
      ((acBuild W).out.getD c 0).testBit k = true →
      k < W.length ∧ (W.getD k []).length ≤ (strOf (acTrie W).goto c).length := by
  have hb := acTrie_buildInv W
  have hinv := hb.inv
  obtain ⟨hgoto, hwords, hlf, hlo, hlol, hroot, hvals⟩ := acBuild_vals W
  have main : ∀ d c, c < (acTrie W).goto.length →
      (strOf (acTrie W).goto c).length = d → ∀ k,
      ((acBuild W).out.getD c 0).testBit k = true →
      k < W.length ∧ (W.getD k []).length ≤ (strOf (acTrie W).goto c).length := by
    intro d
    induction d using Nat.strong_induction_on with
    | _ d ihd =>
      intro c hcL hdep k hbit
      by_cases hc0 : c = 0
      · subst hc0
        rw [hroot.1, trie_out_bit hinv.root_lt k] at hbit
        refine ⟨hbit.1, ?_⟩
        rw [hbit.2]
      · obtain ⟨pj, pl, hpmem⟩ := hinv.parent_ex c (by omega) hcL
        have hpe := mem_parentEdge hinv hpmem
        have hnv := hvals c hcL hc0
        have hfs := hnv.1
        obtain ⟨hcase0, hcase1⟩ := hnv.2 pj pl hpe
        by_cases hpj0 : pj = 0
        · obtain ⟨ho, _⟩ := hcase0 hpj0
          rw [ho, trie_out_bit hcL k] at hbit
          refine ⟨hbit.1, ?_⟩
          rw [hbit.2]
        · obtain ⟨ho, _⟩ := hcase1 hpj0
          rw [ho, Nat.testBit_or, Bool.or_eq_true] at hbit
          rcases hbit with hbit | hbit
          · rw [trie_out_bit hcL k] at hbit
            refine ⟨hbit.1, ?_⟩
            rw [hbit.2]
          · have hffL : (acBuild W).failure.getD c 0 < (acTrie W).goto.length :=
              hfs.1
            have hfdep :
                (strOf (acTrie W).goto ((acBuild W).failure.getD c 0)).length < d := by
              have := hfs.2.2.1
              omega
            obtain ⟨h1, h2⟩ := ihd _ hfdep _ hffL rfl k hbit
            exact ⟨h1, by omega⟩
  intro c hcL
  exact main _ c hcL rfl

/-- Bit `ℓ` of the settled `out_lens` bitset of node `c`, for positive `ℓ`,
is set exactly when some pattern of length `ℓ` is a suffix of the path of
`c`. -/
theorem acBuild_olens_bit (W : List (List α)) {ℓ : Nat} (hℓ : ℓ ≠ 0) :
    ∀ c, c < (acTrie W).goto.length →
      (((acBuild W).out_lens.getD c 0).testBit ℓ = true ↔
        ∃ k, k < W.length ∧ (W.getD k []).length = ℓ ∧
          W.getD k [] <:+ strOf (acTrie W).goto c) := by
  have hb := acTrie_buildInv W
  have hinv := hb.inv
  obtain ⟨hgoto, hwords, hlf, hlo, hlol, hroot, hvals⟩ := acBuild_vals W
  have main : ∀ d c, c < (acTrie W).goto.length →
      (strOf (acTrie W).goto c).length = d →
      (((acBuild W).out_lens.getD c 0).testBit ℓ = true ↔
        ∃ k, k < W.length ∧ (W.getD k []).length = ℓ ∧
          W.getD k [] <:+ strOf (acTrie W).goto c) := by
    intro d
    induction d using Nat.strong_induction_on with
    | _ d ihd =>
      intro c hcL hdep
      by_cases hc0 : c = 0
      · subst hc0
        rw [hroot.2, trie_olens_bit hinv.root_lt ℓ]
        have h00 : strOf (acTrie W).goto (0 : Nat) = [] := rfl
        rw [h00]
        constructor
        · rintro ⟨k, _, hl, hw⟩
          rw [hw] at hl
          exact absurd hl.symm hℓ
        · rintro ⟨k, _, hl, hw⟩
          rw [List.suffix_nil.mp hw] at hl
          exact absurd hl.symm hℓ
      · obtain ⟨pj, pl, hpmem⟩ := hinv.parent_ex c (by omega) hcL
        have hpe := mem_parentEdge hinv hpmem
        have hstrc := strOf_parent hinv hpmem
        have hnv := hvals c hcL hc0
        have hfs := hnv.1
        obtain ⟨hcase0, hcase1⟩ := hnv.2 pj pl hpe
        by_cases hpj0 : pj = 0
        · obtain ⟨_, ho⟩ := hcase0 hpj0
          rw [ho, trie_olens_bit hcL ℓ]
          have hstr1 : strOf (acTrie W).goto c = [pl] := by
            rw [hstrc, hpj0]
            rfl
          rw [hstr1]
          constructor
          · rintro ⟨k, hkW, hl, he⟩
            exact ⟨k, hkW, hl, by rw [he]⟩
          · rintro ⟨k, hkW, hl, hsuf⟩
            have hkne : W.getD k [] ≠ [] := by
              intro h
              rw [h] at hl
              exact hℓ hl.symm
            exact ⟨k, hkW, hl, suffix_singleton hsuf hkne⟩
        · obtain ⟨_, ho⟩ := hcase1 hpj0
          rw [ho, Nat.testBit_or, Bool.or_eq_true, trie_olens_bit hcL ℓ]
          have hffL : (acBuild W).failure.getD c 0 < (acTrie W).goto.length :=
            hfs.1
          have hfdep :
              (strOf (acTrie W).goto ((acBuild W).failure.getD c 0)).length < d := by
            have := hfs.2.2.1
            omega
          rw [ihd _ hfdep _ hffL rfl]
          constructor
          · rintro (⟨x, hxW, hxl, hxe⟩ | ⟨x, hxW, hxl, hxs⟩)
            · exact ⟨x, hxW, hxl, by rw [hxe]⟩
            · exact ⟨x, hxW, hxl, hxs.trans hfs.2.1⟩
          · rintro ⟨x, hxW, hxl, hsuf⟩
            by_cases heq : W.getD x [] = strOf (acTrie W).goto c
            · exact Or.inl ⟨x, hxW, hxl, heq⟩
            · right
              obtain ⟨t, hwt⟩ := hb.inserted x hxW
              obtain ⟨hwt1, htL⟩ := walk_eq_strOf hinv _ _ hwt
              have hlenlt : (W.getD x []).length <
                  (strOf (acTrie W).goto c).length := by
                have h1 := hsuf.length_le
                rcases Nat.lt_or_ge (W.getD x []).length
                  (strOf (acTrie W).goto c).length with h | h
                · exact h
                · exact absurd (hsuf.eq_of_length (by omega)) heq
              have hmax := hfs.2.2.2 t htL (by rw [← hwt1]; exact hsuf)
                (by rw [← hwt1]; omega)
              have hres := suffix_of_suffix_length_le
                (t := strOf (acTrie W).goto c) (by rw [← hwt1]; exact hsuf)
                hfs.2.1 hmax
              rw [← hwt1] at hres
              exact ⟨x, hxW, hxl, hres⟩
  intro c hcL
  exact main _ c hcL rfl

/-- A set bit of a settled `out_lens` bitset never exceeds the node
depth. -/
theorem acBuild_olens_bound (W : List (List α)) :
    ∀ c, c < (acTrie W).goto.length → ∀ ℓ,
      ((acBuild W).out_lens.getD c 0).testBit ℓ = true →
      ℓ ≤ (strOf (acTrie W).goto c).length := by
  have hb := acTrie_buildInv W
  have hinv := hb.inv
  obtain ⟨hgoto, hwords, hlf, hlo, hlol, hroot, hvals⟩ := acBuild_vals W
  have main : ∀ d c, c < (acTrie W).goto.length →
      (strOf (acTrie W).goto c).length = d → ∀ ℓ,
      ((acBuild W).out_lens.getD c 0).testBit ℓ = true →
      ℓ ≤ (strOf (acTrie W).goto c).length := by
    intro d
    induction d using Nat.strong_induction_on with
    | _ d ihd =>
      intro c hcL hdep ℓ hbit
      by_cases hc0 : c = 0
      · subst hc0
        rw [hroot.2, trie_olens_bit hinv.root_lt ℓ] at hbit
        obtain ⟨x, _, hxl, hxe⟩ := hbit
        rw [hxe] at hxl
        rw [← hxl]
      · obtain ⟨pj, pl, hpmem⟩ := hinv.parent_ex c (by omega) hcL
        have hpe := mem_parentEdge hinv hpmem
        have hnv := hvals c hcL hc0
        have hfs := hnv.1
        obtain ⟨hcase0, hcase1⟩ := hnv.2 pj pl hpe
        by_cases hpj0 : pj = 0
        · obtain ⟨_, ho⟩ := hcase0 hpj0
          rw [ho, trie_olens_bit hcL ℓ] at hbit
          obtain ⟨x, _, hxl, hxe⟩ := hbit
          rw [hxe] at hxl
          omega
        · obtain ⟨_, ho⟩ := hcase1 hpj0
          rw [ho, Nat.testBit_or, Bool.or_eq_true] at hbit
          rcases hbit with hbit | hbit
          · rw [trie_olens_bit hcL ℓ] at hbit
            obtain ⟨x, _, hxl, hxe⟩ := hbit
            rw [hxe] at hxl
            omega
          · have hffL : (acBuild W).failure.getD c 0 < (acTrie W).goto.length :=
              hfs.1
            have hfdep :
                (strOf (acTrie W).goto ((acBuild W).failure.getD c 0)).length < d := by
              have := hfs.2.2.1
              omega
            have := ihd _ hfdep _ hffL rfl ℓ hbit
            omega
  intro c hcL
  exact main _ c hcL rfl

/-! ## Text scan correctness -/

/-- Extending the scanned text by one letter: the longest node-path suffix
after the letter only depends on the previous longest node-path suffix. -/
theorem isDeltaSpec_extend {T : AC α} (hinv : TrieInv T) {u : List α}
    {x y : Nat} {l : α} (hx : isDeltaSpec T.goto u x)
    (hy : isDeltaSpec T.goto (strOf T.goto x ++ [l]) y) :
    isDeltaSpec T.goto (u ++ [l]) y := by
  obtain ⟨hxL, hxsuf, hxmax⟩ := hx
  obtain ⟨hyL, hysuf, hymax⟩ := hy
  refine ⟨hyL, ?_, ?_⟩
  · obtain ⟨w, hw⟩ := hxsuf
    exact hysuf.trans ⟨w, by rw [← List.append_assoc, hw]⟩
  · intro c hc hsufc
    by_cases hc0 : c = 0
    · subst hc0
      have h00 : (strOf T.goto (0 : Nat)).length = 0 := rfl
      omega
    · obtain ⟨pj, pl, hpmem⟩ := hinv.parent_ex c (by omega) hc
      have hstrc := strOf_parent hinv hpmem
      rw [hstrc] at hsufc
      obtain ⟨heq, hvsuf⟩ := suffix_snoc_iff.mp hsufc
      have hpjL : pj < T.goto.length := by
        have := hinv.edges_lt _ _ _ hpmem
        omega
      have hple := hxmax pj hpjL hvsuf
      have hpsub : strOf T.goto pj <:+ strOf T.goto x :=
        suffix_of_suffix_length_le hvsuf hxsuf hple
      apply hymax c hc
      rw [hstrc, heq]
      exact suffix_snoc_iff.mpr ⟨rfl, hpsub⟩

theorem acNext_build (W : List (List α)) {x : Nat}
    (hx : x < (acTrie W).goto.length) (l : α) :
    isDeltaSpec (acTrie W).goto (strOf (acTrie W).goto x ++ [l])
      (acNext (acTrie W).goto (acBuild W).failure x l) := by
  have hinv := (acTrie_buildInv W).inv
  exact acNext_spec hinv (acBuild W).failure (strOf (acTrie W).goto x).length
    (fun y hy0 hyL _ => acBuild_fail_spec W y hyL hy0) x l hx (Nat.le_refl _)

/-- Every state reached by the scan is the node of the longest node-path
suffix of the consumed text. -/
theorem acStatesGo_spec (W : List (List α)) :
    ∀ (rem u : List α) (x : Nat),
      isDeltaSpec (acTrie W).goto u x →
      ∀ i, i < rem.length →
        isDeltaSpec (acTrie W).goto (u ++ rem.take (i+1))
          ((acStatesGo (acBuild W) rem x).getD i 0) := by
  have hinv := (acTrie_buildInv W).inv
  intro rem
  induction rem with
  | nil =>
    intro u x _ i hi
    rw [List.length_nil] at hi
    omega
  | cons l rest ih =>
    intro u x hx i hi
    have hx' : isDeltaSpec (acTrie W).goto (u ++ [l])
        (acNext (acTrie W).goto (acBuild W).failure x l) :=
      isDeltaSpec_extend hinv hx (acNext_build W hx.1 l)
    cases i with
    | zero =>
      have hgd : (acStatesGo (acBuild W) (l :: rest) x).getD 0 0 =
          acNext (acTrie W).goto (acBuild W).failure x l := rfl
      rw [hgd]
      have ht1 : (l :: rest).take 1 = [l] := rfl
      rw [ht1]
      exact hx'
    | succ i' =>
      have hgd : (acStatesGo (acBuild W) (l :: rest) x).getD (i'+1) 0 =
          (acStatesGo (acBuild W) rest
            (acNext (acTrie W).goto (acBuild W).failure x l)).getD i' 0 := rfl
      rw [hgd]
      have htk : (l :: rest).take (i'+2) = l :: rest.take (i'+1) := rfl
      rw [htk]
      have hassoc : u ++ l :: rest.take (i'+1) =
          (u ++ [l]) ++ rest.take (i'+1) := by
        rw [List.append_assoc]
        rfl
      rw [hassoc]
      exact ih (u ++ [l]) _ hx' i' (by rw [List.length_cons] at hi; omega)

/-- An inserted word is a suffix of the state's path exactly when it is a
suffix of the text the state summarises. -/
theorem delta_word_suffix (W : List (List α)) {u : List α} {x : Nat}
    (hd : isDeltaSpec (acTrie W).goto u x) {k : Nat} (hk : k < W.length) :
    W.getD k [] <:+ strOf (acTrie W).goto x ↔ W.getD k [] <:+ u := by
  have hb := acTrie_buildInv W
  constructor
  · intro h
    exact h.trans hd.2.1
  · intro h
    obtain ⟨t, hwt⟩ := hb.inserted k hk
    obtain ⟨hwt1, htL⟩ := walk_eq_strOf hb.inv _ _ hwt
    have hle := hd.2.2 t htL (by rw [← hwt1]; exact h)
    have hres := suffix_of_suffix_length_le (t := u)
      (by rw [← hwt1]; exact h) hd.2.1 hle
    rw [← hwt1] at hres
    exact hres

/-! ## The result dictionary of `search` -/

theorem lookupList_nil (w : List α) : lookupList [] w = [] := rfl

theorem lookupList_cons (a : List α) (ts : List Nat)
    (rest : List (List α × List Nat)) (w : List α) :
    lookupList ((a, ts) :: rest) w = if a = w then ts else lookupList rest w :=
  rfl

theorem lookupList_addHit_self (res : List (List α × List Nat)) (w : List α)
    (v : Nat) : lookupList (addHit res w v) w = lookupList res w ++ [v] := by
  induction res with
  | nil =>
    rw [addHit, lookupList_cons, if_pos rfl, lookupList_nil]
    rfl
  | cons e rest ih =>
    obtain ⟨a, ts⟩ := e
    by_cases hw : a = w
    · rw [addHit, if_pos hw, lookupList_cons, if_pos hw, lookupList_cons,
        if_pos hw]
    · rw [addHit, if_neg hw, lookupList_cons, if_neg hw, lookupList_cons,
        if_neg hw]
      exact ih

theorem lookupList_addHit_ne (res : List (List α × List Nat)) {w w' : List α}
    (hne : w' ≠ w) (v : Nat) :
    lookupList (addHit res w v) w' = lookupList res w' := by
  induction res with
  | nil =>
    rw [addHit, lookupList_cons, if_neg (fun h => hne h.symm), lookupList_nil]
  | cons e rest ih =>
    obtain ⟨a, ts⟩ := e
    by_cases ha : a = w
    · rw [addHit, if_pos ha, lookupList_cons, lookupList_cons]
      have hne2 : a ≠ w' := by rw [ha]; exact fun h => hne h.symm
      rw [if_neg hne2, if_neg hne2]
    · rw [addHit, if_neg ha, lookupList_cons, lookupList_cons]
      by_cases ha' : a = w'
      · rw [if_pos ha', if_pos ha']
      · rw [if_neg ha', if_neg ha']
        exact ih

theorem hitCount_zero (ws : List (List α)) (w : List α) :
    hitCount 0 ws w = 0 := by
  induction ws with
  | nil => rfl
  | cons x rest ih =>
    rw [hitCount, if_neg (fun h => by omega), ih]

/-- One bitset scan of the word list appends exactly the recorded hits. -/
theorem searchWordLoop_lookup :
    ∀ (ws : List (List α)) (bm i : Nat) (res : List (List α × List Nat))
      (w : List α),
      lookupList (searchWordLoop ws bm i res) w =
        lookupList res w ++
          List.replicate (hitCount bm ws w) (i + 1 - w.length) := by
  intro ws
  induction ws with
  | nil =>
    intro bm i res w
    rw [searchWordLoop, hitCount, List.replicate_zero, List.append_nil]
  | cons x rest ih =>
    intro bm i res w
    by_cases hbm : bm = 0
    · rw [searchWordLoop, if_pos hbm, hbm, hitCount_zero, List.replicate_zero,
        List.append_nil]
    · rw [searchWordLoop, if_neg hbm, ih, hitCount]
      by_cases hx : x = w ∧ bm % 2 = 1
      · rw [if_pos hx, if_pos hx.2, hx.1, lookupList_addHit_self,
          List.replicate_add, List.replicate_one, List.append_assoc]
      · rw [if_neg hx, Nat.zero_add]
        by_cases hb2 : bm % 2 = 1
        · rw [if_pos hb2]
          have hxw : x ≠ w := fun h => hx ⟨h, hb2⟩
          rw [lookupList_addHit_ne res (fun h => hxw h.symm)]
        · rw [if_neg hb2]

/-- The scan loop of `search` appends exactly the per-step hit lists. -/
theorem acSearchGo_lookup (ac : AC α) :
    ∀ (rem : List α) (i x : Nat) (res : List (List α × List Nat))
      (w : List α),
      lookupList (acSearchGo ac rem i x res) w =
        lookupList res w ++ acHitsGo ac w rem i x := by
  intro rem
  induction rem with
  | nil =>
    intro i x res w
    rw [acSearchGo, acHitsGo, List.append_nil]
  | cons l rest ih =>
    intro i x res w
    show lookupList (acSearchGo ac rest (i+1) (acNext ac.goto ac.failure x l)
        (searchWordLoop ac.words
          (ac.out.getD (acNext ac.goto ac.failure x l) 0) i res)) w = _
    rw [ih, searchWordLoop_lookup]
    show _ = lookupList res w ++
      (List.replicate (hitCount
          (ac.out.getD (acNext ac.goto ac.failure x l) 0) ac.words w)
        (i + 1 - w.length) ++
        acHitsGo ac w rest (i+1) (acNext ac.goto ac.failure x l))
    rw [List.append_assoc]

theorem acSearch_lookup (W : List (List α)) (s : List α) (w : List α) :
    lookupList (acSearch W s) w = acHitsGo (acBuild W) w s 0 0 := by
  rw [acSearch, acSearchGo_lookup, lookupList]
  rfl

theorem acBuild_words (W : List (List α)) : (acBuild W).words = W := by
  have h1 : (acBuild W).words = (acTrie W).words := rfl
  rw [h1, (acTrie_buildInv W).words_eq]

theorem hitCount_pos {ws : List (List α)} {bm : Nat} {w : List α} :
    0 < hitCount bm ws w ↔
      ∃ k, k < ws.length ∧ ws.getD k [] = w ∧ bm.testBit k = true := by
  induction ws generalizing bm with
  | nil =>
    rw [hitCount]
    constructor
    · omega
    · rintro ⟨k, hk, _⟩
      rw [List.length_nil] at hk
      omega
  | cons x rest ih =>
    rw [hitCount]
    constructor
    · intro h
      by_cases hx : x = w ∧ bm % 2 = 1
      · refine ⟨0, by rw [List.length_cons]; omega, hx.1, ?_⟩
        rw [Nat.testBit_zero]
        simpa using hx.2
      · rw [if_neg hx, Nat.zero_add] at h
        obtain ⟨k, hk, he, hb⟩ := ih.mp h
        refine ⟨k+1, by rw [List.length_cons]; omega, he, ?_⟩
        rw [Nat.testBit_succ]
        exact hb
    · rintro ⟨k, hk, he, hb⟩
      cases k with
      | zero =>
        have h2 : bm % 2 = 1 := by
          rw [Nat.testBit_zero] at hb
          simpa using hb
        rw [if_pos ⟨he, h2⟩]
        omega
      | succ k' =>
        rw [Nat.testBit_succ] at hb
        have := ih.mpr ⟨k', by rw [List.length_cons] at hk; omega, he, hb⟩
        omega

theorem hitCount_full {ws : List (List α)} {bm : Nat} {w : List α}
    (h : ∀ k, k < ws.length → ws.getD k [] = w → bm.testBit k = true) :
    hitCount bm ws w = ws.count w := by
  induction ws generalizing bm with
  | nil => rfl
  | cons x rest ih =>
    have hcc : (x :: rest).count w = rest.count w + if x = w then 1 else 0 := by
      simp [List.count_cons]
    have hx0 : ∀ k, k < rest.length → rest.getD k [] = w →
        (bm / 2).testBit k = true := by
      intro k hk he
      have hb := h (k+1) (by rw [List.length_cons]; omega) he
      rw [Nat.testBit_succ] at hb
      exact hb
    rw [hitCount, hcc, ih hx0]
    by_cases hxw : x = w
    · have hb := h 0 (by rw [List.length_cons]; omega) hxw
      have h2 : bm % 2 = 1 := by
        rw [Nat.testBit_zero] at hb
        simpa using hb
      rw [if_pos ⟨hxw, h2⟩, if_pos hxw]
      omega
    · rw [if_neg (fun hc => hxw hc.1), if_neg hxw]
      omega

/-- When the scan state summarises the text `u`, the hit count of a
nonempty word is positive exactly when the word ends the text. -/
theorem hitCount_pos_iff_suffix (W : List (List α)) {w : List α} (hw : w ≠ [])
    {u : List α} {y : Nat} (hy : isDeltaSpec (acTrie W).goto u y) :
    0 < hitCount ((acBuild W).out.getD y 0) (acBuild W).words w ↔
      (w ∈ W ∧ w <:+ u) := by
  rw [acBuild_words, hitCount_pos]
  constructor
  · rintro ⟨k, hk, he, hb⟩
    have hne : W.getD k [] ≠ [] := by rw [he]; exact hw
    have hsuf := (acBuild_out_bit W hk hne y hy.1).mp hb
    rw [delta_word_suffix W hy hk, he] at hsuf
    exact ⟨mem_iff_getD.mpr ⟨k, hk, he⟩, hsuf⟩
  · rintro ⟨hmem, hsuf⟩
    obtain ⟨k, hk, he⟩ := mem_iff_getD.mp hmem
    have hne : W.getD k [] ≠ [] := by rw [he]; exact hw
    refine ⟨k, hk, he, ?_⟩
    rw [acBuild_out_bit W hk hne y hy.1, delta_word_suffix W hy hk, he]
    exact hsuf

/-- When the nonempty word `w` ends the summarised text, every duplicate of
`w` contributes one hit. -/
theorem hitCount_full_suffix (W : List (List α)) {w : List α} (hw : w ≠ [])
    {u : List α} {y : Nat} (hy : isDeltaSpec (acTrie W).goto u y)
    (hsuf : w <:+ u) :
    hitCount ((acBuild W).out.getD y 0) (acBuild W).words w = W.count w := by
  rw [acBuild_words]
  apply hitCount_full
  intro k hk he
  have hne : W.getD k [] ≠ [] := by rw [he]; exact hw
  rw [acBuild_out_bit W hk hne y hy.1, delta_word_suffix W hy hk, he]
  exact hsuf

/-- Every value recorded by the scan has the shape `end + 1 - length`. -/
theorem acHitsGo_val (ac : AC α) (w : List α) :
    ∀ (rem : List α) (i x t : Nat), t ∈ acHitsGo ac w rem i x →
      ∃ d, d < rem.length ∧ t = i + d + 1 - w.length := by
  intro rem
  induction rem with
  | nil =>
    intro i x t h
    rw [acHitsGo] at h
    cases h
  | cons l rest ih =>
    intro i x t h
    simp only [acHitsGo] at h
    rcases List.mem_append.mp h with h | h
    · have := List.eq_of_mem_replicate h
      exact ⟨0, by rw [List.length_cons]; omega, by omega⟩
    · obtain ⟨d, hd, he⟩ := ih (i+1) _ t h
      refine ⟨d+1, by rw [List.length_cons]; omega, by omega⟩

/-- The hit list of a nonempty word records exactly its occurrence ends. -/
theorem acHits_mem (W : List (List α)) {w : List α} (hw : w ≠ []) :
    ∀ (rem u : List α) (x : Nat), isDeltaSpec (acTrie W).goto u x →
      ∀ t, (t ∈ acHitsGo (acBuild W) w rem u.length x ↔
        (w ∈ W ∧ ∃ e, u.length ≤ e ∧ e < u.length + rem.length ∧
          w <:+ (u ++ rem).take (e+1) ∧ t = e + 1 - w.length)) := by
  have hinv := (acTrie_buildInv W).inv
  intro rem
  induction rem with
  | nil =>
    intro u x hx t
    rw [acHitsGo]
    constructor
    · intro h
      cases h
    · rintro ⟨_, e, h1, h2, _, _⟩
      rw [List.length_nil] at h2
      omega
  | cons l rest ih =>
    intro u x hx t
    have hx' : isDeltaSpec (acTrie W).goto (u ++ [l])
        (acNext (acBuild W).goto (acBuild W).failure x l) :=
      isDeltaSpec_extend hinv hx (acNext_build W hx.1 l)
    have hlen1 : (u ++ [l]).length = u.length + 1 := by
      rw [List.length_append, List.length_singleton]
    have htake : (u ++ l :: rest).take (u.length + 1) = u ++ [l] := by
      rw [List.take_append_eq_append_take,
        List.take_of_length_le (by omega), Nat.add_sub_cancel_left]
      rfl
    have hstep := hitCount_pos_iff_suffix W hw hx'
    have hrec := ih (u ++ [l]) (acNext (acBuild W).goto (acBuild W).failure x l)
      hx' t
    rw [hlen1] at hrec
    have hux : (u ++ [l]) ++ rest = u ++ l :: rest := by
      rw [List.append_assoc]
      rfl
    rw [hux] at hrec
    simp only [acHitsGo]
    constructor
    · intro h
      rcases List.mem_append.mp h with h | h
      · obtain ⟨hne0, ht⟩ := List.mem_replicate.mp h
        have hpos : 0 < hitCount ((acBuild W).out.getD
            (acNext (acBuild W).goto (acBuild W).failure x l) 0)
            (acBuild W).words w := by omega
        obtain ⟨hmem, hsuf⟩ := hstep.mp hpos
        refine ⟨hmem, u.length, Nat.le_refl _, ?_, ?_, ht⟩
        · rw [List.length_cons]
          omega
        · rw [htake]
          exact hsuf
      · obtain ⟨hmem, e, h1, h2, hsuf, ht⟩ := hrec.mp h
        refine ⟨hmem, e, by omega, ?_, hsuf, ht⟩
        rw [List.length_cons]
        omega
    · rintro ⟨hmem, e, h1, h2, hsuf, ht⟩
      by_cases he : e = u.length
      · rw [he] at hsuf ht
        rw [htake] at hsuf
        have hpos := hstep.mpr ⟨hmem, hsuf⟩
        refine List.mem_append.mpr (Or.inl (List.mem_replicate.mpr
          ⟨by omega, ht⟩))
      · refine List.mem_append.mpr (Or.inr (hrec.mpr
          ⟨hmem, e, by omega, ?_, hsuf, ht⟩))
        rw [List.length_cons] at h2
        omega

/-- At an occurrence end of a nonempty word, the hit list records the start
index once per duplicate of the word. -/
theorem acHits_count (W : List (List α)) {w : List α} (hw : w ≠ []) :
    ∀ (rem u : List α) (x : Nat), isDeltaSpec (acTrie W).goto u x →
      ∀ e, u.length ≤ e → e < u.length + rem.length →
        w <:+ (u ++ rem).take (e+1) →
        (acHitsGo (acBuild W) w rem u.length x).count (e + 1 - w.length) =
          W.count w := by
  have hinv := (acTrie_buildInv W).inv
  intro rem
  induction rem with
  | nil =>
    intro u x hx e h1 h2 hsuf
    rw [List.length_nil] at h2
    omega
  | cons l rest ih =>
    intro u x hx e h1 h2 hsuf
    have hx' : isDeltaSpec (acTrie W).goto (u ++ [l])
        (acNext (acBuild W).goto (acBuild W).failure x l) :=
      isDeltaSpec_extend hinv hx (acNext_build W hx.1 l)
    have hlen1 : (u ++ [l]).length = u.length + 1 := by
      rw [List.length_append, List.length_singleton]
    have htake : (u ++ l :: rest).take (u.length + 1) = u ++ [l] := by
      rw [List.take_append_eq_append_take,
        List.take_of_length_le (by omega), Nat.add_sub_cancel_left]
      rfl
    have hux : (u ++ [l]) ++ rest = u ++ l :: rest := by
      rw [List.append_assoc]
      rfl
    simp only [acHitsGo]
    rw [List.count_append]
    by_cases he : e = u.length
    · rw [he] at hsuf ⊢
      rw [htake] at hsuf
      have hfull := hitCount_full_suffix W hw hx' hsuf
      have hwle : w.length ≤ u.length + 1 := by
        have := hsuf.length_le
        rw [hlen1] at this
        exact this
      have hnotmem : (u.length + 1 - w.length) ∉
          acHitsGo (acBuild W) w rest (u.length + 1)
            (acNext (acBuild W).goto (acBuild W).failure x l) := by
        intro hmem2
        obtain ⟨d, hd, hv⟩ := acHitsGo_val (acBuild W) w rest (u.length + 1)
          _ _ hmem2
        omega
      rw [List.count_eq_zero.mpr hnotmem, Nat.add_zero,
        List.count_replicate_self, hfull]
    · have he1 : u.length + 1 ≤ e := by omega
      rw [List.length_cons] at h2
      have hrec := ih (u ++ [l])
        (acNext (acBuild W).goto (acBuild W).failure x l) hx' e
        (by rw [hlen1]; omega) (by rw [hlen1]; omega)
        (by rw [hux]; exact hsuf)
      rw [hlen1] at hrec
      have hz : (List.replicate (hitCount ((acBuild W).out.getD
          (acNext (acBuild W).goto (acBuild W).failure x l) 0)
            (acBuild W).words w) (u.length + 1 - w.length)).count
          (e + 1 - w.length) = 0 := by
        rcases Nat.eq_zero_or_pos (hitCount ((acBuild W).out.getD
            (acNext (acBuild W).goto (acBuild W).failure x l) 0)
              (acBuild W).words w) with h0 | hpos
        · rw [h0, List.replicate_zero]
          rfl
        · obtain ⟨_, hsuf'⟩ := (hitCount_pos_iff_suffix W hw hx').mp hpos
          have hwle : w.length ≤ u.length + 1 := by
            have := hsuf'.length_le
            rw [hlen1] at this
            exact this
          apply List.count_eq_zero.mpr
          intro hmem2
          have := List.eq_of_mem_replicate hmem2
          omega
      rw [hz, Nat.zero_add]
      exact hrec

/-- Per-word hit lists are sorted in nondecreasing order. -/
theorem acHits_sorted (ac : AC α) (w : List α) :
    ∀ (rem : List α) (i x : Nat),
      (acHitsGo ac w rem i x).Pairwise (· ≤ ·) := by
  intro rem
  induction rem with
  | nil =>
    intro i x
    exact List.Pairwise.nil
  | cons l rest ih =>
    intro i x
    simp only [acHitsGo]
    refine List.pairwise_append.mpr ⟨?_, ih (i+1) _, ?_⟩
    · apply List.pairwise_of_forall_mem_list
      intro a ha b hb
      rw [List.eq_of_mem_replicate ha, List.eq_of_mem_replicate hb]
    · intro a ha b hb
      rw [List.eq_of_mem_replicate ha]
      obtain ⟨d, _, hv⟩ := acHitsGo_val ac w rest (i+1) _ b hb
      omega

theorem addHit_keys_subset (res : List (List α × List Nat)) (w : List α)
    (v : Nat) :
    ∀ a, a ∈ (addHit res w v).map Prod.fst → a ∈ res.map Prod.fst ∨ a = w := by
  induction res with
  | nil =>
    intro a ha
    rw [addHit] at ha
    right
    rcases List.mem_map.mp ha with ⟨p, hp, he⟩
    rw [List.mem_singleton] at hp
    rw [hp] at he
    exact he.symm
  | cons e rest ih =>
    obtain ⟨b, ts⟩ := e
    intro a ha
    by_cases hb : b = w
    · rw [addHit, if_pos hb] at ha
      rw [List.map_cons] at ha ⊢
      rcases List.mem_cons.mp ha with h | h
      · exact Or.inl (List.mem_cons.mpr (Or.inl h))
      · exact Or.inl (List.mem_cons.mpr (Or.inr h))
    · rw [addHit, if_neg hb] at ha
      rw [List.map_cons] at ha ⊢
      rcases List.mem_cons.mp ha with h | h
      · exact Or.inl (List.mem_cons.mpr (Or.inl h))
      · rcases ih a h with h2 | h2
        · exact Or.inl (List.mem_cons.mpr (Or.inr h2))
        · exact Or.inr h2

theorem addHit_nodup {res : List (List α × List Nat)}
    (h : (res.map Prod.fst).Nodup) (w : List α) (v : Nat) :
    ((addHit res w v).map Prod.fst).Nodup := by
  induction res with
  | nil =>
    rw [addHit]
    simp
  | cons e rest ih =>
    obtain ⟨b, ts⟩ := e
    rw [List.map_cons, List.nodup_cons] at h
    by_cases hb : b = w
    · rw [addHit, if_pos hb, List.map_cons]
      exact List.nodup_cons.mpr h
    · rw [addHit, if_neg hb, List.map_cons]
      refine List.nodup_cons.mpr ⟨?_, ih h.2⟩
      intro hmem
      rcases addHit_keys_subset rest w v b hmem with h2 | h2
      · exact h.1 h2
      · exact hb h2

theorem searchWordLoop_nodup :
    ∀ (ws : List (List α)) (bm i : Nat) (res : List (List α × List Nat)),
      (res.map Prod.fst).Nodup →
      ((searchWordLoop ws bm i res).map Prod.fst).Nodup := by
  intro ws
  induction ws with
  | nil =>
    intro bm i res h
    rw [searchWordLoop]
    exact h
  | cons x rest ih =>
    intro bm i res h
    by_cases hbm : bm = 0
    · rw [searchWordLoop, if_pos hbm]
      exact h
    · rw [searchWordLoop, if_neg hbm]
      apply ih
      by_cases hb2 : bm % 2 = 1
      · rw [if_pos hb2]
        exact addHit_nodup h x (i + 1 - x.length)
      · rw [if_neg hb2]
        exact h

theorem acSearchGo_nodup (ac : AC α) :
    ∀ (rem : List α) (i x : Nat) (res : List (List α × List Nat)),
      (res.map Prod.fst).Nodup →
      ((acSearchGo ac rem i x res).map Prod.fst).Nodup := by
  intro rem
  induction rem with
  | nil =>
    intro i x res h
    rw [acSearchGo]
    exact h
  | cons l rest ih =>
    intro i x res h
    exact ih (i+1) _ _ (searchWordLoop_nodup ac.words _ i res h)

theorem acSearch_nodup (W : List (List α)) (s : List α) :
    ((acSearch W s).map Prod.fst).Nodup :=
  acSearchGo_nodup (acBuild W) s 0 0 [] List.nodup_nil

theorem entry_eq_lookupList {res : List (List α × List Nat)}
    (h : (res.map Prod.fst).Nodup) {w : List α} {ts : List Nat}
    (hm : (w, ts) ∈ res) : lookupList res w = ts := by
  induction res with
  | nil => cases hm
  | cons e rest ih =>
    obtain ⟨b, ts'⟩ := e
    rw [List.map_cons, List.nodup_cons] at h
    rcases List.mem_cons.mp hm with he | hm'
    · have hb : w = b := congrArg Prod.fst he
      have hts : ts = ts' := congrArg Prod.snd he
      rw [lookupList_cons, if_pos hb.symm, hts]
    · rw [lookupList_cons]
      by_cases hb : b = w
      · exfalso
        apply h.1
        rw [hb]
        exact List.mem_map.mpr ⟨(w, ts), hm', rfl⟩
      · rw [if_neg hb]
        exact ih h.2 hm'

theorem lookup_mem_pairs {res : List (List α × List Nat)} {w : List α}
    {t : Nat} (ht : t ∈ lookupList res w) :
    (w, t) ∈ res.flatMap (fun wt => wt.2.map (fun v => (wt.1, v))) := by
  induction res with
  | nil =>
    rw [lookupList_nil] at ht
    cases ht
  | cons e rest ih =>
    obtain ⟨b, ts⟩ := e
    rw [lookupList_cons] at ht
    rw [List.flatMap_cons]
    by_cases hb : b = w
    · rw [if_pos hb] at ht
      refine List.mem_append.mpr (Or.inl (List.mem_map.mpr ⟨t, ht, ?_⟩))
      rw [hb]
    · rw [if_neg hb] at ht
      exact List.mem_append.mpr (Or.inr (ih ht))

theorem mem_pairs_iff {res : List (List α × List Nat)}
    (h : (res.map Prod.fst).Nodup) (w : List α) (t : Nat) :
    (w, t) ∈ res.flatMap (fun wt => wt.2.map (fun v => (wt.1, v))) ↔
      t ∈ lookupList res w := by
  constructor
  · intro hm
    rw [List.mem_flatMap] at hm
    obtain ⟨⟨w', ts⟩, hmem, hin⟩ := hm
    rw [List.mem_map] at hin
    obtain ⟨v, hv, he⟩ := hin
    have hw : w' = w := congrArg Prod.fst he
    have ht : v = t := congrArg Prod.snd he
    rw [← hw, entry_eq_lookupList h hmem, ← ht]
    exact hv
  · exact lookup_mem_pairs

/-! ## Search output versus occurrences -/

theorem isDeltaSpec_nil (W : List (List α)) :
    isDeltaSpec (acTrie W).goto [] 0 := by
  have hinv := (acTrie_buildInv W).inv
  refine ⟨hinv.root_lt, List.nil_suffix, ?_⟩
  intro c hc hsuf
  have h0 : strOf (acTrie W).goto c = [] := List.suffix_nil.mp hsuf
  rw [h0]
  exact Nat.zero_le _

theorem hitCount_not_mem {ws : List (List α)} {bm : Nat} {w : List α}
    (h : w ∉ ws) : hitCount bm ws w = 0 := by
  induction ws generalizing bm with
  | nil => rfl
  | cons x rest ih =>
    rw [hitCount]
    have hx : x ≠ w := fun he => h (he ▸ List.mem_cons_self _ _)
    rw [if_neg (fun hc => hx hc.1), ih (fun hm => h (List.mem_cons_of_mem _ hm))]

theorem acHitsGo_not_mem (ac : AC α) {w : List α} (h : w ∉ ac.words) :
    ∀ (rem : List α) (i x : Nat), acHitsGo ac w rem i x = [] := by
  intro rem
  induction rem with
  | nil =>
    intro i x
    rfl
  | cons l rest ih =>
    intro i x
    simp only [acHitsGo]
    rw [hitCount_not_mem h, List.replicate_zero, List.nil_append, ih]

/-- `search` records a nonempty pattern at exactly its occurrence starts. -/
theorem acSearch_mem (W : List (List α)) (s : List α) {w : List α}
    (hw : w ≠ []) (t : Nat) :
    t ∈ lookupList (acSearch W s) w ↔ (w ∈ W ∧ occursAt s w t) := by
  rw [acSearch_lookup]
  have h := acHits_mem W hw s [] 0 (isDeltaSpec_nil W) t
  rw [List.length_nil, List.nil_append] at h
  rw [h]
  constructor
  · rintro ⟨hmem, e, _, h2, hsuf, ht⟩
    refine ⟨hmem, ?_⟩
    rw [occursAt_iff_suffix]
    have hwlen : w.length ≤ e + 1 := by
      have := hsuf.length_le
      rw [List.length_take] at this
      omega
    constructor
    · omega
    · rw [ht, show e + 1 - w.length + w.length = e + 1 by omega]
      exact hsuf
  · rintro ⟨hmem, hocc⟩
    rw [occursAt_iff_suffix] at hocc
    obtain ⟨hle, hsuf⟩ := hocc
    have hw1 : 1 ≤ w.length := List.length_pos.mpr hw
    refine ⟨hmem, t + w.length - 1, by omega, by omega, ?_, by omega⟩
    rw [show t + w.length - 1 + 1 = t + w.length by omega]
    exact hsuf

/-- At an occurrence end, the recorded start appears once per duplicate of
the pattern. -/
theorem acSearch_count (W : List (List α)) (s : List α) {w : List α}
    (hw : w ≠ []) {e : Nat} (he : e < s.length)
    (hsuf : w <:+ s.take (e+1)) :
    (lookupList (acSearch W s) w).count (e + 1 - w.length) = W.count w := by
  rw [acSearch_lookup]
  exact acHits_count W hw s [] 0 (isDeltaSpec_nil W) e (Nat.zero_le _)
    (by rw [List.length_nil]; omega) (by rw [List.nil_append]; exact hsuf)

theorem acSearch_sorted (W : List (List α)) (s : List α) (w : List α) :
    (lookupList (acSearch W s) w).Pairwise (· ≤ ·) := by
  rw [acSearch_lookup]
  exact acHits_sorted (acBuild W) w s 0 0

theorem kmpPairs_mem (W : List (List α)) (s : List α)
    (hW : ∀ w ∈ W, w ≠ []) (w : List α) (t : Nat) :
    (w, t) ∈ kmpPairs W s ↔ (w ∈ W ∧ occursAt s w t) := by
  rw [kmpPairs, List.mem_flatMap]
  constructor
  · rintro ⟨w', hw', hin⟩
    rw [List.mem_map] at hin
    obtain ⟨t', ht', he⟩ := hin
    have h1 : w' = w := congrArg Prod.fst he
    have h2 : t' = t := congrArg Prod.snd he
    subst h1
    subst h2
    exact ⟨hw', (kmpMatches_mem (hW w' hw') t').mp ht'⟩
  · rintro ⟨hmem, hocc⟩
    exact ⟨w, hmem,
      List.mem_map.mpr ⟨t, (kmpMatches_mem (hW w hmem) t).mpr hocc, rfl⟩⟩

/-- With nonempty patterns, `search` reports exactly the (pattern, start)
pairs that KMP finds. -/
theorem acSearchPairs_iff (W : List (List α)) (s : List α)
    (hW : ∀ w ∈ W, w ≠ []) (w : List α) (t : Nat) :
    ((w, t) ∈ acSearchPairs W s ↔ (w, t) ∈ kmpPairs W s) := by
  by_cases hmem : w ∈ W
  · have hw := hW w hmem
    rw [acSearchPairs, mem_pairs_iff (acSearch_nodup W s),
      acSearch_mem W s hw t, kmpPairs_mem W s hW w t]
  · constructor
    · intro h
      exfalso
      rw [acSearchPairs, mem_pairs_iff (acSearch_nodup W s),
        acSearch_lookup,
        acHitsGo_not_mem (acBuild W) (by rw [acBuild_words]; exact hmem)] at h
      cases h
    · intro h
      exact absurd ((kmpPairs_mem W s hW w t).mp h).1 hmem

/-! ## End-index and length reporting -/

theorem acStatesGo_length (ac : AC α) :
    ∀ (rem : List α) (x : Nat), (acStatesGo ac rem x).length = rem.length := by
  intro rem
  induction rem with
  | nil =>
    intro x
    rfl
  | cons l rest ih =>
    intro x
    simp only [acStatesGo]
    rw [List.length_cons, List.length_cons, ih]

theorem bitIndices_ge :
    ∀ (fuel bm idx t : Nat), t ∈ bitIndices fuel bm idx → idx ≤ t := by
  intro fuel
  induction fuel with
  | zero =>
    intro bm idx t h
    cases h
  | succ fuel ih =>
    intro bm idx t h
    rw [bitIndices] at h
    by_cases h0 : bm = 0
    · rw [if_pos h0] at h
      cases h
    · rw [if_neg h0] at h
      rcases List.mem_append.mp h with h | h
      · by_cases hb : bm % 2 = 1
        · rw [if_pos hb, List.mem_singleton] at h
          omega
        · rw [if_neg hb] at h
          cases h
      · have := ih _ _ _ h
        omega

/-- With enough fuel, `bitIndices` enumerates exactly the set bits. -/
theorem bitIndices_mem :
    ∀ (fuel bm idx t : Nat), bm ≤ fuel →
      (t ∈ bitIndices fuel bm idx ↔
        ∃ d, bm.testBit d = true ∧ t = idx + d) := by
  intro fuel
  induction fuel with
  | zero =>
    intro bm idx t hbm
    have h0 : bm = 0 := by omega
    subst h0
    rw [bitIndices]
    constructor
    · intro h
      cases h
    · rintro ⟨d, hd, _⟩
      rw [Nat.zero_testBit] at hd
      cases hd
  | succ fuel ih =>
    intro bm idx t hbm
    rw [bitIndices]
    by_cases h0 : bm = 0
    · rw [if_pos h0]
      constructor
      · intro h
        cases h
      · rintro ⟨d, hd, _⟩
        rw [h0, Nat.zero_testBit] at hd
        cases hd
    · rw [if_neg h0]
      have hrec := ih (bm / 2) (idx + 1) t (by omega)
      constructor
      · intro h
        rcases List.mem_append.mp h with h | h
        · by_cases hb : bm % 2 = 1
          · rw [if_pos hb, List.mem_singleton] at h
            refine ⟨0, ?_, by omega⟩
            rw [Nat.testBit_zero]
            simpa using hb
          · rw [if_neg hb] at h
            cases h
        · obtain ⟨d, hd, ht⟩ := hrec.mp h
          refine ⟨d + 1, ?_, by omega⟩
          rw [Nat.testBit_succ]
          exact hd
      · rintro ⟨d, hd, ht⟩
        cases d with
        | zero =>
          have hb : bm % 2 = 1 := by
            rw [Nat.testBit_zero] at hd
            simpa using hd
          refine List.mem_append.mpr (Or.inl ?_)
          rw [if_pos hb, List.mem_singleton]
          omega
        | succ d' =>
          rw [Nat.testBit_succ] at hd
          exact List.mem_append.mpr (Or.inr (hrec.mpr ⟨d', hd, by omega⟩))

theorem bitIndices_sorted :
    ∀ (fuel bm idx : Nat), (bitIndices fuel bm idx).Pairwise (· < ·) := by
  intro fuel
  induction fuel with
  | zero =>
    intro bm idx
    exact List.Pairwise.nil
  | succ fuel ih =>
    intro bm idx
    rw [bitIndices]
    by_cases h0 : bm = 0
    · rw [if_pos h0]
      exact List.Pairwise.nil
    · rw [if_neg h0]
      refine List.pairwise_append.mpr ⟨?_, ih _ _, ?_⟩
      · by_cases hb : bm % 2 = 1
        · rw [if_pos hb]
          exact List.pairwise_singleton _ _
        · rw [if_neg hb]
          exact List.Pairwise.nil
      · intro a ha b hb
        by_cases h2 : bm % 2 = 1
        · rw [if_pos h2, List.mem_singleton] at ha
          have := bitIndices_ge _ _ _ _ hb
          omega
        · rw [if_neg h2] at ha
          cases ha

/-- The scan states all lie inside the automaton, and summarise each text
prefix. -/
theorem acStates_spec (W : List (List α)) (s : List α) {e : Nat}
    (he : e < s.length) :
    isDeltaSpec (acTrie W).goto (s.take (e+1))
      ((acStatesGo (acBuild W) s 0).getD e 0) := by
  have h := acStatesGo_spec W s [] 0 (isDeltaSpec_nil W) e he
  rw [List.nil_append] at h
  exact h

/-- The entry of `searchEndIndices` at text index `e`. -/
theorem acSearchEndIndices_entry (W : List (List α)) (s : List α) {e : Nat}
    (he : e < s.length) :
    (e, bitIndices
        ((acBuild W).out.getD ((acStatesGo (acBuild W) s 0).getD e 0) 0)
        ((acBuild W).out.getD ((acStatesGo (acBuild W) s 0).getD e 0) 0) 0)
      ∈ acSearchEndIndices W s := by
  rw [acSearchEndIndices]
  have hlen : e < (acStatesGo (acBuild W) s 0).length := by
    rw [acStatesGo_length]
    exact he
  have hlen2 : e < (acStatesGo (acBuild W) s 0).enum.length := by
    rw [List.enum_length]
    exact hlen
  apply List.mem_map.mpr
  refine ⟨(acStatesGo (acBuild W) s 0).enum[e], List.getElem_mem hlen2, ?_⟩
  rw [List.getElem_enum, List.getD_eq_getElem _ 0 hlen]

/-- The entry of `searchLengths` at text index `e`. -/
theorem acSearchLengths_entry (W : List (List α)) (s : List α) {e : Nat}
    (he : e < s.length) :
    (acSearchLengths W s).getD e [] =
      bitIndices
        ((acBuild W).out_lens.getD ((acStatesGo (acBuild W) s 0).getD e 0) 0)
        ((acBuild W).out_lens.getD ((acStatesGo (acBuild W) s 0).getD e 0) 0)
        0 := by
  rw [acSearchLengths]
  have hlen : e < (acStatesGo (acBuild W) s 0).length := by
    rw [acStatesGo_length]
    exact he
  rw [List.getD_eq_getElem _ [] (by rw [List.length_map]; exact hlen),
    List.getElem_map, List.getD_eq_getElem _ 0 hlen]

/-! ## Segment and slice algebra for `addBoldTag` -/

theorem stripTags_append (xs ys : List (Seg α)) :
    stripTags (xs ++ ys) = stripTags xs ++ stripTags ys := by
  induction xs with
  | nil => rfl
  | cons e rest ih =>
    cases e with
    | str zs =>
      rw [List.cons_append, stripTags, stripTags, ih, List.append_assoc]
    | bOpen => rw [List.cons_append, stripTags, stripTags, ih]
    | bClose => rw [List.cons_append, stripTags, stripTags, ih]

theorem segPos_append (xs ys : List (Seg α)) :
    ∀ pos, segPos (xs ++ ys) pos = segPos ys (segPos xs pos) := by
  induction xs with
  | nil =>
    intro pos
    rfl
  | cons e rest ih =>
    intro pos
    cases e with
    | str zs => rw [List.cons_append, segPos, segPos, ih]
    | bOpen => rw [List.cons_append, segPos, segPos, ih]
    | bClose => rw [List.cons_append, segPos, segPos, ih]

theorem segPend_append (xs ys : List (Seg α)) :
    ∀ pos pd, segPend (xs ++ ys) pos pd =
      segPend ys (segPos xs pos) (segPend xs pos pd) := by
  induction xs with
  | nil =>
    intro pos pd
    rfl
  | cons e rest ih =>
    intro pos pd
    cases e with
    | str zs => rw [List.cons_append, segPend, segPend, segPos, ih]
    | bOpen => rw [List.cons_append, segPend, segPend, segPos, ih]
    | bClose => rw [List.cons_append, segPend, segPend, segPos, ih]

theorem spansGo_append (xs ys : List (Seg α)) :
    ∀ pos pd, spansGo (xs ++ ys) pos pd =
      spansGo xs pos pd ++ spansGo ys (segPos xs pos) (segPend xs pos pd) := by
  induction xs with
  | nil =>
    intro pos pd
    rfl
  | cons e rest ih =>
    intro pos pd
    cases e with
    | str zs =>
      rw [List.cons_append, spansGo, spansGo, segPos, segPend, ih]
    | bOpen =>
      rw [List.cons_append, spansGo, spansGo, segPos, segPend, ih]
    | bClose =>
      cases pd with
      | some a =>
        rw [List.cons_append, spansGo, spansGo, segPos, segPend, ih,
          List.cons_append]
      | none =>
        rw [List.cons_append, spansGo, spansGo, segPos, segPend, ih]

theorem take_append_pySlice (s : List α) {a b : Nat} (hab : a ≤ b) :
    s.take a ++ pySlice s a b = s.take b := by
  rw [pySlice]
  nth_rewrite 2 [← List.take_append_drop a (s.take b)]
  rw [List.take_take, Nat.min_eq_left hab]

theorem pySlice_length (s : List α) {a b : Nat} (hab : a ≤ b)
    (hb : b ≤ s.length) : (pySlice s a b).length = b - a := by
  rw [pySlice, List.length_drop, List.length_take]
  omega

theorem minEnt_mem : ∀ (e : Ent) (l : List Ent), minEnt e l ∈ e :: l := by
  intro e l
  induction l generalizing e with
  | nil => exact List.mem_cons_self _ _
  | cons x rest ih =>
    rw [minEnt]
    by_cases h : entLt x e = true
    · rw [if_pos h]
      rcases List.mem_cons.mp (ih x) with h2 | h2
      · rw [h2]
        exact List.mem_cons_of_mem _ (List.mem_cons_self _ _)
      · exact List.mem_cons_of_mem _ (List.mem_cons_of_mem _ h2)
    · rw [if_neg h]
      rcases List.mem_cons.mp (ih e) with h2 | h2
      · rw [h2]
        exact List.mem_cons_self _ _
      · exact List.mem_cons_of_mem _ (List.mem_cons_of_mem _ h2)

theorem pushNext_prop {n : Nat} {rngs : List (List (Nat × Nat))}
    (hr : ∀ rl ∈ rngs, ∀ p ∈ rl, p.1 ≤ p.2 ∧ p.2 ≤ n)
    {heap : List Ent}
    (hh : ∀ ent ∈ heap, ent.1 ≤ ent.2.1 ∧ ent.2.1 ≤ n) (j idx : Nat) :
    ∀ ent ∈ pushNext rngs heap j idx, ent.1 ≤ ent.2.1 ∧ ent.2.1 ≤ n := by
  intro ent hent
  rw [pushNext] at hent
  by_cases hc : j + 1 < (rngs.getD idx []).length
  · rw [if_pos hc] at hent
    rcases List.mem_append.mp hent with h | h
    · exact hh ent h
    · rw [List.mem_singleton] at h
      have hidx : idx < rngs.length := by
        by_contra hge
        rw [List.getD_eq_default] at hc
        · rw [List.length_nil] at hc
          omega
        · omega
      have hp : (rngs.getD idx []).getD (j+1) (0, 0) ∈ rngs.getD idx [] := by
        rw [List.getD_eq_getElem _ _ hc]
        exact List.getElem_mem hc
      have hrl : rngs.getD idx [] ∈ rngs := by
        rw [List.getD_eq_getElem _ _ hidx]
        exact List.getElem_mem hidx
      have := hr _ hrl _ hp
      rw [h]
      exact this
  · rw [if_neg hc] at hent
    exact hh ent hent

theorem mergeStartsGo_prop {n len : Nat} :
    ∀ (starts : List Nat) (cur : Nat × Nat) (acc : List (Nat × Nat)),
      (∀ p ∈ acc, p.1 ≤ p.2 ∧ p.2 ≤ n) →
      cur.1 ≤ cur.2 → cur.2 ≤ n →
      (∀ j ∈ starts, cur.2 ≤ j + len ∧ j + len ≤ n) →
      starts.Pairwise (· ≤ ·) →
      ∀ p ∈ mergeStartsGo len starts cur acc, p.1 ≤ p.2 ∧ p.2 ≤ n := by
  intro starts
  induction starts with
  | nil =>
    intro cur acc hacc h1 h2 _ _ p hp
    rw [mergeStartsGo] at hp
    rcases List.mem_append.mp hp with h | h
    · exact hacc p h
    · rw [List.mem_singleton] at h
      rw [h]
      exact ⟨h1, h2⟩
  | cons j rest ih =>
    intro cur acc hacc h1 h2 hrest hsort p hp
    rw [mergeStartsGo] at hp
    have hj := hrest j (List.mem_cons_self _ _)
    have hsort' := List.pairwise_cons.mp hsort
    by_cases hlt : cur.2 < j
    · rw [if_pos hlt] at hp
      refine ih (j, j + len) (acc ++ [cur]) ?_ (Nat.le_add_right _ _) hj.2
        ?_ hsort'.2 p hp
      · intro q hq
        rcases List.mem_append.mp hq with h | h
        · exact hacc q h
        · rw [List.mem_singleton] at h
          rw [h]
          exact ⟨h1, h2⟩
      · intro j2 hj2
        have hle := hsort'.1 j2 hj2
        have := hrest j2 (List.mem_cons_of_mem _ hj2)
        exact ⟨by omega, this.2⟩
    · rw [if_neg hlt] at hp
      refine ih (cur.1, j + len) acc hacc (by omega) hj.2 ?_ hsort'.2 p hp
      intro j2 hj2
      have hle := hsort'.1 j2 hj2
      have := hrest j2 (List.mem_cons_of_mem _ hj2)
      exact ⟨by omega, this.2⟩

theorem mergeStarts_prop {n len : Nat} {starts : List Nat}
    (hsort : starts.Pairwise (· ≤ ·))
    (hb : ∀ t ∈ starts, t + len ≤ n) :
    ∀ p ∈ mergeStarts len starts, p.1 ≤ p.2 ∧ p.2 ≤ n := by
  cases starts with
  | nil =>
    intro p hp
    cases hp
  | cons j rest =>
    rw [mergeStarts]
    have hsort' := List.pairwise_cons.mp hsort
    refine mergeStartsGo_prop rest (j, j + len) []
      (fun p hp => absurd hp (List.not_mem_nil p)) (Nat.le_add_right _ _)
      (hb j (List.mem_cons_self _ _)) ?_ hsort'.2
    intro j2 hj2
    have := hsort'.1 j2 hj2
    exact ⟨by omega, hb j2 (List.mem_cons_of_mem _ hj2)⟩

/-- Every recorded hit really fits inside the text: the word length never
exceeds the end position plus one. -/
theorem acHitsGo_bound (W : List (List α)) (w : List α) :
    ∀ (rem u : List α) (x : Nat), isDeltaSpec (acTrie W).goto u x →
      ∀ t, t ∈ acHitsGo (acBuild W) w rem u.length x →
        ∃ d, d < rem.length ∧ w.length ≤ u.length + d + 1 ∧
          t = u.length + d + 1 - w.length := by
  have hinv := (acTrie_buildInv W).inv
  intro rem
  induction rem with
  | nil =>
    intro u x _ t h
    cases h
  | cons l rest ih =>
    intro u x hx t h
    have hx' : isDeltaSpec (acTrie W).goto (u ++ [l])
        (acNext (acBuild W).goto (acBuild W).failure x l) :=
      isDeltaSpec_extend hinv hx (acNext_build W hx.1 l)
    have hlen1 : (u ++ [l]).length = u.length + 1 := by
      rw [List.length_append, List.length_singleton]
    simp only [acHitsGo] at h
    rcases List.mem_append.mp h with h | h
    · obtain ⟨hne0, ht⟩ := List.mem_replicate.mp h
      have hpos : 0 < hitCount ((acBuild W).out.getD
          (acNext (acBuild W).goto (acBuild W).failure x l) 0)
          (acBuild W).words w := by omega
      rw [acBuild_words] at hpos
      obtain ⟨k, hk, he, hb⟩ := hitCount_pos.mp hpos
      have hbd := (acBuild_out_bound W _ hx'.1 k hb).2
      have hsufb := hx'.2.1.length_le
      rw [hlen1] at hsufb
      rw [he] at hbd
      refine ⟨0, by rw [List.length_cons]; omega, by omega, by omega⟩
    · obtain ⟨d, hd, hwle, hv⟩ := ih (u ++ [l]) _ hx' t (by rw [hlen1]; exact h)
      rw [hlen1] at hwle hv
      exact ⟨d + 1, by rw [List.length_cons]; omega, by omega, by omega⟩

theorem rngs_prop (W : List (List α)) (s : List α) :
    ∀ rl ∈ (acSearch W s).map (fun wt => mergeStarts wt.1.length wt.2),
      ∀ p ∈ rl, p.1 ≤ p.2 ∧ p.2 ≤ s.length := by
  intro rl hrl p hp
  rw [List.mem_map] at hrl
  obtain ⟨⟨w, ts⟩, hwts, he⟩ := hrl
  have hts : lookupList (acSearch W s) w = ts :=
    entry_eq_lookupList (acSearch_nodup W s) hwts
  have hsort : ts.Pairwise (· ≤ ·) := by
    rw [← hts]
    exact acSearch_sorted W s w
  have hbound : ∀ t ∈ ts, t + w.length ≤ s.length := by
    intro t ht
    rw [← hts, acSearch_lookup] at ht
    obtain ⟨d, hd, hwle, hv⟩ := acHitsGo_bound W w s [] 0 (isDeltaSpec_nil W)
      t (by rw [List.length_nil]; exact ht)
    rw [List.length_nil] at hwle hv
    omega
  rw [← he] at hp
  exact mergeStarts_prop hsort hbound p hp

theorem heap0_prop {n : Nat} {rngs : List (List (Nat × Nat))}
    (hr : ∀ rl ∈ rngs, ∀ p ∈ rl, p.1 ≤ p.2 ∧ p.2 ≤ n) :
    ∀ ent ∈ (rngs.enum.map (fun ir =>
        (((ir.2.getD 0 (0, 0)).1, (ir.2.getD 0 (0, 0)).2, 0, ir.1) : Ent))),
      ent.1 ≤ ent.2.1 ∧ ent.2.1 ≤ n := by
  intro ent hent
  rw [List.mem_map] at hent
  obtain ⟨ir, hir, he⟩ := hent
  have hmem := List.snd_mem_of_mem_enum hir
  cases hrl : ir.2 with
  | nil =>
    rw [← he, hrl]
    exact ⟨Nat.le_refl _, Nat.zero_le _⟩
  | cons q qrest =>
    have hq : ir.2.getD 0 (0, 0) = q := by
      rw [hrl]
      rfl
    have hqmem : q ∈ ir.2 := by
      rw [hrl]
      exact List.mem_cons_self _ _
    have := hr _ hmem _ hqmem
    rw [← he, hq]
    exact this

theorem BoldInv_widen {s : List α} {n : Nat} {acc : List (Seg α)}
    {bs be be' : Nat} (h : BoldInv s n acc bs be) (h1 : be ≤ be')
    (h2 : be' ≤ n) : BoldInv s n acc bs be' := by
  refine ⟨h.strip, Nat.le_trans h.bs_le h1, h2, h.pend, h.pos, ?_, ?_⟩
  · have hc := h.chain
    rw [List.chain'_append] at hc ⊢
    refine ⟨hc.1, List.chain'_singleton _, ?_⟩
    intro x hx y hy
    have hye : y = (bs, be') :=
      Option.some.inj (Option.mem_def.mp hy).symm
    have hold := hc.2.2 x hx (bs, be) (Option.mem_def.mpr rfl)
    rw [hye]
    exact hold
  · intro p hp
    rcases List.mem_append.mp hp with h3 | h3
    · exact h.bounds p (List.mem_append.mpr (Or.inl h3))
    · rw [List.mem_singleton] at h3
      rw [h3]
      exact ⟨Nat.le_trans h.bs_le h1, h2⟩

/-- The `while heap:` loop preserves the bold invariant at every exit. -/
theorem boldLoop_inv (s : List α) (n : Nat) (rngs : List (List (Nat × Nat)))
    (hn : n = s.length)
    (hr : ∀ rl ∈ rngs, ∀ p ∈ rl, p.1 ≤ p.2 ∧ p.2 ≤ n) :
    ∀ (fuel : Nat) (heap : List Ent) (bs be : Nat) (acc : List (Seg α)),
      (∀ ent ∈ heap, ent.1 ≤ ent.2.1 ∧ ent.2.1 ≤ n) →
      BoldInv s n acc bs be →
      BoldInv s n (boldLoop s n rngs fuel heap bs be acc).1
        (boldLoop s n rngs fuel heap bs be acc).2.1
        (boldLoop s n rngs fuel heap bs be acc).2.2 := by
  intro fuel
  induction fuel with
  | zero =>
    intro heap bs be acc _ hinv
    exact hinv
  | succ fuel ih =>
    intro heap bs be acc hheap hinv
    cases heap with
    | nil => exact hinv
    | cons h hs =>
      have hemem := minEnt_mem h hs
      have he := hheap _ hemem
      simp only [boldLoop]
      generalize hE : minEnt h hs = e
      rw [hE] at he
      have herase : ∀ ent ∈ (h :: hs).erase e,
          ent.1 ≤ ent.2.1 ∧ ent.2.1 ≤ n :=
        fun ent hm => hheap ent (List.erase_subset _ _ hm)
      have hpush := pushNext_prop hr herase e.2.2.1 e.2.2.2
      by_cases hc1 : e.1 ≤ be
      · rw [if_pos hc1]
        have hmaxn : max be e.2.1 ≤ n := Nat.max_le.mpr ⟨hinv.be_le, he.2⟩
        by_cases hc2 : max be e.2.1 = n
        · rw [if_pos hc2]
          exact BoldInv_widen hinv (Nat.le_max_left _ _) hmaxn
        · rw [if_neg hc2]
          exact ih _ bs _ acc hpush
            (BoldInv_widen hinv (Nat.le_max_left _ _) hmaxn)
      · rw [if_neg hc1]
        have hlt : be < e.1 := by omega
        have hbs := hinv.bs_le
        have hbe := hinv.be_le
        have he1n : e.1 ≤ n := Nat.le_trans he.1 he.2
        have hu1 : (pySlice s bs be).length = be - bs :=
          pySlice_length s hbs (by omega)
        have hu2 : (pySlice s be e.1).length = e.1 - be :=
          pySlice_length s (by omega) (by omega)
        have hstrip4 : stripTags [Seg.str (pySlice s bs be), Seg.bClose,
            Seg.str (pySlice s be e.1), Seg.bOpen] =
            pySlice s bs be ++ (pySlice s be e.1 ++ []) := rfl
        have hstrip : stripTags (acc ++ [Seg.str (pySlice s bs be),
            Seg.bClose, Seg.str (pySlice s be e.1), Seg.bOpen]) =
            s.take e.1 := by
          rw [stripTags_append, hinv.strip, hstrip4, List.append_nil,
            ← List.append_assoc, take_append_pySlice s hbs,
            take_append_pySlice s (by omega)]
        have hpos4 : segPos [Seg.str (pySlice s bs be), Seg.bClose,
            Seg.str (pySlice s be e.1), Seg.bOpen] bs =
            bs + (pySlice s bs be).length + (pySlice s be e.1).length := rfl
        have hpos : segPos (acc ++ [Seg.str (pySlice s bs be), Seg.bClose,
            Seg.str (pySlice s be e.1), Seg.bOpen]) 0 = e.1 := by
          rw [segPos_append, hinv.pos, hpos4, hu1, hu2]
          omega
        have hpend4 : segPend [Seg.str (pySlice s bs be), Seg.bClose,
            Seg.str (pySlice s be e.1), Seg.bOpen] bs
              (segPend acc 0 none) =
            some (bs + (pySlice s bs be).length +
              (pySlice s be e.1).length) := rfl
        have hpend : segPend (acc ++ [Seg.str (pySlice s bs be), Seg.bClose,
            Seg.str (pySlice s be e.1), Seg.bOpen]) 0 none = some e.1 := by
          rw [segPend_append, hinv.pos, hpend4, hu1, hu2]
          congr 1
          omega
        have hspans4 : spansGo [Seg.str (pySlice s bs be), Seg.bClose,
            Seg.str (pySlice s be e.1), Seg.bOpen] bs (some bs) =
            [(bs, bs + (pySlice s bs be).length)] := rfl
        have hbsbe : bs + (pySlice s bs be).length = be := by
          rw [hu1]
          omega
        have hspans : spansGo (acc ++ [Seg.str (pySlice s bs be), Seg.bClose,
            Seg.str (pySlice s be e.1), Seg.bOpen]) 0 none =
            spansGo acc 0 none ++ [(bs, be)] := by
          rw [spansGo_append, hinv.pos, hinv.pend, hspans4, hbsbe]
        have hinv' : BoldInv s n (acc ++ [Seg.str (pySlice s bs be),
            Seg.bClose, Seg.str (pySlice s be e.1), Seg.bOpen]) e.1 e.2.1 := by
          refine ⟨hstrip, he.1, he.2, hpend, hpos, ?_, ?_⟩
          · rw [hspans, List.chain'_append]
            refine ⟨hinv.chain, List.chain'_singleton _, ?_⟩
            intro x hx y hy
            rw [List.getLast?_concat] at hx
            have hxe : x = (bs, be) :=
              Option.some.inj (Option.mem_def.mp hx).symm
            have hye : y = (e.1, e.2.1) :=
              Option.some.inj (Option.mem_def.mp hy).symm
            rw [hxe, hye]
            show be < e.1
            omega
          · intro p hp
            rw [hspans] at hp
            rcases List.mem_append.mp hp with h3 | h3
            · exact hinv.bounds p h3
            · rw [List.mem_singleton] at h3
              rw [h3]
              exact ⟨he.1, he.2⟩
        by_cases hc2 : e.2.1 = n
        · rw [if_pos hc2]
          exact hinv'
        · rw [if_neg hc2]
          exact ih _ e.1 e.2.1 _ hpush hinv'

theorem boldFinish_strip {s : List α} {acc : List (Seg α)} {bs be : Nat}
    (hinv : BoldInv s s.length acc bs be) :
    stripTags (acc ++ [Seg.str (pySlice s bs be), Seg.bClose] ++
      (if be < s.length then [Seg.str (s.drop be)] else [])) = s := by
  rw [stripTags_append, stripTags_append, hinv.strip]
  have h2 : stripTags [Seg.str (pySlice s bs be), Seg.bClose] =
      pySlice s bs be ++ [] := rfl
  rw [h2, List.append_nil]
  by_cases hbe : be < s.length
  · rw [if_pos hbe]
    have h3 : stripTags [Seg.str (s.drop be)] = s.drop be ++ [] := rfl
    rw [h3, List.append_nil, take_append_pySlice s hinv.bs_le,
      List.take_append_drop]
  · rw [if_neg hbe]
    have h3 : stripTags ([] : List (Seg α)) = [] := rfl
    rw [h3, List.append_nil, take_append_pySlice s hinv.bs_le,
      List.take_of_length_le (by have := hinv.be_le; omega)]

theorem boldFinish_spans {s : List α} {acc : List (Seg α)} {bs be : Nat}
    (hinv : BoldInv s s.length acc bs be) :
    spansOf (acc ++ [Seg.str (pySlice s bs be), Seg.bClose] ++
        (if be < s.length then [Seg.str (s.drop be)] else [])) =
      spansGo acc 0 none ++ [(bs, be)] := by
  rw [spansOf, spansGo_append, spansGo_append, hinv.pos, hinv.pend]
  have hmid : spansGo [Seg.str (pySlice s bs be), Seg.bClose] bs (some bs) =
      [(bs, bs + (pySlice s bs be).length)] := rfl
  have hlen : bs + (pySlice s bs be).length = be := by
    rw [pySlice_length s hinv.bs_le hinv.be_le]
    have := hinv.bs_le
    omega
  have htail : ∀ (pos : Nat) (pd : Option Nat),
      spansGo (if be < s.length then [Seg.str (s.drop be)] else []) pos pd =
        [] := by
    intro pos pd
    by_cases hbe : be < s.length
    · rw [if_pos hbe]
      rfl
    · rw [if_neg hbe]
      rfl
  rw [hmid, hlen, htail, List.append_nil]

/-- The bold invariant holds for the pieces accumulated before the loop. -/
theorem boldInit {s : List α} {e : Ent}
    (he : e.1 ≤ e.2.1 ∧ e.2.1 ≤ s.length) :
    BoldInv s s.length
      ((if e.1 ≠ 0 then [Seg.str (s.take e.1)] else []) ++ [Seg.bOpen])
      e.1 e.2.1 := by
  have htk : (s.take e.1).length = e.1 := by
    rw [List.length_take]
    have := he.1
    have := he.2
    omega
  by_cases h0 : e.1 ≠ 0
  · rw [if_pos h0]
    refine ⟨List.append_nil _, he.1, he.2, ?_, ?_, ?_, ?_⟩
    · show some (0 + (s.take e.1).length) = some e.1
      rw [htk, Nat.zero_add]
    · show 0 + (s.take e.1).length = e.1
      rw [htk, Nat.zero_add]
    · exact List.chain'_singleton _
    · intro p hp
      have hp' : p ∈ [(e.1, e.2.1)] := hp
      rw [List.mem_singleton] at hp'
      rw [hp']
      exact he
  · have h0' : e.1 = 0 := by omega
    rw [if_neg h0]
    refine ⟨?_, he.1, he.2, ?_, ?_, ?_, ?_⟩
    · rw [h0']
      rfl
    · rw [h0']
      rfl
    · rw [h0']
      rfl
    · exact List.chain'_singleton _
    · intro p hp
      have hp' : p ∈ [(e.1, e.2.1)] := hp
      rw [List.mem_singleton] at hp'
      rw [hp']
      exact he

/-- Stripping the main branch of `addBoldTag` returns the text. -/
theorem boldArm_strip (s : List α) (rngs : List (List (Nat × Nat)))
    (h : Ent) (hs : List Ent)
    (hr : ∀ rl ∈ rngs, ∀ p ∈ rl, p.1 ≤ p.2 ∧ p.2 ≤ s.length)
    (hheap : ∀ ent ∈ h :: hs, ent.1 ≤ ent.2.1 ∧ ent.2.1 ≤ s.length) :
    stripTags
      (let e := minEnt h hs
       let heap1 := (h :: hs).erase e
       let acc0 := (if e.1 ≠ 0 then [Seg.str (s.take e.1)] else []) ++
         [Seg.bOpen]
       let heap2 := pushNext rngs heap1 e.2.2.1 e.2.2.2
       let r := boldLoop s s.length rngs ((rngs.map List.length).sum) heap2
         e.1 e.2.1 acc0
       r.1 ++ [Seg.str (pySlice s r.2.1 r.2.2), Seg.bClose] ++
         (if r.2.2 < s.length then [Seg.str (s.drop r.2.2)] else [])) = s := by
  simp only []
  have he := hheap _ (minEnt_mem h hs)
  have herase : ∀ ent ∈ (h :: hs).erase (minEnt h hs),
      ent.1 ≤ ent.2.1 ∧ ent.2.1 ≤ s.length :=
    fun ent hm => hheap ent (List.erase_subset _ _ hm)
  have hpush := pushNext_prop hr herase (minEnt h hs).2.2.1 (minEnt h hs).2.2.2
  have hres := boldLoop_inv s s.length rngs rfl hr
    ((rngs.map List.length).sum) _ (minEnt h hs).1 (minEnt h hs).2.1 _
    hpush (boldInit he)
  exact boldFinish_strip hres

/-- The spans of the main branch of `addBoldTag` are chained with gaps and
bounded by the text length. -/
theorem boldArm_spans (s : List α) (rngs : List (List (Nat × Nat)))
    (h : Ent) (hs : List Ent)
    (hr : ∀ rl ∈ rngs, ∀ p ∈ rl, p.1 ≤ p.2 ∧ p.2 ≤ s.length)
    (hheap : ∀ ent ∈ h :: hs, ent.1 ≤ ent.2.1 ∧ ent.2.1 ≤ s.length) :
    List.Chain' (fun p q : Nat × Nat => p.2 < q.1)
      (spansOf
        (let e := minEnt h hs
         let heap1 := (h :: hs).erase e
         let acc0 := (if e.1 ≠ 0 then [Seg.str (s.take e.1)] else []) ++
           [Seg.bOpen]
         let heap2 := pushNext rngs heap1 e.2.2.1 e.2.2.2
         let r := boldLoop s s.length rngs ((rngs.map List.length).sum) heap2
           e.1 e.2.1 acc0
         r.1 ++ [Seg.str (pySlice s r.2.1 r.2.2), Seg.bClose] ++
           (if r.2.2 < s.length then [Seg.str (s.drop r.2.2)] else []))) ∧
    ∀ p ∈ spansOf
        (let e := minEnt h hs
         let heap1 := (h :: hs).erase e
         let acc0 := (if e.1 ≠ 0 then [Seg.str (s.take e.1)] else []) ++
           [Seg.bOpen]
         let heap2 := pushNext rngs heap1 e.2.2.1 e.2.2.2
         let r := boldLoop s s.length rngs ((rngs.map List.length).sum) heap2
           e.1 e.2.1 acc0
         r.1 ++ [Seg.str (pySlice s r.2.1 r.2.2), Seg.bClose] ++
           (if r.2.2 < s.length then [Seg.str (s.drop r.2.2)] else [])),
      p.1 ≤ p.2 ∧ p.2 ≤ s.length := by
  simp only []
  have he := hheap _ (minEnt_mem h hs)
  have herase : ∀ ent ∈ (h :: hs).erase (minEnt h hs),
      ent.1 ≤ ent.2.1 ∧ ent.2.1 ≤ s.length :=
    fun ent hm => hheap ent (List.erase_subset _ _ hm)
  have hpush := pushNext_prop hr herase (minEnt h hs).2.2.1 (minEnt h hs).2.2.2
  have hres := boldLoop_inv s s.length rngs rfl hr
    ((rngs.map List.length).sum) _ (minEnt h hs).1 (minEnt h hs).2.1 _
    hpush (boldInit he)
  rw [boldFinish_spans hres]
  exact ⟨hres.chain, hres.bounds⟩

/-- Deleting the inserted markers from the output of `addBoldTag`
reproduces the input text. -/
theorem addBoldTag_strip (s : List α) (words : List (List α)) :
    stripTags (addBoldTag s words) = s := by
  simp only [addBoldTag]
  by_cases hn : s.length = 0
  · rw [if_pos hn]
    show s ++ ([] : List α) = s
    rw [List.append_nil]
  · rw [if_neg hn]
    cases hsd : acSearch words s with
    | nil =>
      show s ++ ([] : List α) = s
      rw [List.append_nil]
    | cons sd0 sdrest =>
      cases hh : (((sd0 :: sdrest).map
          (fun wt => mergeStarts wt.1.length wt.2)).enum.map
          (fun ir => (((ir.2.getD 0 (0, 0)).1, (ir.2.getD 0 (0, 0)).2, 0,
            ir.1) : Ent))) with
      | nil =>
        show s ++ ([] : List α) = s
        rw [List.append_nil]
      | cons h hs =>
        refine boldArm_strip s
          ((sd0 :: sdrest).map (fun wt => mergeStarts wt.1.length wt.2))
          h hs ?_ ?_
        · rw [← hsd]
          exact rngs_prop words s
        · rw [← hh]
          exact heap0_prop (by rw [← hsd]; exact rngs_prop words s)

/-- The tagged spans of `addBoldTag` are chained with at least one plain
character between consecutive spans, and lie inside the text. -/
theorem addBoldTag_spans (s : List α) (words : List (List α)) :
    List.Chain' (fun p q : Nat × Nat => p.2 < q.1)
      (spansOf (addBoldTag s words)) ∧
    ∀ p ∈ spansOf (addBoldTag s words), p.1 ≤ p.2 ∧ p.2 ≤ s.length := by
  simp only [addBoldTag]
  by_cases hn : s.length = 0
  · rw [if_pos hn]
    exact ⟨List.chain'_nil, fun p hp => absurd hp (List.not_mem_nil p)⟩
  · rw [if_neg hn]
    cases hsd : acSearch words s with
    | nil =>
      exact ⟨List.chain'_nil, fun p hp => absurd hp (List.not_mem_nil p)⟩
    | cons sd0 sdrest =>
      cases hh : (((sd0 :: sdrest).map
          (fun wt => mergeStarts wt.1.length wt.2)).enum.map
          (fun ir => (((ir.2.getD 0 (0, 0)).1, (ir.2.getD 0 (0, 0)).2, 0,
            ir.1) : Ent))) with
      | nil =>
        exact ⟨List.chain'_nil, fun p hp => absurd hp (List.not_mem_nil p)⟩
      | cons h hs =>
        refine boldArm_spans s
          ((sd0 :: sdrest).map (fun wt => mergeStarts wt.1.length wt.2))
          h hs ?_ ?_
        · rw [← hsd]
          exact rngs_prop words s
        · rw [← hh]
          exact heap0_prop (by rw [← hsd]; exact rngs_prop words s)

/-! ## Remaining helpers for duplicate patterns and the bitset closure -/

theorem two_le_count {W : List (List α)} {w : List α} :
    ∀ (k1 k2 : Nat), k1 < W.length → k2 < W.length → k1 ≠ k2 →
      W.getD k1 [] = w → W.getD k2 [] = w → 2 ≤ W.count w := by
  induction W with
  | nil =>
    intro k1 k2 h1 _ _ _ _
    rw [List.length_nil] at h1
    omega
  | cons x rest ih =>
    intro k1 k2 h1 h2 hne e1 e2
    have hcc : (x :: rest).count w = rest.count w + if x = w then 1 else 0 := by
      simp [List.count_cons]
    rw [hcc]
    rw [List.length_cons] at h1 h2
    cases k1 with
    | zero =>
      have hx : x = w := e1
      cases k2 with
      | zero => exact absurd rfl hne
      | succ k2' =>
        have hw2 : rest.getD k2' [] = w := e2
        have hmem : w ∈ rest := mem_iff_getD.mpr ⟨k2', by omega, hw2⟩
        have := List.count_pos_iff_mem.mpr hmem
        rw [if_pos hx]
        omega
    | succ k1' =>
      cases k2 with
      | zero =>
        have hx : x = w := e2
        have hw1 : rest.getD k1' [] = w := e1
        have hmem : w ∈ rest := mem_iff_getD.mpr ⟨k1', by omega, hw1⟩
        have := List.count_pos_iff_mem.mpr hmem
        rw [if_pos hx]
        omega
      | succ k2' =>
        have hw1 : rest.getD k1' [] = w := e1
        have hw2 : rest.getD k2' [] = w := e2
        have h3 := ih k1' k2' (by omega) (by omega) (by omega) hw1 hw2
        omega

/-- With only nonempty patterns, the root bitsets are empty. -/
theorem acBuild_root_zero (W : List (List α)) (hW : ∀ w ∈ W, w ≠ []) :
    (acBuild W).out.getD 0 0 = 0 ∧ (acBuild W).out_lens.getD 0 0 = 0 := by
  obtain ⟨_, _, _, _, _, hroot, _⟩ := acBuild_vals W
  have hinv := (acTrie_buildInv W).inv
  constructor
  · rw [hroot.1]
    refine Nat.eq_of_testBit_eq fun k => ?_
    rw [Nat.zero_testBit]
    cases hb : ((acTrie W).out.getD 0 0).testBit k with
    | false => rfl
    | true =>
      obtain ⟨hk, he⟩ := (trie_out_bit hinv.root_lt k).mp hb
      have hmem : W.getD k [] ∈ W := mem_iff_getD.mpr ⟨k, hk, rfl⟩
      have h00 : strOf (acTrie W).goto (0 : Nat) = [] := rfl
      rw [h00] at he
      exact absurd he (hW _ hmem)
  · rw [hroot.2]
    refine Nat.eq_of_testBit_eq fun ℓ => ?_
    rw [Nat.zero_testBit]
    cases hb : ((acTrie W).out_lens.getD 0 0).testBit ℓ with
    | false => rfl
    | true =>
      obtain ⟨k, hk, hl, he⟩ := (trie_olens_bit hinv.root_lt ℓ).mp hb
      have hmem : W.getD k [] ∈ W := mem_iff_getD.mpr ⟨k, hk, rfl⟩
      have h00 : strOf (acTrie W).goto (0 : Nat) = [] := rfl
      rw [h00] at he
      exact absurd he (hW _ hmem)

/-- With only nonempty patterns, every non-root node's bitsets are the
direct trie bits ored with the bitsets of its failure target. -/
theorem acBuild_closure (W : List (List α)) (hW : ∀ w ∈ W, w ≠ []) :
    ∀ j, 1 ≤ j → j < (acTrie W).goto.length →
      (acBuild W).out.getD j 0 =
        (acTrie W).out.getD j 0 |||
          (acBuild W).out.getD ((acBuild W).failure.getD j 0) 0 ∧
      (acBuild W).out_lens.getD j 0 =
        (acTrie W).out_lens.getD j 0 |||
          (acBuild W).out_lens.getD ((acBuild W).failure.getD j 0) 0 := by
  intro j h1 hjL
  have hinv := (acTrie_buildInv W).inv
  have hnv := (acBuild_vals W).2.2.2.2.2.2 j hjL (by omega)
  obtain ⟨pj, pl, hpmem⟩ := hinv.parent_ex j h1 hjL
  have hpe := mem_parentEdge hinv hpmem
  obtain ⟨hc0, hc1⟩ := hnv.2 pj pl hpe
  by_cases hpj0 : pj = 0
  · obtain ⟨ho, hol⟩ := hc0 hpj0
    have hdep1 : (strOf (acTrie W).goto j).length = 1 := by
      rw [strOf_parent hinv hpmem, hpj0]
      rfl
    have hfs := hnv.1
    have hf0 : (acBuild W).failure.getD j 0 = 0 := by
      have hlt := hfs.2.2.1
      rw [hdep1] at hlt
      have hnil : strOf (acTrie W).goto ((acBuild W).failure.getD j 0) = [] :=
        List.length_eq_zero.mp (by omega)
      exact (strOf_eq_nil_iff hinv hfs.1).mp hnil
    obtain ⟨hr1, hr2⟩ := acBuild_root_zero W hW
    rw [ho, hol, hf0, hr1, hr2, Nat.or_zero, Nat.or_zero]
    exact ⟨rfl, rfl⟩
  · exact hc1 hpj0

/-! ## The claims -/

set_option maxRecDepth 40000

/-- Claim C1 (amended: all patterns nonempty).  For every pattern list
whose patterns are all nonempty and every text, `search` returns a mapping
from pattern to a nondecreasing list of start indices, and the set of
(pattern, start) pairs equals the set found by running KMP per pattern;
on the patterns he, she, hers, his over "ahishers" it reports exactly
his at 1, he at 4, she at 3 and hers at 4. -/
theorem claim_C1 :
    (∀ (β : Type) [DecidableEq β] (W : List (List β)) (s : List β),
      (∀ w ∈ W, w ≠ []) →
      (∀ (w : List β) (t : Nat),
        ((w, t) ∈ acSearchPairs W s ↔ (w, t) ∈ kmpPairs W s)) ∧
      ∀ w : List β, (lookupList (acSearch W s) w).Pairwise (· ≤ ·)) ∧
    acSearch ["he".toList, "she".toList, "hers".toList, "his".toList]
        "ahishers".toList =
      [("his".toList, [1]), ("he".toList, [4]), ("she".toList, [3]),
        ("hers".toList, [4])] := by
  constructor
  · intro β inst W s hW
    exact ⟨fun w t => acSearchPairs_iff W s hW w t,
      fun w => acSearch_sorted W s w⟩
  · decide

/-- Witness for C1 at the patterns he, she, hers, his over "ahishers". -/
theorem claim_C1_witness :
    (("his".toList, 1) ∈ acSearchPairs
        ["he".toList, "she".toList, "hers".toList, "his".toList]
        "ahishers".toList ↔
      ("his".toList, 1) ∈ kmpPairs
        ["he".toList, "she".toList, "hers".toList, "his".toList]
        "ahishers".toList) :=
  (claim_C1.1 Char
    ["he".toList, "she".toList, "hers".toList, "his".toList]
    "ahishers".toList (by decide)).1 "his".toList 1

/-- Counterexample to the unamended C1: with the empty pattern present,
KMP reports the pair ([], 0) on text "a" but `search` does not. -/
theorem claim_C1_counterexample :
    (([] : List Char), 0) ∈ kmpPairs [[], "a".toList] "a".toList ∧
    (([] : List Char), 0) ∉ acSearchPairs [[], "a".toList] "a".toList := by
  exact ⟨by decide, by decide⟩

/-- Claim C2 (amended: all patterns nonempty).  For every pattern list
whose patterns are all nonempty and every non-root node `j` of the built
automaton, `out[j]` is the or of the direct trie bits at `j` and
`out[failure[j]]`, and likewise for `out_lens`. -/
theorem claim_C2 : ∀ (β : Type) [DecidableEq β] (W : List (List β)),
    (∀ w ∈ W, w ≠ []) →
    ∀ j, 1 ≤ j → j < (acTrie W).goto.length →
      (acBuild W).out.getD j 0 =
        (acTrie W).out.getD j 0 |||
          (acBuild W).out.getD ((acBuild W).failure.getD j 0) 0 ∧
      (acBuild W).out_lens.getD j 0 =
        (acTrie W).out_lens.getD j 0 |||
          (acBuild W).out_lens.getD ((acBuild W).failure.getD j 0) 0 := by
  intro β inst W hW
  exact acBuild_closure W hW

/-- Witness for C2 at the patterns a, aa and the node for "aa". -/
theorem claim_C2_witness :
    (acBuild ["a".toList, "aa".toList]).out.getD 2 0 =
      (acTrie ["a".toList, "aa".toList]).out.getD 2 0 |||
        (acBuild ["a".toList, "aa".toList]).out.getD
          ((acBuild ["a".toList, "aa".toList]).failure.getD 2 0) 0 ∧
    (acBuild ["a".toList, "aa".toList]).out_lens.getD 2 0 =
      (acTrie ["a".toList, "aa".toList]).out_lens.getD 2 0 |||
        (acBuild ["a".toList, "aa".toList]).out_lens.getD
          ((acBuild ["a".toList, "aa".toList]).failure.getD 2 0) 0 :=
  claim_C2 Char ["a".toList, "aa".toList] (by decide) 2 (by decide) (by decide)

/-- Counterexample to the unamended C2: with patterns [], "a" the root
child for "a" does not inherit the root's bit for the empty pattern. -/
theorem claim_C2_counterexample :
    (acBuild [([] : List Char), "a".toList]).out.getD 1 0 ≠
      (acTrie [([] : List Char), "a".toList]).out.getD 1 0 |||
        (acBuild [([] : List Char), "a".toList]).out.getD
          ((acBuild [([] : List Char), "a".toList]).failure.getD 1 0) 0 := by
  decide

/-- Claim C3.  The spec says KMP, the Z-algorithm matcher and brute force
return the same ascending index set for every pattern and text; the code
diverges because the Z matcher iterates `range(m + 1, n)` with
`n = len(s)` instead of `len(s2)` and so misses the final match
positions: on pattern "b", text "b" KMP and brute force report [0] but
the Z matcher reports nothing. -/
theorem claim_C3 :
    kmpMatches "b".toList "b".toList = [0] ∧
    bruteMatches "b".toList "b".toList = [0] ∧
    zMatches "b".toList "b".toList '$' = [] := by
  exact ⟨by decide, by decide, by decide⟩

/-- Claim C4.  Deleting the inserted markers from the output of
`addBoldTag` reproduces the input text exactly, for every text and word
list. -/
theorem claim_C4 : ∀ (β : Type) [DecidableEq β] (s : List β)
    (words : List (List β)), stripTags (addBoldTag s words) = s := by
  intro β inst s words
  exact addBoldTag_strip s words

/-- Claim C5.  The tagged spans of `addBoldTag` are strictly increasing
and separated by at least one untagged character, and each span lies
inside the text. -/
theorem claim_C5 : ∀ (β : Type) [DecidableEq β] (s : List β)
    (words : List (List β)),
    List.Chain' (fun p q : Nat × Nat => p.2 < q.1)
      (spansOf (addBoldTag s words)) ∧
    ∀ p ∈ spansOf (addBoldTag s words), p.1 ≤ p.2 ∧ p.2 ≤ s.length := by
  intro β inst s words
  exact addBoldTag_spans s words

/-- Witness for C5 at the Leetcode example "abcxyz123". -/
theorem claim_C5_witness :
    ((0, 3) : Nat × Nat).1 ≤ ((0, 3) : Nat × Nat).2 ∧
      ((0, 3) : Nat × Nat).2 ≤ ("abcxyz123".toList).length :=
  (claim_C5 Char "abcxyz123".toList
    (["abc", "123"].map String.toList)).2 (0, 3) (by decide)

/-- Claim C6.  `manacherAlgorithm` computes the brute-force maximal
odd-palindrome radius at every centre, and on "ebabad" returns
[0, 0, 1, 1, 0, 0]. -/
theorem claim_C6 :
    (∀ (β : Type) [DecidableEq β] (s : List β) (i : Nat),
      (manacherAlgorithm s).getD i 0 = maxRadius s i) ∧
    manacherAlgorithm "ebabad".toList = [0, 0, 1, 1, 0, 0] := by
  constructor
  · intro β inst s i
    exact manacherAlgorithm_spec s i
  · decide

/-- Claim C7 (amended: the shared pattern nonempty).  Two identical
nonempty patterns with distinct ids are both reported by
`searchEndIndices` at every end position, `search` records each match
once per id, and `searchLengths` records the shared length exactly
once. -/
theorem claim_C7 : ∀ (β : Type) [DecidableEq β] (W : List (List β))
    (s : List β) (k1 k2 : Nat) (w : List β),
    k1 < W.length → k2 < W.length → k1 ≠ k2 →
    W.getD k1 [] = w → W.getD k2 [] = w → w ≠ [] →
    ∀ e, e < s.length → w <:+ s.take (e+1) →
      (∃ ids, (e, ids) ∈ acSearchEndIndices W s ∧ k1 ∈ ids ∧ k2 ∈ ids) ∧
      2 ≤ (lookupList (acSearch W s) w).count (e + 1 - w.length) ∧
      ((acSearchLengths W s).getD e []).count w.length = 1 := by
  intro β inst W s k1 k2 w hk1 hk2 hne e1 e2 hw e he hsuf
  have hds := acStates_spec W s he
  have hstL := hds.1
  have hne1 : W.getD k1 [] ≠ [] := by rw [e1]; exact hw
  have hne2 : W.getD k2 [] ≠ [] := by rw [e2]; exact hw
  have hbit1 : ((acBuild W).out.getD
      ((acStatesGo (acBuild W) s 0).getD e 0) 0).testBit k1 = true := by
    rw [acBuild_out_bit W hk1 hne1 _ hstL, delta_word_suffix W hds hk1, e1]
    exact hsuf
  have hbit2 : ((acBuild W).out.getD
      ((acStatesGo (acBuild W) s 0).getD e 0) 0).testBit k2 = true := by
    rw [acBuild_out_bit W hk2 hne2 _ hstL, delta_word_suffix W hds hk2, e2]
    exact hsuf
  refine ⟨⟨_, acSearchEndIndices_entry W s he, ?_, ?_⟩, ?_, ?_⟩
  · rw [bitIndices_mem _ _ _ _ (Nat.le_refl _)]
    exact ⟨k1, hbit1, by omega⟩
  · rw [bitIndices_mem _ _ _ _ (Nat.le_refl _)]
    exact ⟨k2, hbit2, by omega⟩
  · rw [acSearch_count W s hw he hsuf]
    exact two_le_count k1 k2 hk1 hk2 hne e1 e2
  · rw [acSearchLengths_entry W s he]
    have hl0 : w.length ≠ 0 := by
      intro h0
      exact hw (List.length_eq_zero.mp h0)
    have hbitl : ((acBuild W).out_lens.getD
        ((acStatesGo (acBuild W) s 0).getD e 0) 0).testBit w.length = true := by
      rw [acBuild_olens_bit W hl0 _ hstL]
      refine ⟨k1, hk1, by rw [e1], ?_⟩
      rw [delta_word_suffix W hds hk1, e1]
      exact hsuf
    have hmem : w.length ∈ bitIndices
        ((acBuild W).out_lens.getD
          ((acStatesGo (acBuild W) s 0).getD e 0) 0)
        ((acBuild W).out_lens.getD
          ((acStatesGo (acBuild W) s 0).getD e 0) 0) 0 := by
      rw [bitIndices_mem _ _ _ _ (Nat.le_refl _)]
      exact ⟨w.length, hbitl, by omega⟩
    have hnd : (bitIndices
        ((acBuild W).out_lens.getD
          ((acStatesGo (acBuild W) s 0).getD e 0) 0)
        ((acBuild W).out_lens.getD
          ((acStatesGo (acBuild W) s 0).getD e 0) 0) 0).Nodup :=
      List.Pairwise.imp (fun h => Nat.ne_of_lt h) (bitIndices_sorted _ _ _)
    exact List.count_eq_one_of_mem hnd hmem

/-- Witness for C7 at the duplicated pattern "a" over text "a". -/
theorem claim_C7_witness :
    (∃ ids, (0, ids) ∈ acSearchEndIndices ["a".toList, "a".toList]
        "a".toList ∧ 0 ∈ ids ∧ 1 ∈ ids) ∧
    2 ≤ (lookupList (acSearch ["a".toList, "a".toList] "a".toList)
        "a".toList).count (0 + 1 - ("a".toList).length) ∧
    ((acSearchLengths ["a".toList, "a".toList] "a".toList).getD 0
        []).count ("a".toList).length = 1 :=
  claim_C7 Char ["a".toList, "a".toList] "a".toList 0 1 "a".toList
    (by decide) (by decide) (by decide) (by decide) (by decide) (by decide)
    0 (by decide) (by decide)

/-- Counterexample to the unamended C7: ids 0 and 1 share the empty
pattern, which ends at index 0 of text "a", but `searchEndIndices`
reports neither id there. -/
theorem claim_C7_counterexample :
    acSearchEndIndices [([] : List Char), [], "a".toList] "a".toList =
      [(0, [2])] := by
  decide

/-- Claim C8.  The spec says `rollingHash` is exception-free on
well-formed input with default arguments; the code reads `iter_obj` and
`func` before assignment whenever `func` is left as None, so the default
path raises `UnboundLocalError` (first conjunct).  Even with a function
supplied the generator is not exception-free: `val_qu.popleft()` runs once
per prime inside the sliding inner loop (line 392), so with the default two
primes each slide pops the `37`-hash's element first (here the old window
head 5) and the `53`-hash's element next (here 7), and the queue loses one
element net per slide — it yields the two correct first tuples on a
length-3 input (second conjunct) but drains and raises `IndexError` as soon
as `len(s) >= 2 * length + 1` (third conjunct, `len(s) = 5`, `length = 2`). -/
theorem claim_C8 :
    rollingHash [5, 7] 1 [37, 53] (10 ^ 9 + 7) none =
      PyGen.error "UnboundLocalError: iter_obj referenced before assignment" ∧
    rollingHash [5, 7, 9] 2 [37, 53] (10 ^ 9 + 7) (some id) =
      PyGen.ok [[5 * 37 + 7, 5 * 53 + 7],
        [((((5 * 37 + 7 : Int) - 37 ^ 2 * 5) * 37 + 9).emod
            (10 ^ 9 + 7)).toNat,
         ((((5 * 53 + 7 : Int) - 53 ^ 2 * 7) * 53 + 9).emod
            (10 ^ 9 + 7)).toNat]] ∧
    rollingHash [5, 7, 9, 11, 13] 2 [37, 53] (10 ^ 9 + 7) (some id) =
      PyGen.error "IndexError: pop from an empty deque" := by
  exact ⟨by decide, by decide, by decide⟩

/-- Claim C9.  With an empty pattern, the KMP matcher yields exactly the
indices 0 through len(s) - 1 in increasing order. -/
theorem claim_C9 : ∀ (β : Type) [DecidableEq β] (s : List β),
    kmpMatches ([] : List β) s = List.range s.length := by
  intro β inst s
  rfl

/-- Claim C10.  The bitsets impose no pattern-count ceiling: for every
pattern list of any length, bit `k` of the automaton is meaningful for
every id `k` of a nonempty pattern and `search` reports its occurrences
exactly, also for ids of 64 and above, as the 65-pattern example
shows. -/
theorem claim_C10 :
    (∀ (β : Type) [DecidableEq β] (W : List (List β)) (s : List β) (k : Nat),
      k < W.length → W.getD k [] ≠ [] →
      ∀ t, ((W.getD k [], t) ∈ acSearchPairs W s ↔
        occursAt s (W.getD k []) t)) ∧
    acSearch ((List.range 65).map (fun i => [i])) [64] = [([64], [0])] := by
  constructor
  · intro β inst W s k hk hne t
    rw [acSearchPairs, mem_pairs_iff (acSearch_nodup W s),
      acSearch_mem W s hne t]
    have hmem : W.getD k [] ∈ W := mem_iff_getD.mpr ⟨k, hk, rfl⟩
    constructor
    · exact fun h => h.2
    · exact fun h => ⟨hmem, h⟩
  · decide

/-- Witness for C10 at the 65-pattern list, pattern id 64. -/
theorem claim_C10_witness :
    ((((List.range 65).map (fun i => [i])).getD 64 [], 0) ∈
        acSearchPairs ((List.range 65).map (fun i => [i])) [64] ↔
      occursAt [64] (((List.range 65).map (fun i => [i])).getD 64 []) 0) :=
  claim_C10.1 Nat ((List.range 65).map (fun i => [i])) [64] 64 (by decide)
    (by decide) 0

end StringSearch
